import Mathlib

/-!
# Relaxation engines of `parallel-computing`

A shallow embedding of the three relaxation programs of the repository:

* `distributed_memory/sequential.c`  (sequential Jacobi reference engine),
* `shared_memory/main.c`             (pthread engine working in place),
* `distributed_memory/main.c`        (MPI engine with ghost rows),

together with their `createDoubleMatrix` helpers.

Modelling conventions.

* A C `double` is modelled at two levels.  In the first part of the definitions
  a double is a rational number (`ℚ`) and `+`, `-`, `/` are exact: this level
  carries the results that do not depend on rounding (index ranges, data
  movement, frames, the 4 × 4 example, whose doubles are exact).  In the
  namespace `Binary64` every floating-point operation of the source is rounded to
  the binary64 format (to nearest, ties to even, subnormal numbers included):
  this level carries the results that depend on the arithmetic the programs
  execute.  Overflow, infinities and NaN are not modelled; the cells of the
  engines stay in `[0, 1]` and their sums in `[0, 4]`.
* A C `int` is a mathematical integer (`Int`); no overflow is modelled, so the
  results cover dimensions for which `D * D + 2 * D` fits in an `int`.
* A `double**` matrix is a function `Int → Int → ℚ` (row, column); a flat
  `double*` array is a function `Int → ℚ`.  A write is a pointwise update.
* `for (int i = a; i < b; i++)` is a left fold over `loopRange a b`.
* The MPI calls succeed (`ok == MPI_SUCCESS`); a matched send/receive pair is
  the copy of the sent row into the receiving buffer.
-/

namespace Relaxation

/-! ## Loops and arrays -/

/-- The values taken by `i` in `for (int i = a; i < b; i++)`, in order. -/
def loopRange (a b : Int) : List Int :=
  List.map (fun (k : Nat) => a + (k : Int)) (List.range (b - a).toNat)

/-- A `double**` matrix. -/
abbrev Grid := Int → Int → ℚ

/-- A flat `double*` array. -/
abbrev Buf := Int → ℚ

/-- The assignment `matrix[x][y] = v`. -/
def setCell (m : Grid) (x y : Int) (v : ℚ) : Grid :=
  fun i j => if i = x ∧ j = y then v else m i j

/-- The assignment `matrix[k] = v`. -/
def setElem (m : Buf) (k : Int) (v : ℚ) : Buf :=
  fun i => if i = k then v else m i

/-- The assignment `a[i] = v` on an `int*` array. -/
def setInt (a : Int → Int) (i v : Int) : Int → Int :=
  fun k => if k = i then v else a k

/-- Copy of `n` doubles, `dst[dOff + t] = src[sOff + t]` for `0 ≤ t < n`: a
`memcpy`, or the payload of one matched `MPI_Send` / `MPI_Recv` pair. -/
def transfer (n : Int) (src : Buf) (sOff : Int) (dst : Buf) (dOff : Int) : Buf :=
  fun k => if dOff ≤ k ∧ k < dOff + n then src (sOff + (k - dOff)) else dst k

/-! ## Sequential engine (`sequential.c`, `matrix_sequential.c`) -/

namespace Sequential

/-- Body of the last loop of `createDoubleMatrix` for index `i`: the four
boundary assignments, in source order. -/
def boundaryStep (dimension : Int) (matrix : Grid) (i : Int) : Grid :=
  setCell (setCell (setCell (setCell matrix 0 i 1) i 0 1) (dimension - 1) i 0)
    i (dimension - 1) 0

/-- Function `createDoubleMatrix(dimension)` of `matrix_sequential.c`: zero fill of
the `dimension × dimension` cells, then the boundary loop. -/
def createDoubleMatrix (dimension : Int) : Grid :=
  let zeroed : Grid :=
    (loopRange 0 dimension).foldl
      (fun m i => (loopRange 0 dimension).foldl (fun m2 ii => setCell m2 i ii 0) m)
      (fun _ _ => 0)
  (loopRange 0 dimension).foldl (boundaryStep dimension) zeroed

/-- Stencil `averageNeighbours(double** matrix, int x, int y)` of `sequential.c`,
with the sum and the quotient taken exactly; the stencil with every operation
rounded is `Binary64.Sequential.averageNeighbours`. -/
def averageNeighbours (matrix : Grid) (x y : Int) : ℚ :=
  (matrix (x - 1) y + matrix (x + 1) y + matrix x (y - 1) + matrix x (y + 1)) / 4

/-- One `memcpy(dst[i], src[i], sizeof(double) * D)`: row `i`, columns `0..D-1`. -/
def memcpyRow (D : Int) (src : Grid) (i : Int) (dst : Grid) : Grid :=
  fun r j => if r = i ∧ 0 ≤ j ∧ j < D then src i j else dst r j

/-- The copy loop at the head of each pass of `relaxation()`:
`for (i = 0; i < D; i++) memcpy(doubleMatrixCopy[i], doubleMatrix[i], ...)`. -/
def memcpyRows (D : Int) (src dst : Grid) : Grid :=
  (loopRange 0 D).foldl (fun c i => memcpyRow D src i c) dst

/-- The variables of `relaxation()`: the two global matrices and the local flag. -/
structure State where
  doubleMatrix : Grid
  doubleMatrixCopy : Grid
  balanced : Bool

/-- Body of the innermost loop of `relaxation()` for the cell `(x, y)`. -/
def relaxCell (p : ℚ) (x y : Int) (s : State) : State :=
  let average := averageNeighbours s.doubleMatrixCopy x y
  { doubleMatrix := setCell s.doubleMatrix x y average
    doubleMatrixCopy := s.doubleMatrixCopy
    balanced :=
      if s.balanced then
        (if |average - s.doubleMatrix x y| > p then false else s.balanced)
      else s.balanced }

/-- The `for y` loop of `relaxation()` on row `x`, over an explicit list of columns. -/
def relaxRow (p : ℚ) (ys : List Int) (x : Int) (s : State) : State :=
  ys.foldl (fun t y => relaxCell p x y t) s

/-- The `for x` loop of `relaxation()`, over explicit lists of rows and columns. -/
def relaxRows (p : ℚ) (xs ys : List Int) (s : State) : State :=
  xs.foldl (fun t x => relaxRow p ys x t) s

/-- One execution of the body of `while (true)` in `relaxation()`, up to (not
including) the test `if (balanced) break;`: snapshot, then the two nested loops. -/
def relaxationPass (D : Int) (p : ℚ) (s : State) : State :=
  relaxRows p (loopRange 1 (D - 1)) (loopRange 1 (D - 1))
    { doubleMatrix := s.doubleMatrix
      doubleMatrixCopy := memcpyRows D s.doubleMatrix s.doubleMatrixCopy
      balanced := s.balanced }

/-- The state at the head of the next pass when the test `if (balanced)` fails:
the outcome of the pass, with `balanced = true;` executed. -/
def nextState (D : Int) (p : ℚ) (s : State) : State :=
  { relaxationPass D p s with balanced := true }

/-- The `while (true)` loop of `relaxation()`, bounded by a number of passes:
`none` when the loop has not left through `break` within `fuel` passes. -/
def relaxationLoop (D : Int) (p : ℚ) : Nat → State → Option State
  | 0, _ => none
  | fuel + 1, s =>
    let s1 := relaxationPass D p s
    if s1.balanced then some s1
    else relaxationLoop D p fuel (nextState D p s)

/-- The state in which `main` calls `relaxation()`: both matrices fresh from
`createDoubleMatrix`, and `bool balanced = true`. -/
def initialState (D : Int) : State :=
  { doubleMatrix := createDoubleMatrix D
    doubleMatrixCopy := createDoubleMatrix D
    balanced := true }

/-- The function `relaxation()` as called by `main`. -/
def relaxation (D : Int) (p : ℚ) (fuel : Nat) : Option State :=
  relaxationLoop D p fuel (initialState D)

end Sequential

/-! ## Shared-memory engine (`shared_memory/main.c`, `shared_memory/matrix.c`) -/

namespace SharedMemory

/-- Body of the last loop of `createDoubleMatrix` for index `i`. -/
def boundaryStep (dimension : Int) (matrix : Grid) (i : Int) : Grid :=
  setCell (setCell (setCell (setCell matrix 0 i 1) i 0 1) (dimension - 1) i 0)
    i (dimension - 1) 0

/-- Function `createDoubleMatrix(dimension)` of `shared_memory/matrix.c`. -/
def createDoubleMatrix (dimension : Int) : Grid :=
  let zeroed : Grid :=
    (loopRange 0 dimension).foldl
      (fun m i => (loopRange 0 dimension).foldl (fun m2 ii => setCell m2 i ii 0) m)
      (fun _ _ => 0)
  (loopRange 0 dimension).foldl (boundaryStep dimension) zeroed

/-- Stencil `averageNeighbours(double** matrix, int x, int y)` of
`shared_memory/main.c`, with the sum and the quotient taken exactly; the stencil
with every operation rounded is `Binary64.SharedMemory.averageNeighbours`. -/
def averageNeighbours (matrix : Grid) (x y : Int) : ℚ :=
  (matrix (x - 1) y + matrix (x + 1) y + matrix x (y - 1) + matrix x (y + 1)) / 4

/-- What one worker sees: the shared matrix and its own local flag. -/
structure State where
  doubleMatrix : Grid
  balanced : Bool

/-- Body of the innermost loop of `relaxationWorker` for the cell `(x, y)`: the
stencil reads the live matrix, and the test is `(average - old) > PRECISION`. -/
def relaxCell (p : ℚ) (x y : Int) (s : State) : State :=
  let average := averageNeighbours s.doubleMatrix x y
  { doubleMatrix := setCell s.doubleMatrix x y average
    balanced :=
      if s.balanced then
        (if (average - s.doubleMatrix x y) > p then false else s.balanced)
      else s.balanced }

/-- The rows on which the worker started with argument `tid` runs the body of
`for (int x = 1; x < ARRAY_DIMENSION - 1; x++)`.  The function never reads
`tid`. -/
def workerRows (D : Int) (_tid : Int) : List Int :=
  loopRange 1 (D - 1)

/-- One execution of the body of `while (true)` in `relaxationWorker(tid)`, with
no other worker running (the row locks then have no effect on the data). -/
def workerPass (D : Int) (p : ℚ) (tid : Int) (s : State) : State :=
  (workerRows D tid).foldl
    (fun t x => (loopRange 1 (D - 1)).foldl (fun u y => relaxCell p x y u) t) s

/-- The values of `i` handed to `pthread_create` by the launch loop of `main`. -/
def launchedWorkers (W : Int) : List Int :=
  loopRange 0 W

end SharedMemory

/-! ## Partition rule, as worded in the specification -/

namespace Spec

/-- Partition rule of the specification: worker `r` of `W` owns the rows
`[r*(D/W), (r+1)*(D/W))`, the last worker's range extending to `D`. -/
def ownedRows (D W r : Int) : List Int :=
  loopRange (r * (D / W)) (if r = W - 1 then D else (r + 1) * (D / W))

/-- Partition rule of the specification, mutable part: the owned rows without
the grid's row `0` and row `D - 1`. -/
def partitionRows (D W r : Int) : List Int :=
  (ownedRows D W r).filter (fun x => decide (x ≠ 0 ∧ x ≠ D - 1))

/-- Fixed point of the discrete Laplace system of dimension `D`: a grid with
the boundary cells of the start grid in which every interior cell equals the
mean of its four orthogonal neighbours. -/
def LaplaceFixedPoint (D : Int) (h : Grid) : Prop :=
  (∀ i j, 0 ≤ i → i < D → 0 ≤ j → j < D →
      ¬ ((1 ≤ i ∧ i ≤ D - 2) ∧ (1 ≤ j ∧ j ≤ D - 2)) →
      h i j = Sequential.createDoubleMatrix D i j) ∧
    (∀ i j, 1 ≤ i → i ≤ D - 2 → 1 ≤ j → j ≤ D - 2 →
      h i j = (h (i - 1) j + h (i + 1) j + h i (j - 1) + h i (j + 1)) / 4)

end Spec

/-! ## Distributed engine (`distributed_memory/main.c`, `distributed_memory/matrix.c`) -/

namespace Distributed

/-- Body of the inner loop of `createDoubleMatrix`: the `if / else if` chain. -/
def createCell (dimension i ii : Int) (matrix : Buf) : Buf :=
  if i = 0 then setElem matrix (i * dimension + ii) 1
  else if ii = 0 then setElem matrix (i * dimension + ii) 1
  else if i = dimension - 1 then setElem matrix (i * dimension + ii) 0
  else if ii = dimension - 1 then setElem matrix (i * dimension + ii) 0
  else setElem matrix (i * dimension + ii) 0

/-- Function `createDoubleMatrix(dimension)` of `distributed_memory/matrix.c`
(row-major flat array). -/
def createDoubleMatrix (dimension : Int) : Buf :=
  (loopRange 0 dimension).foldl
    (fun m i => (loopRange 0 dimension).foldl (fun m2 ii => createCell dimension i ii m2) m)
    (fun _ => 0)

/-- Function `getElemFromDoubleMatrix(matrix, dimension, x, y)`. -/
def getElemFromDoubleMatrix (matrix : Buf) (dimension x y : Int) : ℚ :=
  matrix (y * dimension + x)

/-- The variables written by the counts loop of `main`. -/
structure Counts where
  numRowsPerProc : Int
  sendCounts : Int → Int
  recvCounts : Int → Int
  sendDisplacements : Int → Int
  recvDisplacements : Int → Int

/-- Body of `for (int i = 0; i < world_size; i++)` computing the four arrays. -/
def countsBody (D W : Int) (c : Counts) (i : Int) : Counts :=
  let sendCounts := setInt c.sendCounts i (c.numRowsPerProc * D + D * 2)
  let recvCounts := setInt c.recvCounts i (sendCounts i - D * 2)
  let sendDisplacements := setInt c.sendDisplacements i (c.numRowsPerProc * D * i - D)
  let recvDisplacements := setInt c.recvDisplacements i (c.numRowsPerProc * D * i)
  if i = W - 1 then
    let numRowsPerProc := D % W + c.numRowsPerProc
    let sendCounts2 := setInt sendCounts i (numRowsPerProc * D + D)
    { numRowsPerProc := numRowsPerProc
      sendCounts := sendCounts2
      recvCounts := setInt recvCounts i (sendCounts2 i - D)
      sendDisplacements := sendDisplacements
      recvDisplacements := recvDisplacements }
  else if i = 0 then
    let sendCounts2 := setInt sendCounts i (c.numRowsPerProc * D + D)
    { numRowsPerProc := c.numRowsPerProc
      sendCounts := sendCounts2
      recvCounts := setInt recvCounts i (sendCounts2 i - D)
      sendDisplacements := setInt sendDisplacements i i
      recvDisplacements := setInt recvDisplacements i D }
  else
    { numRowsPerProc := c.numRowsPerProc
      sendCounts := sendCounts
      recvCounts := recvCounts
      sendDisplacements := sendDisplacements
      recvDisplacements := recvDisplacements }

/-- The counts loop of `main`, started with `numRowsPerProc = D / world_size`. -/
def computeCounts (D W : Int) : Counts :=
  (loopRange 0 W).foldl (countsBody D W)
    { numRowsPerProc := D / W
      sendCounts := fun _ => 0
      recvCounts := fun _ => 0
      sendDisplacements := fun _ => 0
      recvDisplacements := fun _ => 0 }

/-- The value of `numRowsPerProc` recomputed after the counts loop, per rank. -/
def numRowsPerProc (D W world_rank : Int) : Int :=
  if world_rank = W - 1 then D % W + D / W
  else if world_rank = 0 then D / W - 1
  else D / W

/-- The two buffers of one rank. -/
structure Rank where
  doubleMatrixBuffer : Buf
  doubleMatrixBufferCopy : Buf

/-- Messages with tag 0: every rank `> 0` sends its buffer row 1 (step 1, its
first action of the iteration) and every rank `< W - 1` receives that row from
rank `+ 1` into buffer row `numRowsPerProc + 1` (step 2). -/
def exchangeUp (D W : Int) (bufs : Int → Buf) : Int → Buf :=
  fun r =>
    if r < W - 1 then
      transfer D (bufs (r + 1)) D (bufs r) ((numRowsPerProc D W r + 1) * D)
    else bufs r

/-- Messages with tag 1: every rank `< W - 1` sends its buffer row
`numRowsPerProc` (step 3, after its step 2) and every rank `> 0` receives that
row from rank `- 1` into buffer row 0 (step 4). -/
def exchangeDown (D W : Int) (bufs : Int → Buf) : Int → Buf :=
  fun r =>
    if r > 0 then
      transfer D (bufs (r - 1)) (numRowsPerProc D W (r - 1) * D) (bufs r) 0
    else bufs r

/-- The buffer under relaxation and the local `int balanced`. -/
structure LocalState where
  doubleMatrixBuffer : Buf
  balanced : Bool

/-- The loop of rank 0 over `balancedArray`, started with `done = true`: the
first entry that is not `true` sets `done = false` and leaves the loop. -/
def checkBalanced (balancedArray : Int → Bool) : List Int → Bool
  | [] => true
  | i :: t => if balancedArray i != true then false else checkBalanced balancedArray t

/-- Outcome of one iteration of the main loop on all ranks. -/
structure Iteration where
  ranks : Int → Rank
  balanced : Int → Bool
  done : Int → Bool

/-- The buffer rows on which rank `world_rank` runs the `for ii` loop. -/
def relaxedBufferRows (D W world_rank : Int) : List Int :=
  (loopRange 1 (numRowsPerProc D W world_rank + 1)).filter
    (fun i => decide (¬ (world_rank = W - 1 ∧ i = numRowsPerProc D W world_rank)))

/-- The grid row held in buffer row `i` of rank `world_rank`: the buffer is
filled from `doubleMatrix[sendDisplacements[world_rank] + ...]`. -/
def gridRowOfBufferRow (D W world_rank i : Int) : Int :=
  ((computeCounts D W).sendDisplacements world_rank + i * D) / D

/-- The grid rows relaxed by rank `world_rank`. -/
def relaxedGridRows (D W world_rank : Int) : List Int :=
  (relaxedBufferRows D W world_rank).map (gridRowOfBufferRow D W world_rank)

/-- The grid rows overwritten at rank 0 by the contribution of rank `r` to the
final `MPI_Gatherv`: `recvCounts[r]` doubles placed at `recvDisplacements[r]`. -/
def gatheredGridRows (D W r : Int) : List Int :=
  loopRange ((computeCounts D W).recvDisplacements r / D)
    (((computeCounts D W).recvDisplacements r + (computeCounts D W).recvCounts r) / D)

/-- The buffer row of rank `r` that the final `MPI_Gatherv` places in grid row
`x`: the send buffer starts at `doubleMatrixBuffer + ARRAY_DIMENSION`. -/
def gatheredBufferRow (D W r x : Int) : Int :=
  x - (computeCounts D W).recvDisplacements r / D + 1

/-- The grid row held in buffer row 0 of rank `world_rank` when there are at
least two ranks: `sendDisplacements[world_rank] / ARRAY_DIMENSION`. -/
def firstHeldRow (D W world_rank : Int) : Int :=
  if world_rank = 0 then 0 else D / W * world_rank - 1

end Distributed

/-! ## Indices touched by the distributed engine -/

namespace Distributed

/-- The indices of the replicated grid read by the buffer initialisation loop
`doubleMatrixBuffer[i] = doubleMatrix[sendDisplacements[rank] + i]`,
`0 ≤ i < sendCounts[rank]`. -/
def initReadIndices (D W world_rank : Int) : List Int :=
  List.map (fun i => (computeCounts D W).sendDisplacements world_rank + i)
    (loopRange 0 ((computeCounts D W).sendCounts world_rank))

/-- The buffer indices of rank `world_rank` touched by the four steps of the
ghost exchange: the row sent up, the trailing ghost row received, the row sent
down, the leading ghost row received (each of `ARRAY_DIMENSION` doubles). -/
def exchangeIndices (D W world_rank : Int) : List Int :=
  (if world_rank > 0 then List.map (fun t => D + t) (loopRange 0 D) else []) ++
    (if world_rank < W - 1 then
      List.map (fun t => (numRowsPerProc D W world_rank + 1) * D + t) (loopRange 0 D)
     else []) ++
    (if world_rank < W - 1 then
      List.map (fun t => numRowsPerProc D W world_rank * D + t) (loopRange 0 D)
     else []) ++
    (if world_rank > 0 then loopRange 0 D else [])

/-- The buffer indices touched for the cell `(i, ii)` of the local relaxation:
the four reads of `averageNeighbours`, the read of the old value, the write. -/
def cellIndices (D i ii : Int) : List Int :=
  [i * D + (ii - 1), i * D + (ii + 1), (i + 1) * D + ii, (i - 1) * D + ii, i * D + ii,
    i * D + ii]

/-- The buffer indices of rank `world_rank` touched by the `memcpy` and by the
two loops of the local relaxation. -/
def relaxationIndices (D W world_rank : Int) : List Int :=
  loopRange 0 ((computeCounts D W).sendCounts world_rank) ++
    List.flatten (List.map
      (fun i => List.flatten (List.map (fun ii => cellIndices D i ii) (loopRange 1 (D - 1))))
      (relaxedBufferRows D W world_rank))

end Distributed

/-! ## Ghost exchange as a system of blocking calls -/

namespace Distributed

/-- A blocking point-to-point call of the ghost exchange, with the partner rank
and the message tag. -/
inductive Call where
  | send (dest : Int) (tag : Int)
  | recv (source : Int) (tag : Int)
  deriving DecidableEq

/-- The call made by rank `world_rank` at step `step` of the ghost exchange
(steps 0 to 3, in source order), or `none` when the guard `if (...)` of that
step is false. -/
def exchangeCall (W world_rank : Int) (step : Nat) : Option Call :=
  match step with
  | 0 => if world_rank > 0 then some (Call.send (world_rank - 1) 0) else none
  | 1 => if world_rank < W - 1 then some (Call.recv (world_rank + 1) 0) else none
  | 2 => if world_rank < W - 1 then some (Call.send (world_rank + 1) 1) else none
  | 3 => if world_rank > 0 then some (Call.recv (world_rank - 1) 1) else none
  | _ => none

/-- Rank `r` goes on to its next step. -/
def advance (pc : Int → Nat) (r : Int) : Int → Nat :=
  fun k => if k = r then pc r + 1 else pc k

/-- One move initiated by rank `r`, where `pc k` is the step rank `k` is at
(4 = exchange finished).  A step whose guard is false is passed; a send
completes only together with the matching receive (same tag, posted by the
destination, naming `r` as source), and then both ranks go on; a rank at a
receive waits for its sender to move. -/
def fire (W : Int) (pc : Int → Nat) (r : Int) : Option (Int → Nat) :=
  if 4 ≤ pc r then none
  else
    match exchangeCall W r (pc r) with
    | none => some (advance pc r)
    | some (Call.send dest tag) =>
      if exchangeCall W dest (pc dest) = some (Call.recv r tag) then
        some (advance (advance pc r) dest)
      else none
    | some (Call.recv _ _) => none

/-- Runs of the ghost exchange: finitely many moves of ranks `0 ≤ r < W`. -/
inductive Steps (W : Int) : (Int → Nat) → (Int → Nat) → Prop
  | refl (pc : Int → Nat) : Steps W pc pc
  | step (pc pc1 pc2 : Int → Nat) (r : Int) :
      Steps W pc pc1 → 0 ≤ r → r < W → fire W pc1 r = some pc2 → Steps W pc pc2

/-- The states reachable from the start of an iteration, where every rank is at
step 0. -/
def Reachable (W : Int) (pc : Int → Nat) : Prop :=
  Steps W (fun _ => 0) pc

/-- The number of steps still to be taken by the ranks `0 ≤ r < W`. -/
def remaining (W : Int) (pc : Int → Nat) : Nat :=
  (List.map (fun r => 4 - pc r) (loopRange 0 W)).sum

end Distributed

/-- Invariant of the ghost exchange: no rank is past step 4; rank `r` has
completed its send up exactly when rank `r - 1` has completed its receive from
below; rank `r` has completed its send down exactly when rank `r + 1` has
completed its receive from above. -/
def ExchangeInv (W : Int) (pc : Int → Nat) : Prop :=
  (∀ r, pc r ≤ 4) ∧
    (∀ r, 1 ≤ r → r < W → (1 ≤ pc r ↔ 2 ≤ pc (r - 1))) ∧
    (∀ r, 0 ≤ r → r < W - 1 → (3 ≤ pc r ↔ 4 ≤ pc (r + 1)))

/-! ## Option loops of the three `main` functions -/

/-- One delivery of `getopt`: the option character, with `optarg` already read
through `atoi` (for `a`, `w`) or `atof` (for `p`); `other` is any character
without a `case` in the `switch` (such as `?`). -/
inductive Opt where
  | a (optarg : Int)
  | p (optarg : ℚ)
  | w (optarg : Int)
  | other

namespace SharedMemory

/-- The globals set by the option loop of `shared_memory/main.c`. -/
structure Settings where
  PRECISION : ℚ
  ARRAY_DIMENSION : Int
  WORKERS : Int

/-- The defaults: `PRECISION = 0.001`, `ARRAY_DIMENSION = 4`, `WORKERS = 1`. -/
def defaults : Settings :=
  { PRECISION := 1 / 1000, ARRAY_DIMENSION := 4, WORKERS := 1 }

/-- The `while (true)` loop over `getopt(argc, argv, "a:p:w:")`: each option is
stored, then checked, and `return -1` leaves `main` at once. -/
def optionLoop : List Opt → Settings → Except Int Settings
  | [], s => Except.ok s
  | Opt.a optarg :: rest, s =>
    let s1 := { s with ARRAY_DIMENSION := optarg }
    if s1.ARRAY_DIMENSION < 3 then Except.error (-1) else optionLoop rest s1
  | Opt.p optarg :: rest, s =>
    let s1 := { s with PRECISION := optarg }
    if s1.PRECISION < 0 ∨ s1.PRECISION > 1 then Except.error (-1) else optionLoop rest s1
  | Opt.w optarg :: rest, s =>
    let s1 := { s with WORKERS := optarg }
    if s1.WORKERS < 1 then Except.error (-1) else optionLoop rest s1
  | Opt.other :: rest, s => optionLoop rest s

/-- The start of `main`: the option loop, then
`doubleMatrix = createDoubleMatrix(ARRAY_DIMENSION)`; the result is the exit
status of an early `return`, or the settings and the grid handed to the
workers. -/
def mainStart (opts : List Opt) : Except Int (Settings × Grid) :=
  match optionLoop opts defaults with
  | Except.error status => Except.error status
  | Except.ok s => Except.ok (s, createDoubleMatrix s.ARRAY_DIMENSION)

end SharedMemory

namespace Distributed

/-- The globals set by the option loop of `distributed_memory/main.c`. -/
structure Settings where
  PRECISION : ℚ
  ARRAY_DIMENSION : Int

/-- The defaults: `PRECISION = 0.001`, `ARRAY_DIMENSION = 30`. -/
def defaults : Settings :=
  { PRECISION := 1 / 1000, ARRAY_DIMENSION := 30 }

/-- The `while (true)` loop over `getopt(argc, argv, "a:p:")`; the `switch` has
the cases `a` and `p` only. -/
def optionLoop : List Opt → Settings → Except Int Settings
  | [], s => Except.ok s
  | Opt.a optarg :: rest, s =>
    let s1 := { s with ARRAY_DIMENSION := optarg }
    if s1.ARRAY_DIMENSION < 3 then Except.error (-1) else optionLoop rest s1
  | Opt.p optarg :: rest, s =>
    let s1 := { s with PRECISION := optarg }
    if s1.PRECISION < 0 ∨ s1.PRECISION > 1 then Except.error (-1) else optionLoop rest s1
  | Opt.w _ :: rest, s => optionLoop rest s
  | Opt.other :: rest, s => optionLoop rest s

/-- The start of `main`: the option loop, then (after the MPI set-up and the
counts) `doubleMatrix = createDoubleMatrix(ARRAY_DIMENSION)`. -/
def mainStart (opts : List Opt) : Except Int (Settings × Buf) :=
  match optionLoop opts defaults with
  | Except.error status => Except.error status
  | Except.ok s => Except.ok (s, createDoubleMatrix s.ARRAY_DIMENSION)

end Distributed

namespace Sequential

/-- The globals set by the option loop of `sequential.c`. -/
structure Settings where
  PRECISION : ℚ
  ARRAY_DIMENSION : Int

/-- The defaults: `PRECISION = 0.001`, `ARRAY_DIMENSION = 4`. -/
def defaults : Settings :=
  { PRECISION := 1 / 1000, ARRAY_DIMENSION := 4 }

/-- The `while (true)` loop over `getopt(argc, argv, "a:p:")`. -/
def optionLoop : List Opt → Settings → Except Int Settings
  | [], s => Except.ok s
  | Opt.a optarg :: rest, s =>
    let s1 := { s with ARRAY_DIMENSION := optarg }
    if s1.ARRAY_DIMENSION < 3 then Except.error (-1) else optionLoop rest s1
  | Opt.p optarg :: rest, s =>
    let s1 := { s with PRECISION := optarg }
    if s1.PRECISION < 0 ∨ s1.PRECISION > 1 then Except.error (-1) else optionLoop rest s1
  | Opt.w _ :: rest, s => optionLoop rest s
  | Opt.other :: rest, s => optionLoop rest s

/-- The start of `main`: the option loop, then the two calls of
`createDoubleMatrix(ARRAY_DIMENSION)`. -/
def mainStart (opts : List Opt) : Except Int (Settings × Grid × Grid) :=
  match optionLoop opts defaults with
  | Except.error status => Except.error status
  | Except.ok s =>
    Except.ok (s, createDoubleMatrix s.ARRAY_DIMENSION, createDoubleMatrix s.ARRAY_DIMENSION)

end Sequential

namespace Spec

/-- A supplied dimension below 3 or a supplied precision outside `[0, 1]`. -/
def badDimensionOrPrecision : Opt → Prop
  | Opt.a v => v < 3
  | Opt.p v => v < 0 ∨ v > 1
  | _ => False

/-- A supplied value that the shared-memory program must reject: as above, or
a worker count below 1. -/
def badShared : Opt → Prop
  | Opt.a v => v < 3
  | Opt.p v => v < 0 ∨ v > 1
  | Opt.w v => v < 1
  | Opt.other => False

/-- The dimension in force after the options: the last one supplied, else the
default. -/
def dimensionOf : List Opt → Int → Int
  | [], d => d
  | Opt.a v :: rest, _ => dimensionOf rest v
  | _ :: rest, d => dimensionOf rest d

/-- The precision in force after the options. -/
def precisionOf : List Opt → ℚ → ℚ
  | [], d => d
  | Opt.p v :: rest, _ => precisionOf rest v
  | _ :: rest, d => precisionOf rest d

/-- The worker count in force after the options. -/
def workersOf : List Opt → Int → Int
  | [], d => d
  | Opt.w v :: rest, _ => workersOf rest v
  | _ :: rest, d => workersOf rest d

end Spec

/-! ## Binary64 arithmetic -/

namespace Binary64

/-- The power `2 ^ e` as a rational, for an integer exponent. -/
def pow2 (e : Int) : ℚ :=
  if 0 ≤ e then ((2 ^ e.toNat : Nat) : ℚ) else 1 / ((2 ^ (-e).toNat : Nat) : ℚ)

/-- Number of halvings that bring `n` below 2 (taken 32 or 8 at a time while
`n` is large), in at most `fuel` steps. -/
def log2Fuel : Nat → Nat → Nat
  | 0, _ => 0
  | fuel + 1, n =>
    if 4294967296 ≤ n then log2Fuel fuel (n / 4294967296) + 32
    else if 256 ≤ n then log2Fuel fuel (n / 256) + 8
    else if 2 ≤ n then log2Fuel fuel (n / 2) + 1
    else 0

/-- Binary exponent of a nonzero rational: the `e` with `2 ^ e ≤ |q| < 2 ^ (e + 1)`,
read off the integer quotient of numerator and denominator. -/
def floorLog2 (q : ℚ) : Int :=
  if q.den ≤ q.num.natAbs then (log2Fuel q.num.natAbs (q.num.natAbs / q.den) : Int)
  else -((log2Fuel q.den ((q.den - 1) / q.num.natAbs) : Int) + 1)

/-- Rounding to the nearest integer, ties to the even one. -/
def roundHalfEven (q : ℚ) : Int :=
  let f := ⌊q⌋
  if q - f < 1 / 2 then f
  else if 1 / 2 < q - f then f + 1
  else if f % 2 = 0 then f else f + 1

/-- Exponent of the unit in the last place of the binary64 format at `q`: 52
below the binary exponent of `q`, and `-1074` throughout the subnormal range. -/
def ulpExponent (q : ℚ) : Int :=
  max (floorLog2 q - 52) (-1074)

/-- Rounding of a real value to the binary64 format, to nearest, ties to even
(the default rounding of a C `double` operation).  Overflow to infinity is not
modelled: the values of the engines stay within `[-4, 4]`. -/
def roundDouble (q : ℚ) : ℚ :=
  (roundHalfEven (q / pow2 (ulpExponent q)) : ℚ) * pow2 (ulpExponent q)

/-- The C expression `a + b` on doubles. -/
def fadd (a b : ℚ) : ℚ := roundDouble (a + b)

/-- The C expression `a - b` on doubles. -/
def fsub (a b : ℚ) : ℚ := roundDouble (a - b)

/-- The C expression `a / b` on doubles. -/
def fdiv (a b : ℚ) : ℚ := roundDouble (a / b)

end Binary64

/-! ## The three engines in binary64 arithmetic

The same loops as above, with every floating-point operation of the source
rounded to binary64.  Data movement (`memcpy`, messages, counts) is shared with
the definitions above. -/

namespace Binary64

namespace Sequential

/-- Stencil `averageNeighbours(double** matrix, int x, int y)` of `sequential.c`:
`matrix[x-1][y] + matrix[x+1][y] + matrix[x][y-1] + matrix[x][y+1]`, added
from left to right, then `avg / 4.0`. -/
def averageNeighbours (matrix : Grid) (x y : Int) : ℚ :=
  fdiv (fadd (fadd (fadd (matrix (x - 1) y) (matrix (x + 1) y)) (matrix x (y - 1)))
    (matrix x (y + 1))) 4

/-- Body of the innermost loop of `relaxation()` for the cell `(x, y)`. -/
def relaxCell (p : ℚ) (x y : Int) (s : Sequential.State) : Sequential.State :=
  let average := averageNeighbours s.doubleMatrixCopy x y
  { doubleMatrix := setCell s.doubleMatrix x y average
    doubleMatrixCopy := s.doubleMatrixCopy
    balanced :=
      if s.balanced then
        (if |fsub average (s.doubleMatrix x y)| > p then false else s.balanced)
      else s.balanced }

/-- The `for y` loop of `relaxation()` on row `x`, over an explicit list of columns. -/
def relaxRow (p : ℚ) (ys : List Int) (x : Int) (s : Sequential.State) : Sequential.State :=
  ys.foldl (fun t y => relaxCell p x y t) s

/-- The `for x` loop of `relaxation()`, over explicit lists of rows and columns. -/
def relaxRows (p : ℚ) (xs ys : List Int) (s : Sequential.State) : Sequential.State :=
  xs.foldl (fun t x => relaxRow p ys x t) s

/-- One execution of the body of `while (true)` in `relaxation()`, up to (not
including) the test `if (balanced) break;`. -/
def relaxationPass (D : Int) (p : ℚ) (s : Sequential.State) : Sequential.State :=
  relaxRows p (loopRange 1 (D - 1)) (loopRange 1 (D - 1))
    { doubleMatrix := s.doubleMatrix
      doubleMatrixCopy := Sequential.memcpyRows D s.doubleMatrix s.doubleMatrixCopy
      balanced := s.balanced }

/-- The state at the head of the next pass when the test `if (balanced)` fails. -/
def nextState (D : Int) (p : ℚ) (s : Sequential.State) : Sequential.State :=
  { relaxationPass D p s with balanced := true }

/-- The `while (true)` loop of `relaxation()`, bounded by a number of passes:
`none` when the loop has not left through `break` within `fuel` passes. -/
def relaxationLoop (D : Int) (p : ℚ) : Nat → Sequential.State → Option Sequential.State
  | 0, _ => none
  | fuel + 1, s =>
    let s1 := relaxationPass D p s
    if s1.balanced then some s1
    else relaxationLoop D p fuel (nextState D p s)

/-- The function `relaxation()` as called by `main`. -/
def relaxation (D : Int) (p : ℚ) (fuel : Nat) : Option Sequential.State :=
  relaxationLoop D p fuel (Sequential.initialState D)

end Sequential

namespace SharedMemory

/-- Stencil `averageNeighbours(double** matrix, int x, int y)` of
`shared_memory/main.c`. -/
def averageNeighbours (matrix : Grid) (x y : Int) : ℚ :=
  fdiv (fadd (fadd (fadd (matrix (x - 1) y) (matrix (x + 1) y)) (matrix x (y - 1)))
    (matrix x (y + 1))) 4

/-- Body of the innermost loop of `relaxationWorker` for the cell `(x, y)`: the
stencil reads the live matrix, and the test is `(average - old) > PRECISION`. -/
def relaxCell (p : ℚ) (x y : Int) (s : SharedMemory.State) : SharedMemory.State :=
  let average := averageNeighbours s.doubleMatrix x y
  { doubleMatrix := setCell s.doubleMatrix x y average
    balanced :=
      if s.balanced then
        (if fsub average (s.doubleMatrix x y) > p then false else s.balanced)
      else s.balanced }

/-- One execution of the body of `while (true)` in `relaxationWorker(tid)`, with
no other worker running. -/
def workerPass (D : Int) (p : ℚ) (tid : Int) (s : SharedMemory.State) : SharedMemory.State :=
  (SharedMemory.workerRows D tid).foldl
    (fun t x => (loopRange 1 (D - 1)).foldl (fun u y => relaxCell p x y u) t) s

end SharedMemory

namespace Distributed

/-- Stencil `averageNeighbours(double* matrix, int x, int y)` of
`distributed_memory/main.c`: the elements `(x-1, y)`, `(x+1, y)`, `(x, y+1)`,
`(x, y-1)`, added from left to right, then `avg / 4.0`. -/
def averageNeighbours (D : Int) (matrix : Buf) (x y : Int) : ℚ :=
  fdiv (fadd (fadd (fadd (Distributed.getElemFromDoubleMatrix matrix D (x - 1) y)
      (Distributed.getElemFromDoubleMatrix matrix D (x + 1) y))
      (Distributed.getElemFromDoubleMatrix matrix D x (y + 1)))
      (Distributed.getElemFromDoubleMatrix matrix D x (y - 1))) 4

/-- Body of the `for ii` loop of the local relaxation, for buffer cell `(i, ii)`. -/
def relaxCell (D : Int) (p : ℚ) (copy : Buf) (i ii : Int) (s : Distributed.LocalState) :
    Distributed.LocalState :=
  let average := averageNeighbours D copy ii i
  { doubleMatrixBuffer := setElem s.doubleMatrixBuffer (i * D + ii) average
    balanced :=
      if s.balanced &&
          decide (|fsub average (Distributed.getElemFromDoubleMatrix copy D ii i)| > p) then false
      else s.balanced }

/-- Body of the `for i` loop of the local relaxation: the `continue` of the
last rank on its last row, else the `for ii` loop. -/
def relaxRow (D W : Int) (p : ℚ) (world_rank : Int) (copy : Buf) (s : Distributed.LocalState)
    (i : Int) : Distributed.LocalState :=
  if world_rank = W - 1 ∧ i = Distributed.numRowsPerProc D W world_rank then s
  else (loopRange 1 (D - 1)).foldl (fun t ii => relaxCell D p copy i ii t) s

/-- The `memcpy` into the copy buffer, `int balanced = true`, and the two nested
relaxation loops of one rank. -/
def localRelaxation (D W : Int) (p : ℚ) (world_rank : Int) (rk : Distributed.Rank) :
    Distributed.Rank × Bool :=
  let copy := transfer ((Distributed.computeCounts D W).sendCounts world_rank)
    rk.doubleMatrixBuffer 0 rk.doubleMatrixBufferCopy 0
  let s := (loopRange 1 (Distributed.numRowsPerProc D W world_rank + 1)).foldl
    (relaxRow D W p world_rank copy)
    { doubleMatrixBuffer := rk.doubleMatrixBuffer, balanced := true }
  ({ doubleMatrixBuffer := s.doubleMatrixBuffer, doubleMatrixBufferCopy := copy }, s.balanced)

/-- One iteration of the `while (true)` loop of `main`, on all ranks: ghost
exchange, local relaxation, `MPI_Gather` of the flags to rank 0, the loop of
rank 0, and `MPI_Bcast` of its `done` to every rank. -/
def iteration (D W : Int) (p : ℚ) (ranks : Int → Distributed.Rank) : Distributed.Iteration :=
  let exchanged := Distributed.exchangeDown D W
    (Distributed.exchangeUp D W (fun r => (ranks r).doubleMatrixBuffer))
  let relaxed := fun r =>
    localRelaxation D W p r
      { doubleMatrixBuffer := exchanged r
        doubleMatrixBufferCopy := (ranks r).doubleMatrixBufferCopy }
  let balancedArray := fun i => (relaxed i).2
  let rootDone := Distributed.checkBalanced balancedArray (loopRange 0 W)
  { ranks := fun r => (relaxed r).1
    balanced := balancedArray
    done := fun _ => rootDone }

end Distributed

end Binary64

/-! ## Auxiliary notions for the statements -/

namespace Binary64

/-- The C expression `(a + b + c + d) / 4.0` on doubles, evaluated from left to
right. -/
def sumDiv4 (a b c d : ℚ) : ℚ :=
  fdiv (fadd (fadd (fadd a b) c) d) 4

end Binary64

namespace Binary64

end Binary64

namespace Binary64

/-- A matrix on which the in-place pass of the shared-memory worker can only
raise cells: no cell of the `D × D` square is negative, and no interior cell
exceeds the stencil value of its neighbours. -/
def SubHarmonic (D : Int) (m : Grid) : Prop :=
  (∀ i j, 0 ≤ i → i < D → 0 ≤ j → j < D → 0 ≤ m i j) ∧
    ∀ x y, 1 ≤ x → x ≤ D - 2 → 1 ≤ y → y ≤ D - 2 → m x y ≤ SharedMemory.averageNeighbours m x y

/-- The matrices the global `doubleMatrix` of the shared-memory program can hold
at the head of a pass of a single worker: the one made by `createDoubleMatrix`,
and the outcome of a worker pass on such a matrix. -/
inductive WorkerReachable (D : Int) : Grid → Prop
  | start : WorkerReachable D (Relaxation.SharedMemory.createDoubleMatrix D)
  | pass (m : Grid) (p : ℚ) (tid : Int) (balanced : Bool) :
      WorkerReachable D m →
        WorkerReachable D (SharedMemory.workerPass D p tid ⟨m, balanced⟩).doubleMatrix

end Binary64

namespace Binary64

/-- The real number `q` is a binary64 number: rounding leaves it unchanged. -/
def Representable (q : ℚ) : Prop :=
  roundDouble q = q

end Binary64

/-! ## Matrices given by the list of their rows

Used to evaluate the engines on concrete inputs. -/

namespace Binary64

/-- The matrix whose rows are listed in `t` (zero outside the listed cells). -/
def tableGrid (t : List (List ℚ)) : Grid :=
  fun i j => if 0 ≤ i ∧ 0 ≤ j then (t.getD i.toNat []).getD j.toNat 0 else 0

/-- The rows `0..D-1`, columns `0..D-1`, of a matrix. -/
def gridTable (D : Int) (m : Grid) : List (List ℚ) :=
  (loopRange 0 D).map (fun i => (loopRange 0 D).map (fun j => m i j))

/-- The matrix left by one pass of the sequential engine on the matrix listed
in `t`: the stencil of `sequential.c` on the interior cells, the other cells
unchanged. -/
def tablePass (D : Int) (t : List (List ℚ)) : List (List ℚ) :=
  gridTable D (fun i j =>
    if (1 ≤ i ∧ i ≤ D - 2) ∧ (1 ≤ j ∧ j ≤ D - 2) then Sequential.averageNeighbours (tableGrid t) i j
    else tableGrid t i j)

/-- The flag `balanced` after one pass of the sequential engine on the matrix
listed in `t`, entered with the flag true. -/
def tableBalanced (D : Int) (p : ℚ) (t : List (List ℚ)) : Bool :=
  (loopRange 1 (D - 1)).all (fun x => (loopRange 1 (D - 1)).all (fun y =>
    decide (¬ |fsub (Sequential.averageNeighbours (tableGrid t) x y) (tableGrid t x y)| > p)))

/-- The matrix after `n` passes of the sequential engine none of which leaves
the flag true; `none` when one of them does. -/
def tableRun (D : Int) (p : ℚ) : Nat → List (List ℚ) → Option (List (List ℚ))
  | 0, t => some t
  | n + 1, t => if tableBalanced D p t then none else tableRun D p n (tablePass D t)

end Binary64

/-! ## Sample inputs -/

/-- A matrix with a single spike: `1` at cell `(1, 1)`, `0` everywhere else. -/
def spikeGrid : Grid :=
  fun i j => if i = 1 ∧ j = 1 then 1 else 0

/-- Every rank holding the replicated start grid of dimension 3 in both of its
buffers: for `D = 3` and two ranks both `sendDisplacements` are 0, so on its
allocated range the working buffer is the one filled by the initialisation
loop of `main`. -/
def sampleRanks : Int → Distributed.Rank :=
  fun _ =>
    { doubleMatrixBuffer := Distributed.createDoubleMatrix 3
      doubleMatrixBufferCopy := Distributed.createDoubleMatrix 3 }

/-- The solution of the 4 × 4 Laplace system on the start grid: interior cells
3/4, 1/2, 1/2, 1/4, every other cell as in `createDoubleMatrix(4)`. -/
def fourFixedPoint : Grid :=
  fun i j =>
    if i = 1 ∧ j = 1 then 3 / 4
    else if (i = 1 ∧ j = 2) ∨ (i = 2 ∧ j = 1) then 1 / 2
    else if i = 2 ∧ j = 2 then 1 / 4
    else Sequential.createDoubleMatrix 4 i j

/-! ## Sample inputs for the binary64 results -/

/-- A 3 × 3 matrix with `2^53` above the centre, `1` to its left and below it,
and `0` elsewhere. -/
def roundingGrid : Grid :=
  fun i j =>
    if i = 0 ∧ j = 1 then 9007199254740992
    else if (i = 1 ∧ j = 0) ∨ (i = 2 ∧ j = 1) then 1
    else 0

/-- The row-major flattening of a `D × D` matrix: element `k` of the flat array
is the cell in row `k / D` and column `k % D`. -/
def flatten (D : Int) (g : Grid) : Buf :=
  fun k => g (k / D) (k % D)

/-- The row-major flattening of `roundingGrid`. -/
def roundingBuf : Buf :=
  flatten 3 roundingGrid

/-- Ranks whose working buffers are filled from the matrix `g` as the
initialisation loop of `main` fills them from `doubleMatrix`: buffer element `k`
of rank `r` holds the element `sendDisplacements[r] + k` of the row-major
flattening of `g` (copy buffers zero). -/
def heldRanks (D W : Int) (g : Grid) : Int → Distributed.Rank :=
  fun r =>
    { doubleMatrixBuffer := fun k =>
        g (((Distributed.computeCounts D W).sendDisplacements r + k) / D)
          (((Distributed.computeCounts D W).sendDisplacements r + k) % D)
      doubleMatrixBufferCopy := fun _ => 0 }

/-- The 5 × 5 matrix of the sequential engine after 25 passes from
`createDoubleMatrix(5)`. -/
def five25 : List (List ℚ) :=
  [[1, 1, 1, 1, 1],
    [1, 235592857307 / 274877906944, 392632392557 / 549755813888, 8191 / 16384, 0],
    [1, 392632392557 / 549755813888, 4095 / 8192, 157022758035 / 549755813888, 0],
    [1, 8191 / 16384, 157022758035 / 549755813888, 39251495205 / 274877906944, 0],
    [1, 0, 0, 0, 0]]

/-- The 5 × 5 matrix of the sequential engine after 50 passes from
`createDoubleMatrix(5)`. -/
def five50 : List (List ℚ) :=
  [[1, 1, 1, 1, 1],
    [1, 1930114100850103 / 2251799813685248, 6433713619168695 / 9007199254740992,
     134217725 / 268435456, 0],
    [1, 6433713619168695 / 9007199254740992, 67108861 / 134217728,
     2573485367136841 / 9007199254740992, 0],
    [1, 134217725 / 268435456, 2573485367136841 / 9007199254740992,
     2573485300027977 / 18014398509481984, 0],
    [1, 0, 0, 0, 0]]

/-- The 5 × 5 matrix of the sequential engine after 75 passes from
`createDoubleMatrix(5)`. -/
def five75 : List (List ℚ) :=
  [[1, 1, 1, 1, 1],
    [1, 1930114126011831 / 2251799813685248, 6433713753361847 / 9007199254740992,
     274877906943 / 549755813888, 0],
    [1, 6433713753361847 / 9007199254740992, 137438953471 / 274877906944,
     2573485501329993 / 9007199254740992, 0],
    [1, 274877906943 / 549755813888, 2573485501329993 / 9007199254740992,
     2573485501321801 / 18014398509481984, 0],
    [1, 0, 0, 0, 0]]

/-- The 5 × 5 matrix of the sequential engine after 100 passes from
`createDoubleMatrix(5)`. -/
def five100 : List (List ℚ) :=
  [[1, 1, 1, 1, 1],
    [1, 965057063007963 / 1125899906842624, 6433713753386419 / 9007199254740992,
     4503599627370493 / 9007199254740992, 0],
    [1, 6433713753386419 / 9007199254740992, 2251799813685245 / 4503599627370496,
     2573485501354565 / 9007199254740992, 0],
    [1, 4503599627370493 / 9007199254740992, 2573485501354565 / 9007199254740992,
     2573485501354563 / 18014398509481984, 0],
    [1, 0, 0, 0, 0]]

/-- The 4 × 4 matrix of the sequential engine after 25 passes from
`createDoubleMatrix(4)`. -/
def four25 : List (List ℚ) :=
  [[1, 1, 1, 1],
    [1, 50331647 / 67108864, 33554431 / 67108864, 0],
    [1, 33554431 / 67108864, 16777215 / 67108864, 0],
    [1, 0, 0, 0]]

/-- The 4 × 4 matrix of the sequential engine after 51 passes from
`createDoubleMatrix(4)`. -/
def four51 : List (List ℚ) :=
  [[1, 1, 1, 1],
    [1, 3377699720527871 / 4503599627370496, 2251799813685247 / 4503599627370496, 0],
    [1, 2251799813685247 / 4503599627370496, 1125899906842623 / 4503599627370496, 0],
    [1, 0, 0, 0]]

/-- The 4 × 4 matrix of the sequential engine after 54 passes from
`createDoubleMatrix(4)`. -/
def four54 : List (List ℚ) :=
  [[1, 1, 1, 1],
    [1, 3 / 4, 1 / 2, 0],
    [1, 1 / 2, 1 / 4, 0],
    [1, 0, 0, 0]]

/-! # Proofs -/

/-! ## Basic facts about loops -/

theorem mem_loopRange {a b x : Int} : x ∈ loopRange a b ↔ a ≤ x ∧ x < b := by
  unfold loopRange
  simp only [List.mem_map, List.mem_range]
  constructor
  · rintro ⟨k, hk, rfl⟩
    have := Int.lt_toNat.1 hk
    omega
  · rintro ⟨h1, h2⟩
    have hx : (((x - a).toNat : Nat) : Int) = x - a := Int.toNat_of_nonneg (by omega)
    exact ⟨(x - a).toNat, Int.lt_toNat.2 (by omega), by omega⟩

theorem nodup_loopRange (a b : Int) : (loopRange a b).Nodup := by
  unfold loopRange
  apply List.Nodup.map_on _ (List.nodup_range _)
  intro k1 _ k2 _ h
  omega

theorem loopRange_nil {a b : Int} (h : b ≤ a) : loopRange a b = [] := by
  unfold loopRange
  have : (b - a).toNat = 0 := by omega
  rw [this]
  rfl

theorem loopRange_cons {a b : Int} (h : a < b) : loopRange a b = a :: loopRange (a + 1) b := by
  unfold loopRange
  have : (b - a).toNat = (b - (a + 1)).toNat + 1 := by omega
  rw [this, List.range_succ_eq_map, List.map_cons, List.map_map]
  simp only [Nat.cast_zero, add_zero, List.cons.injEq, true_and]
  apply List.map_congr_left
  intro k _
  simp only [Function.comp_apply, Nat.cast_succ]
  ring

theorem flat_inj {D i j x y : Int} (hj : 0 ≤ j ∧ j < D) (hy : 0 ≤ y ∧ y < D)
    (h : i * D + j = x * D + y) : i = x ∧ j = y := by
  have hD : D ≠ 0 := by omega
  have h1 : (j + i * D) / D = i := by
    rw [Int.add_mul_ediv_right _ _ hD, Int.ediv_eq_zero_of_lt hj.1 hj.2, zero_add]
  have h2 : (y + x * D) / D = x := by
    rw [Int.add_mul_ediv_right _ _ hD, Int.ediv_eq_zero_of_lt hy.1 hy.2, zero_add]
  have h3 : i = x := by
    rw [← h1, ← h2, add_comm j, add_comm y, h]
  subst h3
  exact ⟨rfl, by omega⟩

/-! ## Grid initialisation -/

theorem foldl_setCell_const (v : ℚ) (xs ys : List Int) (m : Grid) (i j : Int) :
    (xs.foldl (fun m1 x => ys.foldl (fun m2 y => setCell m2 x y v) m1) m) i j
      = if i ∈ xs ∧ j ∈ ys then v else m i j := by
  have inner : ∀ (x : Int) (l : List Int) (m1 : Grid),
      (l.foldl (fun m2 y => setCell m2 x y v) m1) i j
        = if i = x ∧ j ∈ l then v else m1 i j := by
    intro x l
    induction l with
    | nil => intro m1; simp
    | cons y t ih =>
      intro m1
      rw [List.foldl_cons, ih]
      simp only [setCell, List.mem_cons]
      split_ifs <;> simp_all
  induction xs generalizing m with
  | nil => simp
  | cons x t ih =>
    rw [List.foldl_cons, ih, inner]
    simp only [List.mem_cons]
    split_ifs <;> simp_all

theorem seq_boundary_fold (D : Int) (hD : 2 ≤ D) :
    ∀ (n : Nat) (a : Int), 0 ≤ a → (D - a).toNat = n → ∀ (m : Grid) (i j : Int),
      ((loopRange a D).foldl (Sequential.boundaryStep D) m) i j
        = if (i = 0 ∧ a ≤ j ∧ j < D) ∨ (j = 0 ∧ a ≤ i ∧ i < D) then 1
          else if (i = D - 1 ∧ a ≤ j ∧ j < D) ∨ (j = D - 1 ∧ a ≤ i ∧ i < D) then 0
          else m i j := by
  intro n
  induction n with
  | zero =>
    intro a ha hn m i j
    rw [loopRange_nil (by omega), List.foldl_nil, if_neg (by omega), if_neg (by omega)]
  | succ n ih =>
    intro a ha hn m i j
    rw [loopRange_cons (by omega), List.foldl_cons, ih (a + 1) (by omega) (by omega)]
    unfold Sequential.boundaryStep setCell
    split_ifs <;> first | rfl | omega

theorem seq_createDoubleMatrix_apply (D : Int) (hD : 2 ≤ D) (i j : Int)
    (hi : 0 ≤ i ∧ i < D) (hj : 0 ≤ j ∧ j < D) :
    Sequential.createDoubleMatrix D i j = if i = 0 ∨ j = 0 then 1 else 0 := by
  unfold Sequential.createDoubleMatrix
  rw [seq_boundary_fold D hD _ 0 (le_refl 0) rfl, foldl_setCell_const]
  simp only [mem_loopRange]
  split_ifs <;> first | rfl | omega

theorem shared_createDoubleMatrix_eq (D : Int) :
    SharedMemory.createDoubleMatrix D = Sequential.createDoubleMatrix D := rfl

theorem foldl_setElem_grid (D : Int) (v : Int → Int → ℚ) (xs ys : List Int)
    (hys : ∀ y ∈ ys, 0 ≤ y ∧ y < D) (m : Buf) (i j : Int) (hj : 0 ≤ j ∧ j < D) :
    (xs.foldl (fun m1 x => ys.foldl (fun m2 y => setElem m2 (x * D + y) (v x y)) m1) m)
        (i * D + j)
      = if i ∈ xs ∧ j ∈ ys then v i j else m (i * D + j) := by
  have inner : ∀ (x : Int) (l : List Int), (∀ y ∈ l, 0 ≤ y ∧ y < D) → ∀ (m1 : Buf),
      (l.foldl (fun m2 y => setElem m2 (x * D + y) (v x y)) m1) (i * D + j)
        = if i = x ∧ j ∈ l then v i j else m1 (i * D + j) := by
    intro x l
    induction l with
    | nil => intro _ m1; simp
    | cons y t ih =>
      intro hl m1
      rw [List.foldl_cons, ih (fun z hz => hl z (List.mem_cons_of_mem _ hz))]
      have hy := hl y (List.mem_cons_self _ _)
      by_cases hit : i = x ∧ j ∈ t
      · rw [if_pos hit, if_pos ⟨hit.1, List.mem_cons_of_mem _ hit.2⟩]
      · rw [if_neg hit]
        by_cases hk : i * D + j = x * D + y
        · obtain ⟨rfl, rfl⟩ := flat_inj hj hy hk
          rw [if_pos ⟨rfl, List.mem_cons_self _ _⟩]
          simp [setElem]
        · rw [if_neg]
          · simp [setElem, hk]
          · rintro ⟨rfl, h2⟩
            rcases List.mem_cons.1 h2 with h3 | h3
            · exact hk (by rw [h3])
            · exact hit ⟨rfl, h3⟩
  induction xs generalizing m with
  | nil => simp
  | cons x t ih =>
    rw [List.foldl_cons, ih, inner x ys hys]
    simp only [List.mem_cons]
    split_ifs <;> simp_all

theorem createCell_eq (D i ii : Int) (m : Buf) :
    Distributed.createCell D i ii m
      = setElem m (i * D + ii) (if i = 0 ∨ ii = 0 then 1 else 0) := by
  unfold Distributed.createCell
  split_ifs <;> simp_all

theorem dist_createDoubleMatrix_apply (D : Int) (i j : Int)
    (hi : 0 ≤ i ∧ i < D) (hj : 0 ≤ j ∧ j < D) :
    Distributed.createDoubleMatrix D (i * D + j) = if i = 0 ∨ j = 0 then 1 else 0 := by
  unfold Distributed.createDoubleMatrix
  simp only [createCell_eq]
  rw [foldl_setElem_grid D (fun i ii => if i = 0 ∨ ii = 0 then 1 else 0) _ _
    (fun y hy => by rw [mem_loopRange] at hy; omega) _ i j hj]
  rw [if_pos ⟨mem_loopRange.2 (by omega), mem_loopRange.2 (by omega)⟩]

/-- C10 (as stated, refuted): for `D = 3` the cell `(2, 0)` of the last row and
the cell `(0, 2)` of the last column hold 1, not 0, in all three versions of
`createDoubleMatrix`. -/
theorem createDoubleMatrix_corners :
    Sequential.createDoubleMatrix 3 (3 - 1) 0 ≠ 0 ∧
      Sequential.createDoubleMatrix 3 0 (3 - 1) ≠ 0 ∧
      SharedMemory.createDoubleMatrix 3 (3 - 1) 0 ≠ 0 ∧
      SharedMemory.createDoubleMatrix 3 0 (3 - 1) ≠ 0 ∧
      Distributed.createDoubleMatrix 3 ((3 - 1) * 3 + 0) ≠ 0 ∧
      Distributed.createDoubleMatrix 3 (0 * 3 + (3 - 1)) ≠ 0 := by
  decide

/-- C10 (amended): for `D ≥ 3`, in the grid returned by each of the three
versions of `createDoubleMatrix(D)` every cell of row 0 and every cell of
column 0 is 1 (the corners `(0, D-1)` and `(D-1, 0)` included), and every other
cell (the rest of the last row, the rest of the last column, the interior) is 0. -/
theorem createDoubleMatrix_cells (D : Int) (hD : 3 ≤ D) (i j : Int)
    (hi : 0 ≤ i ∧ i < D) (hj : 0 ≤ j ∧ j < D) :
    Sequential.createDoubleMatrix D i j = (if i = 0 ∨ j = 0 then 1 else 0) ∧
      SharedMemory.createDoubleMatrix D i j = (if i = 0 ∨ j = 0 then 1 else 0) ∧
      Distributed.createDoubleMatrix D (i * D + j) = (if i = 0 ∨ j = 0 then 1 else 0) := by
  refine ⟨seq_createDoubleMatrix_apply D (by omega) i j hi hj, ?_,
    dist_createDoubleMatrix_apply D i j hi hj⟩
  rw [shared_createDoubleMatrix_eq]
  exact seq_createDoubleMatrix_apply D (by omega) i j hi hj

/-- Instance of the amended C10 at `D = 4`, cell `(3, 0)`: the corner of the last
row and column 0 holds 1 in all three versions. -/
theorem createDoubleMatrix_cells_witness :
    (3 : Int) ≤ 4 ∧ (0 ≤ (3 : Int) ∧ (3 : Int) < 4) ∧ (0 ≤ (0 : Int) ∧ (0 : Int) < 4) ∧
      (Sequential.createDoubleMatrix 4 3 0 = (if (3 : Int) = 0 ∨ (0 : Int) = 0 then 1 else 0) ∧
        SharedMemory.createDoubleMatrix 4 3 0
          = (if (3 : Int) = 0 ∨ (0 : Int) = 0 then 1 else 0) ∧
        Distributed.createDoubleMatrix 4 (3 * 4 + 0)
          = (if (3 : Int) = 0 ∨ (0 : Int) = 0 then 1 else 0)) :=
  ⟨by decide, by decide, by decide, createDoubleMatrix_cells 4 (by decide) 3 0 (by decide)
    (by decide)⟩

/-! ## The snapshot of the sequential engine -/

theorem memcpyRows_apply (D : Int) (src dst : Grid) (r j : Int) :
    Sequential.memcpyRows D src dst r j
      = if 0 ≤ r ∧ r < D ∧ 0 ≤ j ∧ j < D then src r j else dst r j := by
  have key : ∀ (l : List Int) (d : Grid),
      l.foldl (fun c i => Sequential.memcpyRow D src i c) d r j
        = if r ∈ l ∧ 0 ≤ j ∧ j < D then src r j else d r j := by
    intro l
    induction l with
    | nil => intro d; simp
    | cons i t ih =>
      intro d
      rw [List.foldl_cons, ih]
      simp only [Sequential.memcpyRow, List.mem_cons]
      split_ifs <;> simp_all
  unfold Sequential.memcpyRows
  rw [key]
  simp only [mem_loopRange]
  by_cases h : 0 ≤ r ∧ r < D ∧ 0 ≤ j ∧ j < D
  · rw [if_pos h, if_pos ⟨⟨h.1, h.2.1⟩, h.2.2⟩]
  · rw [if_neg h, if_neg]
    intro h2
    exact h ⟨h2.1.1, h2.1.2, h2.2⟩

/-! ## Effect of the sequential loops -/

section SequentialFacts

open Sequential

theorem relaxRow_copy (p : ℚ) (x : Int) (ys : List Int) (s : State) :
    (relaxRow p ys x s).doubleMatrixCopy = s.doubleMatrixCopy := by
  unfold relaxRow
  induction ys generalizing s with
  | nil => rfl
  | cons y t ih => rw [List.foldl_cons, ih]; rfl

theorem relaxRow_matrix (p : ℚ) (x : Int) (ys : List Int) (s : State) (i j : Int) :
    (relaxRow p ys x s).doubleMatrix i j
      = if i = x ∧ j ∈ ys then averageNeighbours s.doubleMatrixCopy x j
        else s.doubleMatrix i j := by
  unfold relaxRow
  induction ys generalizing s with
  | nil => simp
  | cons y t ih =>
    rw [List.foldl_cons, ih]
    simp only [relaxCell, setCell, List.mem_cons]
    split_ifs <;> simp_all

theorem relaxRow_balanced (p : ℚ) (x : Int) (ys : List Int) (hys : ys.Nodup) (s : State) :
    (relaxRow p ys x s).balanced = true ↔
      s.balanced = true ∧
        ∀ y ∈ ys, ¬ |averageNeighbours s.doubleMatrixCopy x y - s.doubleMatrix x y| > p := by
  unfold relaxRow
  induction ys generalizing s with
  | nil => simp
  | cons y t ih =>
    rw [List.foldl_cons, ih (List.nodup_cons.1 hys).2]
    have hyt : y ∉ t := (List.nodup_cons.1 hys).1
    have hsame : ∀ y2 ∈ t, (relaxCell p x y s).doubleMatrix x y2 = s.doubleMatrix x y2 := by
      intro y2 hy2
      have : y2 ≠ y := fun h => hyt (h ▸ hy2)
      simp [relaxCell, setCell, this]
    have hcopy : (relaxCell p x y s).doubleMatrixCopy = s.doubleMatrixCopy := rfl
    have hflag : (relaxCell p x y s).balanced = true ↔
        s.balanced = true ∧
          ¬ |averageNeighbours s.doubleMatrixCopy x y - s.doubleMatrix x y| > p := by
      cases hb : s.balanced <;> by_cases hc :
        |averageNeighbours s.doubleMatrixCopy x y - s.doubleMatrix x y| > p <;>
        simp [relaxCell, hb, hc]
    rw [hflag, hcopy]
    constructor
    · rintro ⟨⟨h1, h2⟩, h3⟩
      refine ⟨h1, ?_⟩
      intro y2 hy2
      rcases List.mem_cons.1 hy2 with h | h
      · subst h; exact h2
      · rw [← hsame y2 h]; exact h3 y2 h
    · rintro ⟨h1, h2⟩
      refine ⟨⟨h1, h2 y (List.mem_cons_self _ _)⟩, ?_⟩
      intro y2 hy2
      rw [hsame y2 hy2]
      exact h2 y2 (List.mem_cons_of_mem _ hy2)

theorem relaxRows_copy (p : ℚ) (xs ys : List Int) (s : State) :
    (relaxRows p xs ys s).doubleMatrixCopy = s.doubleMatrixCopy := by
  unfold relaxRows
  induction xs generalizing s with
  | nil => rfl
  | cons x t ih => rw [List.foldl_cons, ih, relaxRow_copy]

theorem relaxRows_matrix (p : ℚ) (xs ys : List Int) (s : State) (i j : Int) :
    (relaxRows p xs ys s).doubleMatrix i j
      = if i ∈ xs ∧ j ∈ ys then averageNeighbours s.doubleMatrixCopy i j
        else s.doubleMatrix i j := by
  unfold relaxRows
  induction xs generalizing s with
  | nil => simp
  | cons x t ih =>
    rw [List.foldl_cons, ih, relaxRow_copy, relaxRow_matrix]
    simp only [List.mem_cons]
    split_ifs <;> simp_all

theorem relaxRows_balanced (p : ℚ) (xs ys : List Int) (hxs : xs.Nodup) (hys : ys.Nodup)
    (s : State) :
    (relaxRows p xs ys s).balanced = true ↔
      s.balanced = true ∧
        ∀ x ∈ xs, ∀ y ∈ ys,
          ¬ |averageNeighbours s.doubleMatrixCopy x y - s.doubleMatrix x y| > p := by
  unfold relaxRows
  induction xs generalizing s with
  | nil => simp
  | cons x t ih =>
    rw [List.foldl_cons, ih (List.nodup_cons.1 hxs).2, relaxRow_copy,
      relaxRow_balanced p x ys hys]
    have hxt : x ∉ t := (List.nodup_cons.1 hxs).1
    have hsame : ∀ x2 ∈ t, ∀ y, (relaxRow p ys x s).doubleMatrix x2 y = s.doubleMatrix x2 y := by
      intro x2 hx2 y
      have : x2 ≠ x := fun h => hxt (h ▸ hx2)
      rw [relaxRow_matrix]
      simp [this]
    constructor
    · rintro ⟨⟨h1, h2⟩, h3⟩
      refine ⟨h1, ?_⟩
      intro x2 hx2 y hy
      rcases List.mem_cons.1 hx2 with h | h
      · subst h; exact h2 y hy
      · rw [← hsame x2 h y]; exact h3 x2 h y hy
    · rintro ⟨h1, h2⟩
      refine ⟨⟨h1, h2 x (List.mem_cons_self _ _)⟩, ?_⟩
      intro x2 hx2 y hy
      rw [hsame x2 hx2 y]
      exact h2 x2 (List.mem_cons_of_mem _ hx2) y hy

/-! ## The sequential pass is a Jacobi pass -/

theorem relaxationPass_matrix (D : Int) (p : ℚ) (s : State) (x y : Int) :
    (relaxationPass D p s).doubleMatrix x y
      = if (1 ≤ x ∧ x ≤ D - 2) ∧ (1 ≤ y ∧ y ≤ D - 2) then averageNeighbours s.doubleMatrix x y
        else s.doubleMatrix x y := by
  unfold relaxationPass
  rw [relaxRows_matrix]
  simp only [mem_loopRange]
  by_cases h : (1 ≤ x ∧ x ≤ D - 2) ∧ (1 ≤ y ∧ y ≤ D - 2)
  · obtain ⟨⟨h1, h2⟩, h3, h4⟩ := h
    rw [if_pos ⟨⟨h1, by omega⟩, h3, by omega⟩, if_pos ⟨⟨h1, h2⟩, h3, h4⟩]
    unfold averageNeighbours
    rw [memcpyRows_apply, memcpyRows_apply, memcpyRows_apply, memcpyRows_apply,
      if_pos (by omega), if_pos (by omega), if_pos (by omega), if_pos (by omega)]
  · rw [if_neg h, if_neg]
    rintro ⟨⟨h1, h2⟩, h3, h4⟩
    exact h ⟨⟨h1, by omega⟩, h3, by omega⟩

theorem relaxationPass_balanced (D : Int) (p : ℚ) (s : State) :
    (relaxationPass D p s).balanced = true ↔
      s.balanced = true ∧
        ∀ x y, 1 ≤ x → x ≤ D - 2 → 1 ≤ y → y ≤ D - 2 →
          ¬ |averageNeighbours s.doubleMatrix x y - s.doubleMatrix x y| > p := by
  unfold relaxationPass
  rw [relaxRows_balanced p _ _ (nodup_loopRange _ _) (nodup_loopRange _ _)]
  simp only [mem_loopRange]
  have havg : ∀ x y, 1 ≤ x → x ≤ D - 2 → 1 ≤ y → y ≤ D - 2 →
      averageNeighbours (memcpyRows D s.doubleMatrix s.doubleMatrixCopy) x y
        = averageNeighbours s.doubleMatrix x y := by
    intro x y h1 h2 h3 h4
    unfold averageNeighbours
    rw [memcpyRows_apply, memcpyRows_apply, memcpyRows_apply, memcpyRows_apply,
      if_pos (by omega), if_pos (by omega), if_pos (by omega), if_pos (by omega)]
  constructor
  · rintro ⟨hb, h⟩
    refine ⟨hb, ?_⟩
    intro x y h1 h2 h3 h4
    rw [← havg x y h1 h2 h3 h4]
    exact h x ⟨h1, by omega⟩ y ⟨h3, by omega⟩
  · rintro ⟨hb, h⟩
    refine ⟨hb, ?_⟩
    intro x hx y hy
    rw [havg x y hx.1 (by omega) hy.1 (by omega)]
    exact h x y hx.1 (by omega) hy.1 (by omega)

theorem nextState_matrix (D : Int) (p : ℚ) (s : State) (x y : Int) :
    (nextState D p s).doubleMatrix x y
      = if (1 ≤ x ∧ x ≤ D - 2) ∧ (1 ≤ y ∧ y ≤ D - 2) then averageNeighbours s.doubleMatrix x y
        else s.doubleMatrix x y :=
  relaxationPass_matrix D p s x y

theorem iterate_matrix_succ (D : Int) (p : ℚ) (s : State) (n : Nat) (x y : Int) :
    ((nextState D p)^[n + 1] s).doubleMatrix x y
      = if (1 ≤ x ∧ x ≤ D - 2) ∧ (1 ≤ y ∧ y ≤ D - 2) then
          averageNeighbours ((nextState D p)^[n] s).doubleMatrix x y
        else ((nextState D p)^[n] s).doubleMatrix x y := by
  rw [Function.iterate_succ_apply', nextState_matrix]

theorem iterate_balanced (D : Int) (p : ℚ) (s : State) (hs : s.balanced = true) (n : Nat) :
    ((nextState D p)^[n] s).balanced = true := by
  cases n with
  | zero => exact hs
  | succ n => rw [Function.iterate_succ_apply']; rfl

theorem delta_frame (D : Int) (p : ℚ) (s : State) (n : Nat) (x y : Int)
    (h : ¬ ((1 ≤ x ∧ x ≤ D - 2) ∧ (1 ≤ y ∧ y ≤ D - 2))) :
    ((nextState D p)^[n + 1] s).doubleMatrix x y - ((nextState D p)^[n] s).doubleMatrix x y = 0 := by
  rw [iterate_matrix_succ, if_neg h, sub_self]

theorem delta_step (D : Int) (p : ℚ) (s : State) (n : Nat) (x y : Int)
    (h : (1 ≤ x ∧ x ≤ D - 2) ∧ (1 ≤ y ∧ y ≤ D - 2)) :
    ((nextState D p)^[n + 2] s).doubleMatrix x y - ((nextState D p)^[n + 1] s).doubleMatrix x y
      = ((((nextState D p)^[n + 1] s).doubleMatrix (x - 1) y
            - ((nextState D p)^[n] s).doubleMatrix (x - 1) y)
          + (((nextState D p)^[n + 1] s).doubleMatrix (x + 1) y
            - ((nextState D p)^[n] s).doubleMatrix (x + 1) y)
          + (((nextState D p)^[n + 1] s).doubleMatrix x (y - 1)
            - ((nextState D p)^[n] s).doubleMatrix x (y - 1))
          + (((nextState D p)^[n + 1] s).doubleMatrix x (y + 1)
            - ((nextState D p)^[n] s).doubleMatrix x (y + 1))) / 4 := by
  rw [iterate_matrix_succ D p s (n + 1) x y, if_pos h, iterate_matrix_succ D p s n x y, if_pos h]
  unfold averageNeighbours
  ring

theorem loop_returns (D : Int) (p : ℚ) :
    ∀ (n : Nat) (s : State),
      (relaxationPass D p ((nextState D p)^[n] s)).balanced = true →
      ∃ k, k ≤ n ∧
        relaxationLoop D p (k + 1) s = some (relaxationPass D p ((nextState D p)^[k] s)) ∧
        (relaxationPass D p ((nextState D p)^[k] s)).balanced = true := by
  intro n
  induction n with
  | zero =>
    intro s h
    refine ⟨0, le_refl 0, ?_, h⟩
    simp only [Function.iterate_zero, id_eq] at h ⊢
    simp [relaxationLoop, h]
  | succ n ih =>
    intro s h
    by_cases hb : (relaxationPass D p s).balanced = true
    · refine ⟨0, Nat.zero_le _, ?_, hb⟩
      simp [relaxationLoop, hb]
    · rw [Function.iterate_succ_apply] at h
      obtain ⟨k, hk, hloop, hbal⟩ := ih (nextState D p s) h
      refine ⟨k + 1, Nat.succ_le_succ hk, ?_, ?_⟩
      · rw [Function.iterate_succ_apply]
        rw [← hloop]
        conv_lhs => unfold relaxationLoop
        simp [hb]
      · rw [Function.iterate_succ_apply]
        exact hbal

theorem loop_diverges (D : Int) (p : ℚ) :
    ∀ (fuel : Nat) (s : State),
      (∀ n, (relaxationPass D p ((nextState D p)^[n] s)).balanced = false) →
      relaxationLoop D p fuel s = none := by
  intro fuel
  induction fuel with
  | zero => intro s _; rfl
  | succ fuel ih =>
    intro s h
    have h0 := h 0
    simp only [Function.iterate_zero, id_eq] at h0
    unfold relaxationLoop
    simp only [h0]
    apply ih
    intro n
    have := h (n + 1)
    rwa [Function.iterate_succ_apply] at this
theorem initial_delta_bound (D : Int) (hD : 3 ≤ D) (p : ℚ) (x y : Int)
    (h : (1 ≤ x ∧ x ≤ D - 2) ∧ (1 ≤ y ∧ y ≤ D - 2)) :
    |((nextState D p)^[0 + 1] (initialState D)).doubleMatrix x y
      - ((nextState D p)^[0] (initialState D)).doubleMatrix x y| ≤ 1 := by
  rw [iterate_matrix_succ, if_pos h]
  simp only [Function.iterate_zero, id_eq, initialState]
  have hcell : ∀ i j, 0 ≤ i → i < D → 0 ≤ j → j < D →
      0 ≤ createDoubleMatrix D i j ∧ createDoubleMatrix D i j ≤ 1 := by
    intro i j h1 h2 h3 h4
    rw [seq_createDoubleMatrix_apply D (by omega) i j ⟨h1, h2⟩ ⟨h3, h4⟩]
    split_ifs <;> norm_num
  have h0 : createDoubleMatrix D x y = 0 := by
    rw [seq_createDoubleMatrix_apply D (by omega) x y (by omega) (by omega)]
    rw [if_neg (by omega)]
  have a1 := hcell (x - 1) y (by omega) (by omega) (by omega) (by omega)
  have a2 := hcell (x + 1) y (by omega) (by omega) (by omega) (by omega)
  have a3 := hcell x (y - 1) (by omega) (by omega) (by omega) (by omega)
  have a4 := hcell x (y + 1) (by omega) (by omega) (by omega) (by omega)
  rw [h0, sub_zero, averageNeighbours, abs_le]
  constructor <;> linarith [a1.1, a1.2, a2.1, a2.2, a3.1, a3.2, a4.1, a4.2]

theorem delta_bound (D : Int) (hD : 3 ≤ D) (p : ℚ) :
    ∀ (n : Nat) (x y : Int), 0 ≤ x → x ≤ D - 1 →
      |((nextState D p)^[n + 1] (initialState D)).doubleMatrix x y
        - ((nextState D p)^[n] (initialState D)).doubleMatrix x y|
        ≤ (1 - 1 / (2 * (D : ℚ) ^ 2)) ^ n * ((x : ℚ) * ((D : ℚ) - 1 - (x : ℚ))) := by
  have hDq : (3 : ℚ) ≤ (D : ℚ) := by exact_mod_cast hD
  have hK : (0 : ℚ) < 2 * (D : ℚ) ^ 2 := by positivity
  have hc0 : (0 : ℚ) ≤ 1 - 1 / (2 * (D : ℚ) ^ 2) := by
    rw [sub_nonneg, div_le_one hK]
    nlinarith
  have hW : ∀ x : Int, 0 ≤ x → x ≤ D - 1 → (0 : ℚ) ≤ (x : ℚ) * ((D : ℚ) - 1 - (x : ℚ)) := by
    intro x h1 h2
    have e1 : (0 : ℚ) ≤ (x : ℚ) := by exact_mod_cast h1
    have e2 : (x : ℚ) ≤ (D : ℚ) - 1 := by exact_mod_cast h2
    exact mul_nonneg e1 (by linarith)
  intro n
  induction n with
  | zero =>
    intro x y hx0 hx1
    rw [pow_zero, one_mul]
    by_cases h : (1 ≤ x ∧ x ≤ D - 2) ∧ (1 ≤ y ∧ y ≤ D - 2)
    · refine le_trans (initial_delta_bound D hD p x y h) ?_
      have e1 : (1 : ℚ) ≤ (x : ℚ) := by exact_mod_cast h.1.1
      have e2 : (x : ℚ) ≤ (D : ℚ) - 2 := by exact_mod_cast h.1.2
      nlinarith
    · rw [delta_frame D p _ 0 x y h, abs_zero]
      exact hW x hx0 hx1
  | succ n ih =>
    intro x y hx0 hx1
    have hcn : (0 : ℚ) ≤ (1 - 1 / (2 * (D : ℚ) ^ 2)) ^ n := pow_nonneg hc0 n
    by_cases h : (1 ≤ x ∧ x ≤ D - 2) ∧ (1 ≤ y ∧ y ≤ D - 2)
    · rw [delta_step D p _ n x y h]
      have b1 := abs_le.1 (ih (x - 1) y (by omega) (by omega))
      have b2 := abs_le.1 (ih (x + 1) y (by omega) (by omega))
      have b3 := abs_le.1 (ih x (y - 1) hx0 hx1)
      have b4 := abs_le.1 (ih x (y + 1) hx0 hx1)
      push_cast at b1 b2
      have e1 : (1 : ℚ) ≤ (x : ℚ) := by exact_mod_cast h.1.1
      have e2 : (x : ℚ) ≤ (D : ℚ) - 2 := by exact_mod_cast h.1.2
      have hWle : (x : ℚ) * ((D : ℚ) - 1 - (x : ℚ)) ≤ (D : ℚ) ^ 2 := by nlinarith
      have hfac : (x : ℚ) * ((D : ℚ) - 1 - (x : ℚ)) - 1 / 2
          ≤ (1 - 1 / (2 * (D : ℚ) ^ 2)) * ((x : ℚ) * ((D : ℚ) - 1 - (x : ℚ))) := by
        have : 1 / (2 * (D : ℚ) ^ 2) * ((x : ℚ) * ((D : ℚ) - 1 - (x : ℚ))) ≤ 1 / 2 := by
          rw [div_mul_eq_mul_div, one_mul, div_le_iff₀ hK]
          linarith
        linarith
      have hmain := mul_le_mul_of_nonneg_left hfac hcn
      have hsum : (1 - 1 / (2 * (D : ℚ) ^ 2)) ^ n * (((x : ℚ) - 1) * ((D : ℚ) - 1 - ((x : ℚ) - 1)))
          + (1 - 1 / (2 * (D : ℚ) ^ 2)) ^ n * (((x : ℚ) + 1) * ((D : ℚ) - 1 - ((x : ℚ) + 1)))
          + 2 * ((1 - 1 / (2 * (D : ℚ) ^ 2)) ^ n * ((x : ℚ) * ((D : ℚ) - 1 - (x : ℚ))))
          = 4 * ((1 - 1 / (2 * (D : ℚ) ^ 2)) ^ n
              * ((x : ℚ) * ((D : ℚ) - 1 - (x : ℚ)) - 1 / 2)) := by
        ring
      rw [pow_succ, mul_assoc]
      rw [abs_le]
      constructor <;> linarith [b1.1, b1.2, b2.1, b2.2, b3.1, b3.2, b4.1, b4.2, hmain, hsum]
    · rw [delta_frame D p _ (n + 1) x y h, abs_zero]
      exact mul_nonneg (pow_nonneg hc0 _) (hW x hx0 hx1)
theorem pass_balanced_of_small (D : Int) (p : ℚ) (s : State) (hs : s.balanced = true) (n : Nat)
    (h : ∀ x y, (1 ≤ x ∧ x ≤ D - 2) ∧ (1 ≤ y ∧ y ≤ D - 2) →
      |((nextState D p)^[n + 1] s).doubleMatrix x y
        - ((nextState D p)^[n] s).doubleMatrix x y| ≤ p) :
    (relaxationPass D p ((nextState D p)^[n] s)).balanced = true := by
  rw [relaxationPass_balanced]
  refine ⟨iterate_balanced D p s hs n, ?_⟩
  intro x y h1 h2 h3 h4
  have := h x y ⟨⟨h1, h2⟩, h3, h4⟩
  rw [iterate_matrix_succ, if_pos ⟨⟨h1, h2⟩, h3, h4⟩] at this
  exact not_lt.2 this

theorem exists_balanced_pass (D : Int) (p : ℚ) (hD : 3 ≤ D) (hp : 0 < p ∨ (D = 3 ∧ 0 ≤ p)) :
    ∃ n, (relaxationPass D p ((nextState D p)^[n] (initialState D))).balanced = true := by
  rcases hp with hp | ⟨rfl, hp⟩
  · have hDq : (3 : ℚ) ≤ (D : ℚ) := by exact_mod_cast hD
    have hK : (0 : ℚ) < (D : ℚ) ^ 2 := by positivity
    have hK2 : (0 : ℚ) < 2 * (D : ℚ) ^ 2 := by positivity
    have hc0 : (0 : ℚ) ≤ 1 - 1 / (2 * (D : ℚ) ^ 2) := by
      rw [sub_nonneg, div_le_one hK2]
      nlinarith
    have hc1 : 1 - 1 / (2 * (D : ℚ) ^ 2) < 1 := by
      have : 0 < 1 / (2 * (D : ℚ) ^ 2) := by positivity
      linarith
    obtain ⟨n, hn⟩ := exists_pow_lt_of_lt_one (div_pos hp hK) hc1
    refine ⟨n, pass_balanced_of_small D p _ rfl n ?_⟩
    intro x y h
    refine le_trans (delta_bound D hD p n x y (by omega) (by omega)) ?_
    have e1 : (1 : ℚ) ≤ (x : ℚ) := by exact_mod_cast h.1.1
    have e2 : (x : ℚ) ≤ (D : ℚ) - 2 := by exact_mod_cast h.1.2
    have hW0 : (0 : ℚ) ≤ (x : ℚ) * ((D : ℚ) - 1 - (x : ℚ)) := mul_nonneg (by linarith) (by linarith)
    have hWle : (x : ℚ) * ((D : ℚ) - 1 - (x : ℚ)) ≤ (D : ℚ) ^ 2 := by nlinarith
    have hcn : (0 : ℚ) ≤ (1 - 1 / (2 * (D : ℚ) ^ 2)) ^ n := pow_nonneg hc0 n
    calc (1 - 1 / (2 * (D : ℚ) ^ 2)) ^ n * ((x : ℚ) * ((D : ℚ) - 1 - (x : ℚ)))
        ≤ (1 - 1 / (2 * (D : ℚ) ^ 2)) ^ n * (D : ℚ) ^ 2 := mul_le_mul_of_nonneg_left hWle hcn
      _ ≤ p / (D : ℚ) ^ 2 * (D : ℚ) ^ 2 := mul_le_mul_of_nonneg_right (le_of_lt hn) (le_of_lt hK)
      _ = p := div_mul_cancel₀ p (ne_of_gt hK)
  · refine ⟨1, pass_balanced_of_small 3 p _ rfl 1 ?_⟩
    intro x y h
    rw [delta_step 3 p _ 0 x y h,
      delta_frame 3 p _ 0 (x - 1) y (by omega), delta_frame 3 p _ 0 (x + 1) y (by omega),
      delta_frame 3 p _ 0 x (y - 1) (by omega), delta_frame 3 p _ 0 x (y + 1) (by omega)]
    simpa using hp

/-- In exact rational arithmetic, for every `D ≥ 3` and every precision
`p > 0` (and also for `D = 3` with `p = 0`), the loop of `relaxation()` started
on `createDoubleMatrix(D)` returns after finitely many passes.  The result for
the arithmetic of the program, which covers `p = 0` for every `D`, is proved in
the binary64 part below. -/
theorem relaxation_terminates (D : Int) (p : ℚ) (hD : 3 ≤ D) (hp : 0 < p ∨ (D = 3 ∧ 0 ≤ p)) :
    ∃ k : Nat,
      relaxation D p (k + 1)
          = some (relaxationPass D p ((nextState D p)^[k] (initialState D))) ∧
        ∀ x y, 1 ≤ x → x ≤ D - 2 → 1 ≤ y → y ≤ D - 2 →
          |(relaxationPass D p ((nextState D p)^[k] (initialState D))).doubleMatrix x y
            - ((nextState D p)^[k] (initialState D)).doubleMatrix x y| ≤ p := by
  obtain ⟨n, hn⟩ := exists_balanced_pass D p hD hp
  obtain ⟨k, _, hloop, hbal⟩ := loop_returns D p n (initialState D) hn
  refine ⟨k, hloop, ?_⟩
  intro x y h1 h2 h3 h4
  have h := ((relaxationPass_balanced D p _).1 hbal).2 x y h1 h2 h3 h4
  rw [relaxationPass_matrix, if_pos ⟨⟨h1, h2⟩, h3, h4⟩]
  exact not_lt.1 h

theorem four_delta_pos :
    ∀ n : Nat,
      0 < ((nextState 4 0)^[n + 1] (initialState 4)).doubleMatrix 1 1
          - ((nextState 4 0)^[n] (initialState 4)).doubleMatrix 1 1 ∧
      0 < ((nextState 4 0)^[n + 1] (initialState 4)).doubleMatrix 1 2
          - ((nextState 4 0)^[n] (initialState 4)).doubleMatrix 1 2 ∧
      0 < ((nextState 4 0)^[n + 1] (initialState 4)).doubleMatrix 2 1
          - ((nextState 4 0)^[n] (initialState 4)).doubleMatrix 2 1 ∧
      0 ≤ ((nextState 4 0)^[n + 1] (initialState 4)).doubleMatrix 2 2
          - ((nextState 4 0)^[n] (initialState 4)).doubleMatrix 2 2 := by
  intro n
  induction n with
  | zero =>
    have c01 : createDoubleMatrix 4 0 1 = 1 := by decide
    have c02 : createDoubleMatrix 4 0 2 = 1 := by decide
    have c10 : createDoubleMatrix 4 1 0 = 1 := by decide
    have c20 : createDoubleMatrix 4 2 0 = 1 := by decide
    have c11 : createDoubleMatrix 4 1 1 = 0 := by decide
    have c12 : createDoubleMatrix 4 1 2 = 0 := by decide
    have c21 : createDoubleMatrix 4 2 1 = 0 := by decide
    have c22 : createDoubleMatrix 4 2 2 = 0 := by decide
    have c13 : createDoubleMatrix 4 1 3 = 0 := by decide
    have c23 : createDoubleMatrix 4 2 3 = 0 := by decide
    have c31 : createDoubleMatrix 4 3 1 = 0 := by decide
    have c32 : createDoubleMatrix 4 3 2 = 0 := by decide
    rw [iterate_matrix_succ, iterate_matrix_succ, iterate_matrix_succ, iterate_matrix_succ,
      if_pos (by decide), if_pos (by decide), if_pos (by decide), if_pos (by decide)]
    simp only [Function.iterate_zero, id_eq, initialState, averageNeighbours]
    norm_num [c01, c02, c10, c20, c11, c12, c21, c22, c13, c23, c31, c32]
  | succ n ih =>
    obtain ⟨h11, h12, h21, h22⟩ := ih
    rw [delta_step 4 0 _ n 1 1 (by decide), delta_step 4 0 _ n 1 2 (by decide),
      delta_step 4 0 _ n 2 1 (by decide), delta_step 4 0 _ n 2 2 (by decide)]
    have f01 := delta_frame 4 0 (initialState 4) n 0 1 (by decide)
    have f02 := delta_frame 4 0 (initialState 4) n 0 2 (by decide)
    have f10 := delta_frame 4 0 (initialState 4) n 1 0 (by decide)
    have f20 := delta_frame 4 0 (initialState 4) n 2 0 (by decide)
    have f13 := delta_frame 4 0 (initialState 4) n 1 3 (by decide)
    have f23 := delta_frame 4 0 (initialState 4) n 2 3 (by decide)
    have f31 := delta_frame 4 0 (initialState 4) n 3 1 (by decide)
    have f32 := delta_frame 4 0 (initialState 4) n 3 2 (by decide)
    simp only [Int.reduceSub, Int.reduceAdd]
    refine ⟨?_, ?_, ?_, ?_⟩ <;> linarith

/-- In exact rational arithmetic, for `D = 4` and `p = 0` the loop of
`relaxation()` never leaves, whatever the number of passes: the cell `(1, 1)`
grows strictly in every pass.  In binary64 arithmetic the same run returns in
its pass 55 (`binary64_four_zero_returns` below). -/
theorem relaxation_four_zero_diverges : ¬ ∃ fuel s, relaxation 4 0 fuel = some s := by
  rintro ⟨fuel, s, h⟩
  have hdiv : relaxation 4 0 fuel = none := by
    apply loop_diverges
    intro n
    cases hb : (relaxationPass 4 0 ((nextState 4 0)^[n] (initialState 4))).balanced with
    | false => rfl
    | true =>
      exfalso
      have h2 := ((relaxationPass_balanced 4 0 _).1 hb).2 1 1 (by decide) (by decide)
        (by decide) (by decide)
      apply h2
      have hpos := (four_delta_pos n).1
      rw [iterate_matrix_succ, if_pos (by decide)] at hpos
      exact lt_of_lt_of_le hpos (le_abs_self _)
  rw [hdiv] at h
  exact Option.noConfusion h

/-! ## The 4 × 4 example -/

theorem iterate_frame (D : Int) (p : ℚ) (s : State) (n : Nat) (x y : Int)
    (h : ¬ ((1 ≤ x ∧ x ≤ D - 2) ∧ (1 ≤ y ∧ y ≤ D - 2))) :
    ((nextState D p)^[n] s).doubleMatrix x y = s.doubleMatrix x y := by
  induction n with
  | zero => rfl
  | succ n ih => rw [iterate_matrix_succ, if_neg h, ih]

theorem relaxationPass_eq_iterate (D : Int) (p : ℚ) (s : State) (n : Nat) :
    (relaxationPass D p ((nextState D p)^[n] s)).doubleMatrix
      = ((nextState D p)^[n + 1] s).doubleMatrix := by
  rw [Function.iterate_succ_apply']
  rfl

theorem pass_unbalanced_of_large (D : Int) (p : ℚ) (s : State) (n : Nat) (x y : Int)
    (hx : 1 ≤ x ∧ x ≤ D - 2) (hy : 1 ≤ y ∧ y ≤ D - 2)
    (h : p < |((nextState D p)^[n + 1] s).doubleMatrix x y
        - ((nextState D p)^[n] s).doubleMatrix x y|) :
    (relaxationPass D p ((nextState D p)^[n] s)).balanced = false := by
  cases hb : (relaxationPass D p ((nextState D p)^[n] s)).balanced with
  | false => rfl
  | true =>
    exfalso
    have h2 := ((relaxationPass_balanced D p _).1 hb).2 x y hx.1 hx.2 hy.1 hy.2
    rw [iterate_matrix_succ, if_pos ⟨hx, hy⟩] at h
    exact h2 h

theorem loop_exact (D : Int) (p : ℚ) :
    ∀ (k : Nat) (s : State),
      (∀ i, i < k → (relaxationPass D p ((nextState D p)^[i] s)).balanced = false) →
      (relaxationPass D p ((nextState D p)^[k] s)).balanced = true →
      relaxationLoop D p (k + 1) s = some (relaxationPass D p ((nextState D p)^[k] s)) := by
  intro k
  induction k with
  | zero =>
    intro s _ hb
    simp only [Function.iterate_zero, id_eq] at hb ⊢
    simp [relaxationLoop, hb]
  | succ k ih =>
    intro s hlt hb
    have h0 := hlt 0 (Nat.succ_pos k)
    simp only [Function.iterate_zero, id_eq] at h0
    rw [Function.iterate_succ_apply] at hb ⊢
    rw [← ih (nextState D p s)
      (fun i hi => by
        have := hlt (i + 1) (Nat.succ_lt_succ hi)
        rwa [Function.iterate_succ_apply] at this) hb]
    conv_lhs => unfold relaxationLoop
    simp [h0]

theorem relaxationLoop_mono (D : Int) (p : ℚ) :
    ∀ (n : Nat) (s t : State), relaxationLoop D p n s = some t →
      relaxationLoop D p (n + 1) s = some t := by
  intro n
  induction n with
  | zero => intro s t h; simp [relaxationLoop] at h
  | succ n ih =>
    intro s t h
    unfold relaxationLoop at h ⊢
    by_cases hb : (relaxationPass D p s).balanced = true
    · simpa [hb] using h
    · simp only [hb] at h ⊢
      exact ih _ _ h

theorem relaxationLoop_fuel_le (D : Int) (p : ℚ) (s t : State) (n m : Nat) (hnm : n ≤ m)
    (h : relaxationLoop D p n s = some t) : relaxationLoop D p m s = some t := by
  induction m with
  | zero =>
    obtain rfl : n = 0 := by omega
    exact h
  | succ m ih =>
    rcases Nat.eq_or_lt_of_le hnm with rfl | hlt
    · exact h
    · exact relaxationLoop_mono D p m s t (ih (by omega))

theorem relaxationLoop_unique (D : Int) (p : ℚ) (s t u : State) (n m : Nat)
    (h1 : relaxationLoop D p n s = some t) (h2 : relaxationLoop D p m s = some u) : u = t := by
  rcases Nat.le_total n m with h | h
  · have := relaxationLoop_fuel_le D p s t n m h h1
    rw [h2] at this
    exact Option.some.inj this
  · have := relaxationLoop_fuel_le D p s u m n h h2
    rw [h1] at this
    exact (Option.some.inj this).symm

theorem four_closed_form (p : ℚ) :
    ∀ n : Nat,
      ((nextState 4 p)^[n + 1] (initialState 4)).doubleMatrix 1 1 = 3 / 4 - (1 / 2) ^ (n + 2) ∧
      ((nextState 4 p)^[n + 1] (initialState 4)).doubleMatrix 1 2 = 1 / 2 - (1 / 2) ^ (n + 2) ∧
      ((nextState 4 p)^[n + 1] (initialState 4)).doubleMatrix 2 1 = 1 / 2 - (1 / 2) ^ (n + 2) ∧
      ((nextState 4 p)^[n + 1] (initialState 4)).doubleMatrix 2 2 = 1 / 4 - (1 / 2) ^ (n + 2) := by
  have c01 : (initialState 4).doubleMatrix 0 1 = 1 := by decide
  have c02 : (initialState 4).doubleMatrix 0 2 = 1 := by decide
  have c10 : (initialState 4).doubleMatrix 1 0 = 1 := by decide
  have c20 : (initialState 4).doubleMatrix 2 0 = 1 := by decide
  have c13 : (initialState 4).doubleMatrix 1 3 = 0 := by decide
  have c23 : (initialState 4).doubleMatrix 2 3 = 0 := by decide
  have c31 : (initialState 4).doubleMatrix 3 1 = 0 := by decide
  have c32 : (initialState 4).doubleMatrix 3 2 = 0 := by decide
  have c11 : (initialState 4).doubleMatrix 1 1 = 0 := by decide
  have c12 : (initialState 4).doubleMatrix 1 2 = 0 := by decide
  have c21 : (initialState 4).doubleMatrix 2 1 = 0 := by decide
  have c22 : (initialState 4).doubleMatrix 2 2 = 0 := by decide
  have step : ∀ n : Nat,
      ((nextState 4 p)^[n + 1] (initialState 4)).doubleMatrix 1 1
        = (1 + ((nextState 4 p)^[n] (initialState 4)).doubleMatrix 2 1 + 1
            + ((nextState 4 p)^[n] (initialState 4)).doubleMatrix 1 2) / 4 ∧
      ((nextState 4 p)^[n + 1] (initialState 4)).doubleMatrix 1 2
        = (1 + ((nextState 4 p)^[n] (initialState 4)).doubleMatrix 2 2
            + ((nextState 4 p)^[n] (initialState 4)).doubleMatrix 1 1 + 0) / 4 ∧
      ((nextState 4 p)^[n + 1] (initialState 4)).doubleMatrix 2 1
        = (((nextState 4 p)^[n] (initialState 4)).doubleMatrix 1 1 + 0 + 1
            + ((nextState 4 p)^[n] (initialState 4)).doubleMatrix 2 2) / 4 ∧
      ((nextState 4 p)^[n + 1] (initialState 4)).doubleMatrix 2 2
        = (((nextState 4 p)^[n] (initialState 4)).doubleMatrix 1 2 + 0
            + ((nextState 4 p)^[n] (initialState 4)).doubleMatrix 2 1 + 0) / 4 := by
    intro n
    have f01 := iterate_frame 4 p (initialState 4) n 0 1 (by decide)
    have f02 := iterate_frame 4 p (initialState 4) n 0 2 (by decide)
    have f10 := iterate_frame 4 p (initialState 4) n 1 0 (by decide)
    have f20 := iterate_frame 4 p (initialState 4) n 2 0 (by decide)
    have f13 := iterate_frame 4 p (initialState 4) n 1 3 (by decide)
    have f23 := iterate_frame 4 p (initialState 4) n 2 3 (by decide)
    have f31 := iterate_frame 4 p (initialState 4) n 3 1 (by decide)
    have f32 := iterate_frame 4 p (initialState 4) n 3 2 (by decide)
    rw [c01] at f01; rw [c02] at f02; rw [c10] at f10; rw [c20] at f20
    rw [c13] at f13; rw [c23] at f23; rw [c31] at f31; rw [c32] at f32
    rw [iterate_matrix_succ, iterate_matrix_succ, iterate_matrix_succ, iterate_matrix_succ,
      if_pos (by decide), if_pos (by decide), if_pos (by decide), if_pos (by decide)]
    unfold averageNeighbours
    simp only [Int.reduceSub, Int.reduceAdd]
    rw [f01, f02, f10, f20, f13, f23, f31, f32]
    exact ⟨rfl, rfl, rfl, rfl⟩
  intro n
  induction n with
  | zero =>
    obtain ⟨s1, s2, s3, s4⟩ := step 0
    rw [s1, s2, s3, s4]
    simp only [Function.iterate_zero, id_eq, c11, c12, c21, c22]
    norm_num
  | succ n ih =>
    obtain ⟨s1, s2, s3, s4⟩ := step (n + 1)
    obtain ⟨h1, h2, h3, h4⟩ := ih
    rw [s1, s2, s3, s4, h1, h2, h3, h4]
    refine ⟨?_, ?_, ?_, ?_⟩ <;> ring

theorem four_result :
    relaxation 4 (1 / 1000) 9
        = some (relaxationPass 4 (1 / 1000) ((nextState 4 (1 / 1000))^[8] (initialState 4))) ∧
      (relaxationPass 4 (1 / 1000)
          ((nextState 4 (1 / 1000))^[8] (initialState 4))).doubleMatrix 1 1 = 767 / 1024 ∧
      (relaxationPass 4 (1 / 1000)
          ((nextState 4 (1 / 1000))^[8] (initialState 4))).doubleMatrix 1 2 = 511 / 1024 ∧
      (relaxationPass 4 (1 / 1000)
          ((nextState 4 (1 / 1000))^[8] (initialState 4))).doubleMatrix 2 1 = 511 / 1024 ∧
      (relaxationPass 4 (1 / 1000)
          ((nextState 4 (1 / 1000))^[8] (initialState 4))).doubleMatrix 2 2 = 255 / 1024 := by
  refine ⟨?_, ?_, ?_, ?_, ?_⟩
  · apply loop_exact 4 (1 / 1000) 8 (initialState 4)
    · intro i hi
      apply pass_unbalanced_of_large 4 (1 / 1000) (initialState 4) i 1 1 (by decide) (by decide)
      rcases i with _ | i
      · rw [(four_closed_form (1 / 1000) 0).1]
        have c11 : (initialState 4).doubleMatrix 1 1 = 0 := by decide
        simp only [Function.iterate_zero, id_eq, c11]
        norm_num [abs_of_pos]
      · rw [(four_closed_form (1 / 1000) (i + 1)).1, (four_closed_form (1 / 1000) i).1]
        have hi' : i < 7 := by omega
        interval_cases i <;> norm_num [abs_of_pos]
    · apply pass_balanced_of_small 4 (1 / 1000) (initialState 4) rfl 8
      intro x y h
      obtain ⟨a1, a2, a3, a4⟩ := four_closed_form (1 / 1000) 8
      obtain ⟨b1, b2, b3, b4⟩ := four_closed_form (1 / 1000) 7
      have hx : x = 1 ∨ x = 2 := by omega
      have hy : y = 1 ∨ y = 2 := by omega
      rcases hx with rfl | rfl <;> rcases hy with rfl | rfl
      · rw [a1, b1]; norm_num [abs_of_pos]
      · rw [a2, b2]; norm_num [abs_of_pos]
      · rw [a3, b3]; norm_num [abs_of_pos]
      · rw [a4, b4]; norm_num [abs_of_pos]
  · rw [relaxationPass_eq_iterate, (four_closed_form (1 / 1000) 8).1]; norm_num
  · rw [relaxationPass_eq_iterate, (four_closed_form (1 / 1000) 8).2.1]; norm_num
  · rw [relaxationPass_eq_iterate, (four_closed_form (1 / 1000) 8).2.2.1]; norm_num
  · rw [relaxationPass_eq_iterate, (four_closed_form (1 / 1000) 8).2.2.2]; norm_num

theorem fourFixedPoint_spec : Spec.LaplaceFixedPoint 4 fourFixedPoint := by
  constructor
  · intro i j h1 h2 h3 h4 hnot
    unfold fourFixedPoint
    rw [if_neg (by omega), if_neg (by omega), if_neg (by omega)]
  · intro i j h1 h2 h3 h4
    have hi : i = 1 ∨ i = 2 := by omega
    have hj : j = 1 ∨ j = 2 := by omega
    have c01 : createDoubleMatrix 4 0 1 = 1 := by decide
    have c02 : createDoubleMatrix 4 0 2 = 1 := by decide
    have c10 : createDoubleMatrix 4 1 0 = 1 := by decide
    have c20 : createDoubleMatrix 4 2 0 = 1 := by decide
    have c13 : createDoubleMatrix 4 1 3 = 0 := by decide
    have c23 : createDoubleMatrix 4 2 3 = 0 := by decide
    have c31 : createDoubleMatrix 4 3 1 = 0 := by decide
    have c32 : createDoubleMatrix 4 3 2 = 0 := by decide
    rcases hi with rfl | rfl <;> rcases hj with rfl | rfl <;>
      simp [fourFixedPoint, c01, c02, c10, c20, c13, c23, c31, c32] <;> norm_num

theorem laplace_four_unique (h : Grid) (hfix : Spec.LaplaceFixedPoint 4 h) :
    h 1 1 = 3 / 4 ∧ h 1 2 = 1 / 2 ∧ h 2 1 = 1 / 2 ∧ h 2 2 = 1 / 4 := by
  obtain ⟨hb, hi⟩ := hfix
  have c01 : h 0 1 = 1 := by rw [hb 0 1 (by decide) (by decide) (by decide) (by decide) (by decide)]; decide
  have c02 : h 0 2 = 1 := by rw [hb 0 2 (by decide) (by decide) (by decide) (by decide) (by decide)]; decide
  have c10 : h 1 0 = 1 := by rw [hb 1 0 (by decide) (by decide) (by decide) (by decide) (by decide)]; decide
  have c20 : h 2 0 = 1 := by rw [hb 2 0 (by decide) (by decide) (by decide) (by decide) (by decide)]; decide
  have c13 : h 1 3 = 0 := by rw [hb 1 3 (by decide) (by decide) (by decide) (by decide) (by decide)]; decide
  have c23 : h 2 3 = 0 := by rw [hb 2 3 (by decide) (by decide) (by decide) (by decide) (by decide)]; decide
  have c31 : h 3 1 = 0 := by rw [hb 3 1 (by decide) (by decide) (by decide) (by decide) (by decide)]; decide
  have c32 : h 3 2 = 0 := by rw [hb 3 2 (by decide) (by decide) (by decide) (by decide) (by decide)]; decide
  have e11 := hi 1 1 (by decide) (by decide) (by decide) (by decide)
  have e12 := hi 1 2 (by decide) (by decide) (by decide) (by decide)
  have e21 := hi 2 1 (by decide) (by decide) (by decide) (by decide)
  have e22 := hi 2 2 (by decide) (by decide) (by decide) (by decide)
  simp only [Int.reduceSub, Int.reduceAdd] at e11 e12 e21 e22
  rw [c01, c10] at e11
  rw [c02, c13] at e12
  rw [c31, c20] at e21
  rw [c32, c23] at e22
  refine ⟨?_, ?_, ?_, ?_⟩ <;> linarith

/-- C12: for `D = 4` and `p = 0.001` the sequential engine started on
`createDoubleMatrix(4)`, in exact arithmetic, returns (after 9 passes, and with
the same result whatever the bound on the number of passes), and each of its
four interior cells ends within 0.001 of the value of that cell in the fixed
point of the discrete Laplace system, which exists and is unique on the grid. -/
theorem four_by_four_accuracy :
    Spec.LaplaceFixedPoint 4 fourFixedPoint ∧
      (∀ h, Spec.LaplaceFixedPoint 4 h →
        ∀ i j, 0 ≤ i → i < 4 → 0 ≤ j → j < 4 → h i j = fourFixedPoint i j) ∧
      ∃ s, relaxation 4 (1 / 1000) 9 = some s ∧
        (∀ fuel t, relaxation 4 (1 / 1000) fuel = some t → t = s) ∧
        ∀ h, Spec.LaplaceFixedPoint 4 h →
          |s.doubleMatrix 1 1 - h 1 1| ≤ 1 / 1000 ∧ |s.doubleMatrix 1 2 - h 1 2| ≤ 1 / 1000 ∧
            |s.doubleMatrix 2 1 - h 2 1| ≤ 1 / 1000 ∧ |s.doubleMatrix 2 2 - h 2 2| ≤ 1 / 1000 := by
  refine ⟨fourFixedPoint_spec, ?_, ?_⟩
  · intro h hfix i j hi0 hi1 hj0 hj1
    obtain ⟨u1, u2, u3, u4⟩ := laplace_four_unique h hfix
    by_cases hint : (1 ≤ i ∧ i ≤ 4 - 2) ∧ (1 ≤ j ∧ j ≤ 4 - 2)
    · have hi : i = 1 ∨ i = 2 := by omega
      have hj : j = 1 ∨ j = 2 := by omega
      rcases hi with rfl | rfl <;> rcases hj with rfl | rfl <;>
        simp [fourFixedPoint, u1, u2, u3, u4]
    · rw [hfix.1 i j hi0 hi1 hj0 hj1 hint]
      unfold fourFixedPoint
      rw [if_neg (by omega), if_neg (by omega), if_neg (by omega)]
  · obtain ⟨hret, v1, v2, v3, v4⟩ := four_result
    refine ⟨_, hret, ?_, ?_⟩
    · intro fuel t ht
      exact relaxationLoop_unique 4 (1 / 1000) (initialState 4) _ t 9 fuel hret ht
    · intro h hfix
      obtain ⟨u1, u2, u3, u4⟩ := laplace_four_unique h hfix
      rw [v1, v2, v3, v4, u1, u2, u3, u4]
      refine ⟨?_, ?_, ?_, ?_⟩ <;> rw [abs_le] <;> constructor <;> norm_num

/-- C13 (as stated, refuted): the sequential engine converges for `D = 4` and
`p = 0.001`, and its cell `(1, 1)` then holds 767/1024, which is farther than
0.002 from 0.5. -/
theorem four_by_four_not_half :
    ¬ ∀ (fuel : Nat) (s : State), relaxation 4 (1 / 1000) fuel = some s →
      |s.doubleMatrix 1 1 - 1 / 2| ≤ 2 / 1000 ∧ |s.doubleMatrix 1 2 - 1 / 2| ≤ 2 / 1000 ∧
        |s.doubleMatrix 2 1 - 1 / 2| ≤ 2 / 1000 ∧ |s.doubleMatrix 2 2 - 1 / 2| ≤ 2 / 1000 := by
  intro hall
  obtain ⟨hret, v1, -, -, -⟩ := four_result
  have h := (hall 9 _ hret).1
  rw [v1, abs_le] at h
  norm_num at h

/-- C13 (amended): for `D = 4` and `p = 0.001` the sequential engine converges
from `createDoubleMatrix(4)` and its interior cells are then within 0.002 of
0.75 at `(1, 1)`, of 0.5 at `(1, 2)` and `(2, 1)`, and of 0.25 at `(2, 2)`. -/
theorem four_by_four_values :
    ∃ s, relaxation 4 (1 / 1000) 9 = some s ∧
      (∀ fuel t, relaxation 4 (1 / 1000) fuel = some t → t = s) ∧
      |s.doubleMatrix 1 1 - 3 / 4| ≤ 2 / 1000 ∧ |s.doubleMatrix 1 2 - 1 / 2| ≤ 2 / 1000 ∧
      |s.doubleMatrix 2 1 - 1 / 2| ≤ 2 / 1000 ∧ |s.doubleMatrix 2 2 - 1 / 4| ≤ 2 / 1000 := by
  obtain ⟨hret, v1, v2, v3, v4⟩ := four_result
  refine ⟨_, hret, ?_, ?_⟩
  · intro fuel t ht
    exact relaxationLoop_unique 4 (1 / 1000) (initialState 4) _ t 9 fuel hret ht
  · rw [v1, v2, v3, v4]
    refine ⟨?_, ?_, ?_, ?_⟩ <;> rw [abs_le] <;> constructor <;> norm_num

end SequentialFacts

/-! ## Frame of the shared-memory pass -/

theorem shared_relaxRow_frame (p : ℚ) (x : Int) (ys : List Int) (s : SharedMemory.State)
    (i j : Int) (h : ¬ (i = x ∧ j ∈ ys)) :
    (ys.foldl (fun u y => SharedMemory.relaxCell p x y u) s).doubleMatrix i j
      = s.doubleMatrix i j := by
  induction ys generalizing s with
  | nil => rfl
  | cons y t ih =>
    rw [List.foldl_cons, ih _ (fun h2 => h ⟨h2.1, List.mem_cons_of_mem _ h2.2⟩)]
    have hne : ¬ (i = x ∧ j = y) := fun h2 => h ⟨h2.1, h2.2 ▸ List.mem_cons_self _ _⟩
    simp only [SharedMemory.relaxCell, setCell, if_neg hne]

theorem shared_relaxRows_frame (p : ℚ) (xs ys : List Int) (s : SharedMemory.State)
    (i j : Int) (h : ¬ (i ∈ xs ∧ j ∈ ys)) :
    (xs.foldl (fun t x => ys.foldl (fun u y => SharedMemory.relaxCell p x y u) t) s).doubleMatrix
        i j
      = s.doubleMatrix i j := by
  induction xs generalizing s with
  | nil => rfl
  | cons x t ih =>
    rw [List.foldl_cons, ih _ (fun h2 => h ⟨List.mem_cons_of_mem _ h2.1, h2.2⟩)]
    exact shared_relaxRow_frame p x ys s i j
      (fun h2 => h ⟨h2.1 ▸ List.mem_cons_self _ _, h2.2⟩)

/-- C9: one pass of the sequential engine and one pass of a shared-memory
worker leave every cell that is not an interior cell `(x, y)`, `1 ≤ x, y ≤ D-2`,
exactly as it was (so row 0, row `D-1`, column 0 and column `D-1` are never
written). -/
theorem pass_boundary_frame (D : Int) (p : ℚ) (s : Sequential.State) (tid : Int)
    (w : SharedMemory.State) (x y : Int)
    (h : ¬ ((1 ≤ x ∧ x ≤ D - 2) ∧ (1 ≤ y ∧ y ≤ D - 2))) :
    (Sequential.relaxationPass D p s).doubleMatrix x y = s.doubleMatrix x y ∧
      (SharedMemory.workerPass D p tid w).doubleMatrix x y = w.doubleMatrix x y := by
  constructor
  · rw [relaxationPass_matrix, if_neg h]
  · unfold SharedMemory.workerPass SharedMemory.workerRows
    apply shared_relaxRows_frame
    simp only [mem_loopRange]
    rintro ⟨⟨h1, h2⟩, h3, h4⟩
    exact h ⟨⟨h1, by omega⟩, h3, by omega⟩

/-- Instance of C9 at `D = 3`, boundary cell `(0, 2)`. -/
theorem pass_boundary_frame_witness :
    ¬ ((1 ≤ (0 : Int) ∧ (0 : Int) ≤ 3 - 2) ∧ (1 ≤ (2 : Int) ∧ (2 : Int) ≤ 3 - 2)) ∧
      ((Sequential.relaxationPass 3 0 (Sequential.initialState 3)).doubleMatrix 0 2
          = (Sequential.initialState 3).doubleMatrix 0 2 ∧
        (SharedMemory.workerPass 3 0 0 ⟨spikeGrid, true⟩).doubleMatrix 0 2
          = (SharedMemory.State.mk spikeGrid true).doubleMatrix 0 2) :=
  ⟨by decide, pass_boundary_frame 3 0 (Sequential.initialState 3) 0 ⟨spikeGrid, true⟩ 0 2
    (by decide)⟩

/-! ## Shared-memory engine: rows of a worker, convergence flag -/

/-- C4 (as stated, refuted): with `D = 4` and two workers, worker 0 relaxes
rows 1 and 2 while the Partition rule assigns it row 1 only, and row 1 is
relaxed by worker 0 and by worker 1 alike. -/
theorem workerRows_not_partition :
    SharedMemory.workerRows 4 0 = [1, 2] ∧ Spec.partitionRows 4 2 0 = [1] ∧
      (0 : Int) ∈ SharedMemory.launchedWorkers 2 ∧ (1 : Int) ∈ SharedMemory.launchedWorkers 2 ∧
      (1 : Int) ∈ SharedMemory.workerRows 4 0 ∧ (1 : Int) ∈ SharedMemory.workerRows 4 1 := by
  decide

/-- C4 (amended): every worker, whatever its index, relaxes exactly the
interior rows `1..D-2`; hence each interior row is relaxed by all `W` launched
workers (exactly once only when `W = 1`). -/
theorem workerRows_all_interior (D W x : Int) (hx : 1 ≤ x ∧ x ≤ D - 2) :
    (∀ t z, z ∈ SharedMemory.workerRows D t ↔ 1 ≤ z ∧ z ≤ D - 2) ∧
      ((SharedMemory.launchedWorkers W).filter
        (fun t => decide (x ∈ SharedMemory.workerRows D t))).length = W.toNat := by
  have hall : ∀ t z, z ∈ SharedMemory.workerRows D t ↔ 1 ≤ z ∧ z ≤ D - 2 := by
    intro t z
    unfold SharedMemory.workerRows
    rw [mem_loopRange]
    omega
  refine ⟨hall, ?_⟩
  have hfilter : (SharedMemory.launchedWorkers W).filter
      (fun t => decide (x ∈ SharedMemory.workerRows D t)) = SharedMemory.launchedWorkers W := by
    apply List.filter_eq_self.2
    intro t _
    exact decide_eq_true ((hall t x).2 hx)
  rw [hfilter]
  unfold SharedMemory.launchedWorkers loopRange
  simp

/-- Instance of the amended C4 at `D = 3`, two workers, row 1. -/
theorem workerRows_all_interior_witness :
    (1 ≤ (1 : Int) ∧ (1 : Int) ≤ 3 - 2) ∧
      ((∀ t z, z ∈ SharedMemory.workerRows 3 t ↔ 1 ≤ z ∧ z ≤ (3 : Int) - 2) ∧
        ((SharedMemory.launchedWorkers 2).filter
          (fun t => decide ((1 : Int) ∈ SharedMemory.workerRows 3 t))).length
            = (2 : Int).toNat) :=
  ⟨by decide, workerRows_all_interior 3 2 1 (by decide)⟩

/-! ## Distributed engine at the failing inputs -/

/-- C3 (code at the failing input): with a single process (`D = 3`, `W = 1`)
rank 0 takes the branch of the last rank only, its buffer starts at
`sendDisplacements[0] = -3`, and the rows it relaxes are grid rows 0 and 1,
while the partition rule leaves it row 1 only: the boundary row 0 is relaxed. -/
theorem relaxedGridRows_single_process :
    (Distributed.computeCounts 3 1).sendDisplacements 0 = -3 ∧
      Distributed.relaxedBufferRows 3 1 0 = [1, 2] ∧
      Distributed.relaxedGridRows 3 1 0 = [0, 1] ∧
      Spec.partitionRows 3 1 0 = [1] := by
  decide

/-- C5 (code at the failing input): with `D = 4` and two processes the final
gather places rows 1, 2 from rank 0 and rows 2, 3 from rank 1, so grid row 2
is received twice, and the copy sent by rank 0 is its buffer row
`numRowsPerProc + 1`, the trailing ghost row, which rank 0 never relaxes. -/
theorem gatheredGridRows_overlap :
    Distributed.gatheredGridRows 4 2 0 = [1, 2] ∧
      Distributed.gatheredGridRows 4 2 1 = [2, 3] ∧
      Distributed.gatheredBufferRow 4 2 0 2 = Distributed.numRowsPerProc 4 2 0 + 1 ∧
      Distributed.relaxedGridRows 4 2 0 = [1] ∧
      Distributed.relaxedGridRows 4 2 1 = [2] := by
  decide

/-! ## Distributed engine: counts and displacements -/

theorem loopRange_append {a r b : Int} (h1 : a ≤ r) (h2 : r ≤ b) :
    loopRange a b = loopRange a r ++ loopRange r b := by
  have key : ∀ (n : Nat) (a : Int), (r - a).toNat = n → a ≤ r →
      loopRange a b = loopRange a r ++ loopRange r b := by
    intro n
    induction n with
    | zero =>
      intro a hn ha
      obtain rfl : a = r := by omega
      rw [loopRange_nil (le_refl a), List.nil_append]
    | succ n ih =>
      intro a hn ha
      rw [loopRange_cons (show a < b by omega), loopRange_cons (show a < r by omega),
        ih (a + 1) (by omega) (by omega), List.cons_append]
  exact key _ a rfl h1

theorem countsBody_numRows (D W : Int) (l : List Int) (hl : ∀ i ∈ l, i ≠ W - 1) (c : Distributed.Counts) :
    (l.foldl (Distributed.countsBody D W) c).numRowsPerProc = c.numRowsPerProc := by
  induction l generalizing c with
  | nil => rfl
  | cons i t ih =>
    rw [List.foldl_cons, ih (fun k hk => hl k (List.mem_cons_of_mem _ hk))]
    have hi := hl i (List.mem_cons_self _ _)
    unfold Distributed.countsBody
    simp only [if_neg hi]
    split_ifs <;> rfl

theorem countsBody_frame (D W : Int) (l : List Int) (r : Int) (hl : r ∉ l) (c : Distributed.Counts) :
    (l.foldl (Distributed.countsBody D W) c).sendCounts r = c.sendCounts r ∧
    (l.foldl (Distributed.countsBody D W) c).recvCounts r = c.recvCounts r ∧
    (l.foldl (Distributed.countsBody D W) c).sendDisplacements r = c.sendDisplacements r ∧
    (l.foldl (Distributed.countsBody D W) c).recvDisplacements r = c.recvDisplacements r := by
  induction l generalizing c with
  | nil => exact ⟨rfl, rfl, rfl, rfl⟩
  | cons i t ih =>
    rw [List.foldl_cons]
    obtain ⟨h1, h2, h3, h4⟩ := ih (fun h => hl (List.mem_cons_of_mem _ h)) (Distributed.countsBody D W c i)
    rw [h1, h2, h3, h4]
    have hne : r ≠ i := fun h => hl (h ▸ List.mem_cons_self _ _)
    unfold Distributed.countsBody
    split_ifs <;> simp [setInt, hne]

theorem countsBody_at (D W r : Int) (c : Distributed.Counts) :
    (Distributed.countsBody D W c r).sendCounts r
        = (if r = W - 1 then (D % W + c.numRowsPerProc) * D + D
           else if r = 0 then c.numRowsPerProc * D + D else c.numRowsPerProc * D + D * 2) ∧
    (Distributed.countsBody D W c r).recvCounts r
        = (if r = W - 1 then (D % W + c.numRowsPerProc) * D
           else if r = 0 then c.numRowsPerProc * D else c.numRowsPerProc * D) ∧
    (Distributed.countsBody D W c r).sendDisplacements r
        = (if r = W - 1 then c.numRowsPerProc * D * r - D
           else if r = 0 then 0 else c.numRowsPerProc * D * r - D) ∧
    (Distributed.countsBody D W c r).recvDisplacements r
        = (if r = W - 1 then c.numRowsPerProc * D * r
           else if r = 0 then D else c.numRowsPerProc * D * r) := by
  unfold Distributed.countsBody
  split_ifs with ha hb
  · simp [setInt]
  · subst hb
    simp [setInt]
  · simp [setInt]

theorem computeCounts_apply (D W r : Int) (h0 : 0 ≤ r) (h1 : r < W) :
    (Distributed.computeCounts D W).sendCounts r
        = (if r = W - 1 then (D % W + D / W) * D + D
           else if r = 0 then D / W * D + D else D / W * D + D * 2) ∧
    (Distributed.computeCounts D W).recvCounts r
        = (if r = W - 1 then (D % W + D / W) * D
           else if r = 0 then D / W * D else D / W * D) ∧
    (Distributed.computeCounts D W).sendDisplacements r
        = (if r = W - 1 then D / W * D * r - D
           else if r = 0 then 0 else D / W * D * r - D) ∧
    (Distributed.computeCounts D W).recvDisplacements r
        = (if r = W - 1 then D / W * D * r
           else if r = 0 then D else D / W * D * r) := by
  unfold Distributed.computeCounts
  rw [loopRange_append h0 (le_of_lt h1), loopRange_cons h1, List.foldl_append, List.foldl_cons]
  have hnot : r ∉ loopRange (r + 1) W := by
    rw [mem_loopRange]; omega
  have hq := countsBody_numRows D W (loopRange 0 r)
    (fun i hi => by rw [mem_loopRange] at hi; omega)
    { numRowsPerProc := D / W, sendCounts := fun _ => 0, recvCounts := fun _ => 0,
      sendDisplacements := fun _ => 0, recvDisplacements := fun _ => 0 }
  simp only at hq
  generalize List.foldl (Distributed.countsBody D W)
    { numRowsPerProc := D / W, sendCounts := fun _ => 0, recvCounts := fun _ => 0,
      sendDisplacements := fun _ => 0, recvDisplacements := fun _ => 0 } (loopRange 0 r) = c at hq ⊢
  obtain ⟨e1, e2, e3, e4⟩ := countsBody_frame D W (loopRange (r + 1) W) r hnot (Distributed.countsBody D W c r)
  obtain ⟨f1, f2, f3, f4⟩ := countsBody_at D W r c
  rw [e1, e2, e3, e4, f1, f2, f3, f4, hq]
  exact ⟨rfl, rfl, rfl, rfl⟩

theorem checkBalanced_iff (b : Int → Bool) (l : List Int) :
    Distributed.checkBalanced b l = true ↔ ∀ i ∈ l, b i = true := by
  induction l with
  | nil => simp [Distributed.checkBalanced]
  | cons i t ih =>
    unfold Distributed.checkBalanced
    cases hb : b i <;> simp [hb, ih]

theorem checkBalanced_eq_all (b : Int → Bool) (l : List Int) :
    Distributed.checkBalanced b l = l.all b := by
  rw [Bool.eq_iff_iff, checkBalanced_iff, List.all_eq_true]

/-! ## Distributed engine: layout of the buffers for at least two ranks -/

theorem partition_arith (D W r : Int) (hW : 2 ≤ W) (hWD : W ≤ D) (h0 : 0 ≤ r) (h1 : r < W) :
    1 ≤ D / W ∧ D / W * W + D % W = D ∧ 0 ≤ D % W ∧ D % W < W ∧
      0 ≤ D / W * r ∧ (1 ≤ r → D / W ≤ D / W * r) ∧ D / W * r + D / W ≤ D / W * W ∧
      (r < W - 1 → D / W * r + 2 * (D / W) ≤ D / W * W) ∧
      (r = W - 1 → D / W * r + D / W = D / W * W) ∧ (r = 0 → D / W * r = 0) := by
  have hq : 1 ≤ D / W := Int.le_ediv_of_mul_le (by omega) (by omega)
  refine ⟨hq, Int.ediv_add_emod' D W, Int.emod_nonneg D (by omega),
    Int.emod_lt_of_pos D (by omega), ?_, ?_, ?_, ?_, ?_, ?_⟩
  · exact mul_nonneg (by omega) h0
  · intro hr
    nlinarith
  · nlinarith
  · intro hr
    nlinarith
  · intro hr
    subst hr
    ring
  · intro hr
    subst hr
    ring

theorem sendDisplacements_eq (D W r : Int) (hW : 2 ≤ W) (h0 : 0 ≤ r) (h1 : r < W) :
    (Distributed.computeCounts D W).sendDisplacements r = Distributed.firstHeldRow D W r * D := by
  rw [(computeCounts_apply D W r h0 h1).2.2.1]
  unfold Distributed.firstHeldRow
  split_ifs <;> first | omega | ring

theorem sendCounts_eq (D W r : Int) (h0 : 0 ≤ r) (h1 : r < W) :
    (Distributed.computeCounts D W).sendCounts r
      = (Distributed.numRowsPerProc D W r + (if r = W - 1 then 1 else 2)) * D := by
  rw [(computeCounts_apply D W r h0 h1).1]
  unfold Distributed.numRowsPerProc
  split_ifs <;> ring

theorem numRows_nonneg (D W r : Int) (hW : 2 ≤ W) (hWD : W ≤ D) (h0 : 0 ≤ r) (h1 : r < W) :
    0 ≤ Distributed.numRowsPerProc D W r ∧ (1 ≤ r → 1 ≤ Distributed.numRowsPerProc D W r) := by
  obtain ⟨a1, a2, a3, a4, a5, a6, a7, a8, a9, a10⟩ := partition_arith D W r hW hWD h0 h1
  unfold Distributed.numRowsPerProc
  split_ifs <;> omega

theorem lead_row (D W r : Int) (h0 : 1 ≤ r) (h1 : r < W) :
    Distributed.numRowsPerProc D W (r - 1) + Distributed.firstHeldRow D W (r - 1)
      = Distributed.firstHeldRow D W r := by
  unfold Distributed.numRowsPerProc Distributed.firstHeldRow
  rcases eq_or_ne r 1 with rfl | hr
  · simp only [sub_self, mul_one]
    split_ifs <;> omega
  · simp only [mul_sub, mul_one]
    split_ifs <;> omega

theorem trail_row (D W r : Int) (h0 : 0 ≤ r) (h1 : r < W - 1) :
    Distributed.numRowsPerProc D W r + 1 + Distributed.firstHeldRow D W r
      = 1 + Distributed.firstHeldRow D W (r + 1) := by
  unfold Distributed.numRowsPerProc Distributed.firstHeldRow
  rcases eq_or_ne r 0 with rfl | hr
  · simp only [zero_add, mul_one]
    split_ifs <;> omega
  · simp only [mul_add, mul_one]
    split_ifs <;> omega

theorem ownedRows_iff (D W r x : Int) (hW : 2 ≤ W) (hWD : W ≤ D) (h0 : 0 ≤ r) (h1 : r < W) :
    x ∈ Spec.ownedRows D W r ↔
      (if r = 0 then 0 else 1) ≤ x - Distributed.firstHeldRow D W r ∧
        x - Distributed.firstHeldRow D W r ≤ Distributed.numRowsPerProc D W r := by
  obtain ⟨a1, a2, a3, a4, a5, a6, a7, a8, a9, a10⟩ := partition_arith D W r hW hWD h0 h1
  unfold Spec.ownedRows Distributed.numRowsPerProc Distributed.firstHeldRow
  rw [mem_loopRange]
  have e1 : r * (D / W) = D / W * r := mul_comm _ _
  have e2 : (r + 1) * (D / W) = D / W * r + D / W := by ring
  rw [e1, e2]
  split_ifs <;> omega

theorem relaxedBufferRows_iff (D W r b : Int) :
    b ∈ Distributed.relaxedBufferRows D W r ↔
      1 ≤ b ∧ b ≤ Distributed.numRowsPerProc D W r ∧
        ¬ (r = W - 1 ∧ b = Distributed.numRowsPerProc D W r) := by
  unfold Distributed.relaxedBufferRows
  rw [List.mem_filter, mem_loopRange, decide_eq_true_eq]
  constructor
  · rintro ⟨⟨h1, h2⟩, h3⟩
    exact ⟨h1, by omega, h3⟩
  · rintro ⟨h1, h2, h3⟩
    exact ⟨⟨h1, by omega⟩, h3⟩

theorem interior_iff_relaxed (D W r b : Int) (hW : 2 ≤ W) (hWD : W ≤ D)
    (h0 : 0 ≤ r) (h1 : r < W)
    (hb0 : (if r = 0 then 0 else 1) ≤ b) (hb1 : b ≤ Distributed.numRowsPerProc D W r) :
    (1 ≤ b + Distributed.firstHeldRow D W r ∧ b + Distributed.firstHeldRow D W r ≤ D - 2) ↔
      b ∈ Distributed.relaxedBufferRows D W r := by
  obtain ⟨a1, a2, a3, a4, a5, a6, a7, a8, a9, a10⟩ := partition_arith D W r hW hWD h0 h1
  rw [relaxedBufferRows_iff]
  revert hb0 hb1
  unfold Distributed.numRowsPerProc Distributed.firstHeldRow
  split_ifs <;> intro hb0 hb1 <;> omega

theorem interior_row_owned (D W x : Int) (hW : 2 ≤ W) (hWD : W ≤ D)
    (hx0 : 1 ≤ x) (hx1 : x ≤ D - 2) :
    ∃ r, 0 ≤ r ∧ r < W ∧ x ∈ Spec.ownedRows D W r := by
  obtain ⟨a1, a2, a3, a4, -, -, -, -, -, -⟩ := partition_arith D W 0 hW hWD (le_refl 0) (by omega)
  by_cases hlast : D / W * (W - 1) ≤ x
  · refine ⟨W - 1, by omega, by omega, ?_⟩
    unfold Spec.ownedRows
    rw [mem_loopRange, if_pos rfl, mul_comm]
    omega
  · have hq : 0 < D / W := by omega
    have hlt : x < (W - 1) * (D / W) := by rw [mul_comm]; omega
    have hr1 : x / (D / W) < W - 1 := Int.ediv_lt_of_lt_mul hq hlt
    have hr0 : 0 ≤ x / (D / W) := Int.ediv_nonneg (by omega) (by omega)
    refine ⟨x / (D / W), hr0, by omega, ?_⟩
    unfold Spec.ownedRows
    rw [mem_loopRange, if_neg (by omega)]
    have hm := Int.ediv_add_emod' x (D / W)
    have hm0 := Int.emod_nonneg x (show D / W ≠ 0 by omega)
    have hm1 := Int.emod_lt_of_pos x hq
    constructor
    · omega
    · rw [add_mul, one_mul]
      omega

/-! ## Distributed engine: transfers and local relaxation -/

theorem flat_bounds {D b n j : Int} (hj : 0 ≤ j ∧ j < D) (hb0 : 0 ≤ b) (hb1 : b < n) :
    0 ≤ b * D + j ∧ b * D + j < n * D := by
  constructor
  · nlinarith [mul_nonneg hb0 (show 0 ≤ D by omega)]
  · nlinarith

theorem flat_row_iff {D b c j : Int} (hj : 0 ≤ j ∧ j < D) :
    (c * D ≤ b * D + j ∧ b * D + j < c * D + D) ↔ b = c := by
  constructor
  · rintro ⟨h1, h2⟩
    by_contra hne
    rcases lt_or_gt_of_ne hne with h | h
    · nlinarith
    · nlinarith
  · rintro rfl
    omega

theorem transfer_row_hit (D : Int) (src : Buf) (sOff : Int) (dst : Buf) (c j : Int)
    (hj : 0 ≤ j ∧ j < D) :
    transfer D src sOff dst (c * D) (c * D + j) = src (sOff + j) := by
  unfold transfer
  rw [if_pos (by omega)]
  congr 1
  omega

theorem transfer_row_miss (D : Int) (src : Buf) (sOff : Int) (dst : Buf) (b c j : Int)
    (hj : 0 ≤ j ∧ j < D) (hne : b ≠ c) :
    transfer D src sOff dst (c * D) (b * D + j) = dst (b * D + j) := by
  unfold transfer
  rw [if_neg]
  intro h
  exact hne ((flat_row_iff hj).1 h)

section DistributedFacts

open Distributed

theorem transfer_zero_hit (D : Int) (src : Buf) (sOff : Int) (dst : Buf) (j : Int)
    (hj : 0 ≤ j ∧ j < D) :
    transfer D src sOff dst 0 (0 * D + j) = src (sOff + j) := by
  have := transfer_row_hit D src sOff dst 0 j hj
  rw [zero_mul] at this ⊢
  exact this

theorem transfer_zero_miss (D : Int) (src : Buf) (sOff : Int) (dst : Buf) (b j : Int)
    (hj : 0 ≤ j ∧ j < D) (hne : b ≠ 0) :
    transfer D src sOff dst 0 (b * D + j) = dst (b * D + j) := by
  have := transfer_row_miss D src sOff dst b 0 j hj hne
  rw [zero_mul] at this
  exact this

theorem exchangeUp_owned (D W : Int) (bufs : Int → Buf) (r b j : Int)
    (hj : 0 ≤ j ∧ j < D) (hb : b ≤ numRowsPerProc D W r) :
    exchangeUp D W bufs r (b * D + j) = bufs r (b * D + j) := by
  unfold exchangeUp
  split_ifs
  · exact transfer_row_miss D _ _ _ b _ j hj (by omega)
  · rfl

theorem exchanged_holds (D W : Int) (g : Grid) (bufs : Int → Buf)
    (hW : 2 ≤ W) (hWD : W ≤ D)
    (hown : ∀ r, 0 ≤ r → r < W → ∀ b, (if r = 0 then 0 else 1) ≤ b →
      b ≤ numRowsPerProc D W r → ∀ j, 0 ≤ j ∧ j < D →
        bufs r (b * D + j) = g (b + firstHeldRow D W r) j)
    (r : Int) (h0 : 0 ≤ r) (h1 : r < W) (b : Int) (hb0 : 0 ≤ b)
    (hb1 : b ≤ numRowsPerProc D W r + (if r = W - 1 then 0 else 1))
    (j : Int) (hj : 0 ≤ j ∧ j < D) :
    exchangeDown D W (exchangeUp D W bufs) r (b * D + j) = g (b + firstHeldRow D W r) j := by
  by_cases hlead : 0 < r ∧ b = 0
  · obtain ⟨hr, rfl⟩ := hlead
    have hn := numRows_nonneg D W (r - 1) hW hWD (by omega) (by omega)
    unfold exchangeDown
    rw [if_pos hr, transfer_zero_hit D _ _ _ j hj,
      exchangeUp_owned D W bufs (r - 1) _ j hj (le_refl _),
      hown (r - 1) (by omega) (by omega) _ (by split_ifs <;> omega) (le_refl _) j hj,
      lead_row D W r (by omega) h1, zero_add]
  · have hdown : exchangeDown D W (exchangeUp D W bufs) r (b * D + j)
        = exchangeUp D W bufs r (b * D + j) := by
      unfold exchangeDown
      split_ifs with hr
      · exact transfer_zero_miss D _ _ _ b j hj (fun hb => hlead ⟨hr, hb⟩)
      · rfl
    rw [hdown]
    by_cases htrail : r < W - 1 ∧ b = numRowsPerProc D W r + 1
    · obtain ⟨hr, rfl⟩ := htrail
      have hn := numRows_nonneg D W (r + 1) hW hWD (by omega) (by omega)
      unfold exchangeUp
      rw [if_pos hr, transfer_row_hit D _ _ _ _ j hj]
      have e : D + j = 1 * D + j := by ring
      rw [e, hown (r + 1) (by omega) (by omega) 1 (by split_ifs <;> omega) (by omega) j hj,
        trail_row D W r h0 hr]
    · have hb : b ≤ numRowsPerProc D W r := by
        by_cases hr : r = W - 1
        · rw [if_pos hr] at hb1
          omega
        · rw [if_neg hr] at hb1
          have : b ≠ numRowsPerProc D W r + 1 := fun h => htrail ⟨by omega, h⟩
          omega
      rw [exchangeUp_owned D W bufs r b j hj hb]
      refine hown r h0 h1 b ?_ hb j hj
      split_ifs with hr
      · exact hb0
      · have : b ≠ 0 := fun h => hlead ⟨by omega, h⟩
        omega

theorem gridRowOfBufferRow_eq (D W r b : Int) (hD : 0 < D) (hW : 2 ≤ W) (h0 : 0 ≤ r)
    (h1 : r < W) :
    gridRowOfBufferRow D W r b = b + firstHeldRow D W r := by
  unfold gridRowOfBufferRow
  rw [sendDisplacements_eq D W r hW h0 h1, ← add_mul, Int.mul_ediv_cancel _ (by omega)]
  omega

/-- With at least two ranks the rows relaxed by rank `r` are exactly the rows
the partition rule leaves to it (supports C3: the defect is confined to a
single process). -/
theorem relaxedGridRows_eq_partition (D W r x : Int) (hW : 2 ≤ W) (hWD : W ≤ D)
    (h0 : 0 ≤ r) (h1 : r < W) :
    x ∈ relaxedGridRows D W r ↔ x ∈ Spec.partitionRows D W r := by
  obtain ⟨a1, a2, a3, a4, a5, a6, a7, a8, a9, a10⟩ := partition_arith D W r hW hWD h0 h1
  unfold relaxedGridRows Spec.partitionRows
  rw [List.mem_map, List.mem_filter, decide_eq_true_eq]
  constructor
  · rintro ⟨b, hb, rfl⟩
    rw [gridRowOfBufferRow_eq D W r b (by omega) hW h0 h1]
    have hb' := (relaxedBufferRows_iff D W r b).1 hb
    have hint := (interior_iff_relaxed D W r b hW hWD h0 h1 (by split_ifs <;> omega) hb'.2.1).2 hb
    refine ⟨?_, by omega, by omega⟩
    rw [ownedRows_iff D W r _ hW hWD h0 h1]
    constructor
    · split_ifs <;> omega
    · omega
  · rintro ⟨hown, hx0, hx1⟩
    have hrange : 0 ≤ x ∧ x < D := by
      unfold Spec.ownedRows at hown
      rw [mem_loopRange, mul_comm r, add_mul, one_mul, mul_comm r] at hown
      split_ifs at hown <;> omega
    rw [ownedRows_iff D W r x hW hWD h0 h1] at hown
    refine ⟨x - firstHeldRow D W r, ?_, ?_⟩
    · apply (interior_iff_relaxed D W r _ hW hWD h0 h1 hown.1 hown.2).1
      omega
    · rw [gridRowOfBufferRow_eq D W r _ (by omega) hW h0 h1]
      omega

/-- With at least two ranks grid row `D / W` is received both from rank 0 and
from rank 1 in the final gather, and the copy of rank 0 is its trailing ghost
row (supports C5: the overlap is not special to `D = 4`, `W = 2`). -/
theorem gathered_rows_overlap_any (D W : Int) (hW : 2 ≤ W) (hWD : W ≤ D) :
    D / W ∈ gatheredGridRows D W 0 ∧ D / W ∈ gatheredGridRows D W 1 ∧
      gatheredBufferRow D W 0 (D / W) = numRowsPerProc D W 0 + 1 := by
  obtain ⟨a1, a2, a3, a4, a5, a6, a7, a8, a9, a10⟩ :=
    partition_arith D W 1 hW hWD (by omega) (by omega)
  have hD : D ≠ 0 := by omega
  obtain ⟨-, c0, -, d0⟩ := computeCounts_apply D W 0 (le_refl 0) (by omega)
  obtain ⟨-, c1, -, d1⟩ := computeCounts_apply D W 1 (by omega) (by omega)
  rw [if_neg (by omega), if_pos rfl] at c0 d0
  have hd0 : (computeCounts D W).recvDisplacements 0 / D = 1 := by
    rw [d0, Int.ediv_self hD]
  refine ⟨?_, ?_, ?_⟩
  · unfold gatheredGridRows
    rw [mem_loopRange, hd0, d0, c0]
    have e : (D + D / W * D) / D = 1 + D / W := by
      rw [Int.add_mul_ediv_right _ _ hD, Int.ediv_self hD]
    rw [e]
    omega
  · unfold gatheredGridRows
    rw [mem_loopRange, d1, c1]
    by_cases hlast : (1 : Int) = W - 1
    · rw [if_pos hlast, if_pos hlast]
      have e1 : D / W * D * 1 / D = D / W := by
        rw [mul_one, Int.mul_ediv_cancel _ hD]
      have e2 : (D / W * D * 1 + (D % W + D / W) * D) / D = D / W + (D % W + D / W) := by
        rw [mul_one, ← add_mul, Int.mul_ediv_cancel _ hD]
      rw [e1, e2]
      omega
    · rw [if_neg hlast, if_neg hlast, if_neg (by omega), if_neg (by omega)]
      have e1 : D / W * D * 1 / D = D / W := by
        rw [mul_one, Int.mul_ediv_cancel _ hD]
      have e2 : (D / W * D * 1 + D / W * D) / D = D / W + D / W := by
        rw [mul_one, ← add_mul, Int.mul_ediv_cancel _ hD]
      rw [e1, e2]
      omega
  · unfold gatheredBufferRow numRowsPerProc
    rw [hd0, if_neg (by omega), if_pos rfl]

end DistributedFacts

/-! ## Configuration validation -/

theorem shared_optionLoop_bad (opts : List Opt) (h : ∃ o ∈ opts, Spec.badShared o) :
    ∀ s, SharedMemory.optionLoop opts s = Except.error (-1) := by
  induction opts with
  | nil => obtain ⟨o, ho, _⟩ := h; cases ho
  | cons o rest ih =>
    intro s
    have hrest : (¬ Spec.badShared o) → ∃ o2 ∈ rest, Spec.badShared o2 := by
      intro hn
      obtain ⟨o2, ho2, hb⟩ := h
      rcases List.mem_cons.1 ho2 with rfl | hm
      · exact absurd hb hn
      · exact ⟨o2, hm, hb⟩
    cases o with
    | a v =>
      by_cases hv : v < 3
      · simp [SharedMemory.optionLoop, hv]
      · simp only [SharedMemory.optionLoop, if_neg hv]
        exact ih (hrest hv) _
    | p v =>
      by_cases hv : v < 0 ∨ v > 1
      · simp only [SharedMemory.optionLoop, if_pos hv]
      · simp only [SharedMemory.optionLoop, if_neg hv]
        exact ih (hrest hv) _
    | w v =>
      by_cases hv : v < 1
      · simp [SharedMemory.optionLoop, hv]
      · simp only [SharedMemory.optionLoop, if_neg hv]
        exact ih (hrest hv) _
    | other =>
      simp only [SharedMemory.optionLoop]
      exact ih (hrest (fun hf => hf)) _

theorem shared_optionLoop_good (opts : List Opt) (h : ∀ o ∈ opts, ¬ Spec.badShared o) :
    ∀ s, SharedMemory.optionLoop opts s
      = Except.ok
          { PRECISION := Spec.precisionOf opts s.PRECISION
            ARRAY_DIMENSION := Spec.dimensionOf opts s.ARRAY_DIMENSION
            WORKERS := Spec.workersOf opts s.WORKERS } := by
  induction opts with
  | nil => intro s; rfl
  | cons o rest ih =>
    intro s
    have ho := h o (List.mem_cons_self _ _)
    have hrest := ih (fun o2 h2 => h o2 (List.mem_cons_of_mem _ h2))
    cases o with
    | a v =>
      have hv : ¬ v < 3 := ho
      simp only [SharedMemory.optionLoop, if_neg hv, hrest, Spec.precisionOf, Spec.dimensionOf,
        Spec.workersOf]
    | p v =>
      have hv : ¬ (v < 0 ∨ v > 1) := ho
      simp only [SharedMemory.optionLoop, if_neg hv, hrest, Spec.precisionOf, Spec.dimensionOf,
        Spec.workersOf]
    | w v =>
      have hv : ¬ v < 1 := ho
      simp only [SharedMemory.optionLoop, if_neg hv, hrest, Spec.precisionOf, Spec.dimensionOf,
        Spec.workersOf]
    | other =>
      simp only [SharedMemory.optionLoop, hrest, Spec.precisionOf, Spec.dimensionOf,
        Spec.workersOf]

theorem dist_optionLoop_bad (opts : List Opt) (h : ∃ o ∈ opts, Spec.badDimensionOrPrecision o) :
    ∀ s, Distributed.optionLoop opts s = Except.error (-1) := by
  induction opts with
  | nil => obtain ⟨o, ho, _⟩ := h; cases ho
  | cons o rest ih =>
    intro s
    have hrest : (¬ Spec.badDimensionOrPrecision o) → ∃ o2 ∈ rest, Spec.badDimensionOrPrecision o2 := by
      intro hn
      obtain ⟨o2, ho2, hb⟩ := h
      rcases List.mem_cons.1 ho2 with rfl | hm
      · exact absurd hb hn
      · exact ⟨o2, hm, hb⟩
    cases o with
    | a v =>
      by_cases hv : v < 3
      · simp [Distributed.optionLoop, hv]
      · simp only [Distributed.optionLoop, if_neg hv]
        exact ih (hrest hv) _
    | p v =>
      by_cases hv : v < 0 ∨ v > 1
      · simp only [Distributed.optionLoop, if_pos hv]
      · simp only [Distributed.optionLoop, if_neg hv]
        exact ih (hrest hv) _
    | w v =>
      simp only [Distributed.optionLoop]
      exact ih (hrest (fun hf => hf)) _
    | other =>
      simp only [Distributed.optionLoop]
      exact ih (hrest (fun hf => hf)) _

theorem dist_optionLoop_good (opts : List Opt) (h : ∀ o ∈ opts, ¬ Spec.badDimensionOrPrecision o) :
    ∀ s, Distributed.optionLoop opts s
      = Except.ok
          { PRECISION := Spec.precisionOf opts s.PRECISION
            ARRAY_DIMENSION := Spec.dimensionOf opts s.ARRAY_DIMENSION } := by
  induction opts with
  | nil => intro s; rfl
  | cons o rest ih =>
    intro s
    have ho := h o (List.mem_cons_self _ _)
    have hrest := ih (fun o2 h2 => h o2 (List.mem_cons_of_mem _ h2))
    cases o with
    | a v =>
      have hv : ¬ v < 3 := ho
      simp only [Distributed.optionLoop, if_neg hv, hrest, Spec.precisionOf, Spec.dimensionOf]
    | p v =>
      have hv : ¬ (v < 0 ∨ v > 1) := ho
      simp only [Distributed.optionLoop, if_neg hv, hrest, Spec.precisionOf, Spec.dimensionOf]
    | w v =>
      simp only [Distributed.optionLoop, hrest, Spec.precisionOf, Spec.dimensionOf]
    | other =>
      simp only [Distributed.optionLoop, hrest, Spec.precisionOf, Spec.dimensionOf]

theorem seq_optionLoop_bad (opts : List Opt) (h : ∃ o ∈ opts, Spec.badDimensionOrPrecision o) :
    ∀ s, Sequential.optionLoop opts s = Except.error (-1) := by
  induction opts with
  | nil => obtain ⟨o, ho, _⟩ := h; cases ho
  | cons o rest ih =>
    intro s
    have hrest : (¬ Spec.badDimensionOrPrecision o) → ∃ o2 ∈ rest, Spec.badDimensionOrPrecision o2 := by
      intro hn
      obtain ⟨o2, ho2, hb⟩ := h
      rcases List.mem_cons.1 ho2 with rfl | hm
      · exact absurd hb hn
      · exact ⟨o2, hm, hb⟩
    cases o with
    | a v =>
      by_cases hv : v < 3
      · simp [Sequential.optionLoop, hv]
      · simp only [Sequential.optionLoop, if_neg hv]
        exact ih (hrest hv) _
    | p v =>
      by_cases hv : v < 0 ∨ v > 1
      · simp only [Sequential.optionLoop, if_pos hv]
      · simp only [Sequential.optionLoop, if_neg hv]
        exact ih (hrest hv) _
    | w v =>
      simp only [Sequential.optionLoop]
      exact ih (hrest (fun hf => hf)) _
    | other =>
      simp only [Sequential.optionLoop]
      exact ih (hrest (fun hf => hf)) _

theorem seq_optionLoop_good (opts : List Opt) (h : ∀ o ∈ opts, ¬ Spec.badDimensionOrPrecision o) :
    ∀ s, Sequential.optionLoop opts s
      = Except.ok
          { PRECISION := Spec.precisionOf opts s.PRECISION
            ARRAY_DIMENSION := Spec.dimensionOf opts s.ARRAY_DIMENSION } := by
  induction opts with
  | nil => intro s; rfl
  | cons o rest ih =>
    intro s
    have ho := h o (List.mem_cons_self _ _)
    have hrest := ih (fun o2 h2 => h o2 (List.mem_cons_of_mem _ h2))
    cases o with
    | a v =>
      have hv : ¬ v < 3 := ho
      simp only [Sequential.optionLoop, if_neg hv, hrest, Spec.precisionOf, Spec.dimensionOf]
    | p v =>
      have hv : ¬ (v < 0 ∨ v > 1) := ho
      simp only [Sequential.optionLoop, if_neg hv, hrest, Spec.precisionOf, Spec.dimensionOf]
    | w v =>
      simp only [Sequential.optionLoop, hrest, Spec.precisionOf, Spec.dimensionOf]
    | other =>
      simp only [Sequential.optionLoop, hrest, Spec.precisionOf, Spec.dimensionOf]


/-- C15: in each of the three programs the option loop leaves `main` with
status -1, before any grid is created, as soon as a supplied dimension is below
3 or a supplied precision is below 0 or above 1 (and, in the shared-memory
program, a supplied worker count is below 1); when every supplied value is in
range, `main` goes on to `createDoubleMatrix` with exactly the supplied values
(the last one given for each option, the default where none is given). -/
theorem option_validation (opts : List Opt) :
    ((∃ o ∈ opts, Spec.badShared o) → SharedMemory.mainStart opts = Except.error (-1)) ∧
      ((∃ o ∈ opts, Spec.badDimensionOrPrecision o) →
        Distributed.mainStart opts = Except.error (-1) ∧
          Sequential.mainStart opts = Except.error (-1)) ∧
      ((∀ o ∈ opts, ¬ Spec.badShared o) →
        SharedMemory.mainStart opts
          = Except.ok
              ({ PRECISION := Spec.precisionOf opts (1 / 1000)
                 ARRAY_DIMENSION := Spec.dimensionOf opts 4
                 WORKERS := Spec.workersOf opts 1 },
                SharedMemory.createDoubleMatrix (Spec.dimensionOf opts 4))) ∧
      ((∀ o ∈ opts, ¬ Spec.badDimensionOrPrecision o) →
        Distributed.mainStart opts
            = Except.ok
                ({ PRECISION := Spec.precisionOf opts (1 / 1000)
                   ARRAY_DIMENSION := Spec.dimensionOf opts 30 },
                  Distributed.createDoubleMatrix (Spec.dimensionOf opts 30)) ∧
          Sequential.mainStart opts
            = Except.ok
                ({ PRECISION := Spec.precisionOf opts (1 / 1000)
                   ARRAY_DIMENSION := Spec.dimensionOf opts 4 },
                  Sequential.createDoubleMatrix (Spec.dimensionOf opts 4),
                  Sequential.createDoubleMatrix (Spec.dimensionOf opts 4))) := by
  refine ⟨?_, ?_, ?_, ?_⟩
  · intro h
    unfold SharedMemory.mainStart
    rw [shared_optionLoop_bad opts h]
  · intro h
    constructor
    · unfold Distributed.mainStart
      rw [dist_optionLoop_bad opts h]
    · unfold Sequential.mainStart
      rw [seq_optionLoop_bad opts h]
  · intro h
    unfold SharedMemory.mainStart
    rw [shared_optionLoop_good opts h]
    rfl
  · intro h
    constructor
    · unfold Distributed.mainStart
      rw [dist_optionLoop_good opts h]
      rfl
    · unfold Sequential.mainStart
      rw [seq_optionLoop_good opts h]
      rfl

/-- Instance of C15: the dimension 2 is rejected by all three programs, and
the options `-a 10 -p 0.001 -w 4` lead the shared-memory program to a grid of
dimension 10. -/
theorem option_validation_witness :
    (∃ o ∈ [Opt.a 2], Spec.badShared o) ∧ (∃ o ∈ [Opt.a 2], Spec.badDimensionOrPrecision o) ∧
      SharedMemory.mainStart [Opt.a 2] = Except.error (-1) ∧
      Distributed.mainStart [Opt.a 2] = Except.error (-1) ∧
      Sequential.mainStart [Opt.a 2] = Except.error (-1) ∧
      (∀ o ∈ [Opt.a 10, Opt.p (1 / 1000), Opt.w 4], ¬ Spec.badShared o) ∧
      SharedMemory.mainStart [Opt.a 10, Opt.p (1 / 1000), Opt.w 4]
        = Except.ok
            ({ PRECISION := Spec.precisionOf [Opt.a 10, Opt.p (1 / 1000), Opt.w 4] (1 / 1000)
               ARRAY_DIMENSION := Spec.dimensionOf [Opt.a 10, Opt.p (1 / 1000), Opt.w 4] 4
               WORKERS := Spec.workersOf [Opt.a 10, Opt.p (1 / 1000), Opt.w 4] 1 },
              SharedMemory.createDoubleMatrix
                (Spec.dimensionOf [Opt.a 10, Opt.p (1 / 1000), Opt.w 4] 4)) ∧
      Spec.dimensionOf [Opt.a 10, Opt.p (1 / 1000), Opt.w 4] 4 = 10 := by
  have hbad1 : ∃ o ∈ [Opt.a 2], Spec.badShared o :=
    ⟨Opt.a 2, List.mem_singleton.2 rfl, by simp [Spec.badShared]⟩
  have hbad2 : ∃ o ∈ [Opt.a 2], Spec.badDimensionOrPrecision o :=
    ⟨Opt.a 2, List.mem_singleton.2 rfl, by simp [Spec.badDimensionOrPrecision]⟩
  have hgood : ∀ o ∈ [Opt.a 10, Opt.p (1 / 1000), Opt.w 4], ¬ Spec.badShared o := by
    intro o ho
    simp only [List.mem_cons, List.mem_singleton, List.not_mem_nil, or_false] at ho
    rcases ho with rfl | rfl | rfl
    · simp [Spec.badShared]
    · simp only [Spec.badShared]
      norm_num
    · simp [Spec.badShared]
  exact ⟨hbad1, hbad2, (option_validation [Opt.a 2]).1 hbad1,
    ((option_validation [Opt.a 2]).2.1 hbad2).1, ((option_validation [Opt.a 2]).2.1 hbad2).2,
    hgood, (option_validation [Opt.a 10, Opt.p (1 / 1000), Opt.w 4]).2.2.1 hgood, rfl⟩


/-! ## Index safety of the working buffers -/

/-- C16 (code at the failing input): with a single process (`D = 3`, `W = 1`)
the buffer of rank 0 has `sendCounts[0] / D = 4` rows for its 3 owned rows,
although rank 0 has no neighbour, and the initialisation loop reads the grid
from index `sendDisplacements[0] + 0 = -3`, outside `[0, 9)`. -/
theorem buffer_single_process_unsafe :
    (Distributed.computeCounts 3 1).sendCounts 0 = (3 + 1) * 3 ∧
      (Spec.ownedRows 3 1 0).length = 3 ∧
      (Distributed.computeCounts 3 1).sendDisplacements 0 + 0 = -3 ∧
      (-3 : Int) ∈ Distributed.initReadIndices 3 1 0 ∧
      ¬ (0 ≤ (-3 : Int) ∧ (-3 : Int) < 3 * 3) := by
  decide

theorem length_loopRange (a b : Int) : ((loopRange a b).length : Int) = max (b - a) 0 := by
  unfold loopRange
  rw [List.length_map, List.length_range]
  omega

/-- With at least two ranks the buffer of rank `r` has its owned rows, one
ghost row above only if `r > 0` and one below only if `r < W - 1` (supports
C16: the defect is confined to a single process). -/
theorem buffer_rows_two_ranks (D W r : Int) (hW : 2 ≤ W) (hWD : W ≤ D) (h0 : 0 ≤ r)
    (h1 : r < W) :
    (Distributed.computeCounts D W).sendCounts r
      = (((Spec.ownedRows D W r).length : Int) + (if r > 0 then 1 else 0)
          + (if r < W - 1 then 1 else 0)) * D := by
  obtain ⟨a1, a2, a3, a4, a5, a6, a7, a8, a9, a10⟩ := partition_arith D W r hW hWD h0 h1
  rw [sendCounts_eq D W r h0 h1]
  congr 1
  unfold Spec.ownedRows
  rw [length_loopRange]
  unfold Distributed.numRowsPerProc
  have e1 : r * (D / W) = D / W * r := mul_comm _ _
  have e2 : (r + 1) * (D / W) = D / W * r + D / W := by ring
  rw [e1, e2]
  split_ifs <;> omega

theorem buffer_height_le (D W r : Int) (hW : 2 ≤ W) (hWD : W ≤ D) (h0 : 0 ≤ r) (h1 : r < W) :
    0 ≤ Distributed.firstHeldRow D W r ∧
      Distributed.firstHeldRow D W r + Distributed.numRowsPerProc D W r
        + (if r = W - 1 then 1 else 2) ≤ D := by
  obtain ⟨a1, a2, a3, a4, a5, a6, a7, a8, a9, a10⟩ := partition_arith D W r hW hWD h0 h1
  unfold Distributed.firstHeldRow Distributed.numRowsPerProc
  split_ifs <;> omega

theorem initReadIndices_safe (D W r : Int) (hW : 2 ≤ W) (hWD : W ≤ D) (h0 : 0 ≤ r)
    (h1 : r < W) : ∀ k ∈ Distributed.initReadIndices D W r, 0 ≤ k ∧ k < D * D := by
  intro k hk
  unfold Distributed.initReadIndices at hk
  rw [List.mem_map] at hk
  obtain ⟨i, hi, rfl⟩ := hk
  rw [mem_loopRange, sendCounts_eq D W r h0 h1] at hi
  rw [sendDisplacements_eq D W r hW h0 h1]
  obtain ⟨b0, b1⟩ := buffer_height_le D W r hW hWD h0 h1
  have hD : 0 < D := by omega
  constructor
  · have := mul_nonneg b0 (le_of_lt hD)
    omega
  · have hle := mul_le_mul_of_nonneg_right b1 (le_of_lt hD)
    nlinarith

theorem exchangeIndices_safe (D W r : Int) (hW : 2 ≤ W) (hWD : W ≤ D) (h0 : 0 ≤ r)
    (h1 : r < W) :
    ∀ k ∈ Distributed.exchangeIndices D W r,
      0 ≤ k ∧ k < (Distributed.computeCounts D W).sendCounts r := by
  obtain ⟨n0, n1⟩ := numRows_nonneg D W r hW hWD h0 h1
  have hrow : ∀ b t, 0 ≤ b → b < Distributed.numRowsPerProc D W r + (if r = W - 1 then 1 else 2) →
      t ∈ loopRange 0 D → 0 ≤ b * D + t ∧ b * D + t < (Distributed.computeCounts D W).sendCounts r := by
    intro b t hb0 hb1 ht
    rw [mem_loopRange] at ht
    rw [sendCounts_eq D W r h0 h1]
    exact flat_bounds ht hb0 hb1
  intro k hk
  unfold Distributed.exchangeIndices at hk
  simp only [List.mem_append] at hk
  rcases hk with ((hk | hk) | hk) | hk
  · split_ifs at hk with hr
    · rw [List.mem_map] at hk
      obtain ⟨t, ht, rfl⟩ := hk
      have := hrow 1 t (by omega) (by split_ifs <;> omega) ht
      rwa [one_mul] at this
    · cases hk
  · split_ifs at hk with hr
    · rw [List.mem_map] at hk
      obtain ⟨t, ht, rfl⟩ := hk
      exact hrow _ t (by omega) (by split_ifs <;> omega) ht
    · cases hk
  · split_ifs at hk with hr
    · rw [List.mem_map] at hk
      obtain ⟨t, ht, rfl⟩ := hk
      exact hrow _ t (by omega) (by split_ifs <;> omega) ht
    · cases hk
  · split_ifs at hk with hr
    · have := hrow 0 k (by omega) (by split_ifs <;> omega) hk
      rwa [zero_mul, zero_add] at this
    · cases hk

theorem relaxationIndices_safe (D W r : Int) (h0 : 0 ≤ r) (h1 : r < W) :
    ∀ k ∈ Distributed.relaxationIndices D W r,
      0 ≤ k ∧ k < (Distributed.computeCounts D W).sendCounts r := by
  intro k hk
  unfold Distributed.relaxationIndices at hk
  rw [List.mem_append] at hk
  rcases hk with hk | hk
  · rw [mem_loopRange] at hk
    omega
  · simp only [List.mem_flatten, List.mem_map, exists_exists_and_eq_and] at hk
    obtain ⟨i, hi, ii, hii, hk⟩ := hk
    rw [relaxedBufferRows_iff] at hi
    rw [mem_loopRange] at hii
    rw [sendCounts_eq D W r h0 h1]
    have hup : i + 1 < Distributed.numRowsPerProc D W r + (if r = W - 1 then 1 else 2) := by
      split_ifs <;> omega
    unfold Distributed.cellIndices at hk
    simp only [List.mem_cons, List.mem_singleton, List.not_mem_nil, or_false] at hk
    rcases hk with rfl | rfl | rfl | rfl | rfl | rfl
    · exact flat_bounds (by omega) (by omega) (by omega)
    · exact flat_bounds (by omega) (by omega) (by omega)
    · exact flat_bounds (by omega) (by omega) hup
    · exact flat_bounds (by omega) (by omega) (by omega)
    · exact flat_bounds (by omega) (by omega) (by omega)
    · exact flat_bounds (by omega) (by omega) (by omega)

/-! ## Deadlock-freedom of the ghost exchange -/

section ExchangeFacts

open Distributed

theorem exchangeCall_zero (W r : Int) :
    exchangeCall W r 0 = if r > 0 then some (Call.send (r - 1) 0) else none := rfl

theorem exchangeCall_one (W r : Int) :
    exchangeCall W r 1 = if r < W - 1 then some (Call.recv (r + 1) 0) else none := rfl

theorem exchangeCall_two (W r : Int) :
    exchangeCall W r 2 = if r < W - 1 then some (Call.send (r + 1) 1) else none := rfl

theorem exchangeCall_three (W r : Int) :
    exchangeCall W r 3 = if r > 0 then some (Call.recv (r - 1) 1) else none := rfl

theorem exchangeCall_recv (W d : Int) (k : Nat) (src tag : Int)
    (h : exchangeCall W d k = some (Call.recv src tag)) :
    (k = 1 ∧ d < W - 1 ∧ src = d + 1 ∧ tag = 0) ∨ (k = 3 ∧ 0 < d ∧ src = d - 1 ∧ tag = 1) := by
  match k, h with
  | 0, h =>
    rw [exchangeCall_zero] at h
    split_ifs at h
    simp at h
  | 1, h =>
    rw [exchangeCall_one] at h
    split_ifs at h with hd
    simp only [Option.some.injEq, Call.recv.injEq] at h
    exact Or.inl ⟨rfl, hd, h.1.symm, h.2.symm⟩
  | 2, h =>
    rw [exchangeCall_two] at h
    split_ifs at h
    simp at h
  | 3, h =>
    rw [exchangeCall_three] at h
    split_ifs at h with hd
    simp only [Option.some.injEq, Call.recv.injEq] at h
    exact Or.inr ⟨rfl, hd, h.1.symm, h.2.symm⟩
  | (n + 4), h => simp [exchangeCall] at h

theorem fire_cases (W : Int) (pc pc2 : Int → Nat) (r : Int) (h : fire W pc r = some pc2) :
    (pc r = 0 ∧ r ≤ 0 ∧ pc2 = advance pc r) ∨
    ((pc r = 1 ∨ pc r = 2) ∧ W - 1 ≤ r ∧ pc2 = advance pc r) ∨
    (pc r = 3 ∧ r ≤ 0 ∧ pc2 = advance pc r) ∨
    (pc r = 0 ∧ 0 < r ∧ pc (r - 1) = 1 ∧ pc2 = advance (advance pc r) (r - 1)) ∨
    (pc r = 2 ∧ r < W - 1 ∧ pc (r + 1) = 3 ∧ pc2 = advance (advance pc r) (r + 1)) := by
  unfold fire at h
  split_ifs at h with h4
  have hlt : pc r < 4 := by omega
  generalize hk : pc r = k at h hlt
  interval_cases k
  · rw [exchangeCall_zero] at h
    by_cases hr : r > 0
    · simp only [if_pos hr] at h
      by_cases hm : exchangeCall W (r - 1) (pc (r - 1)) = some (Call.recv r 0)
      · rw [if_pos hm] at h
        right; right; right; left
        refine ⟨rfl, hr, ?_, (Option.some.inj h).symm⟩
        rcases exchangeCall_recv W (r - 1) _ r 0 hm with h1 | h1
        · exact h1.1
        · omega
      · rw [if_neg hm] at h
        cases h
    · simp only [if_neg hr] at h
      left
      exact ⟨rfl, by omega, (Option.some.inj h).symm⟩
  · rw [exchangeCall_one] at h
    by_cases hr : r < W - 1
    · simp only [if_pos hr] at h
      cases h
    · simp only [if_neg hr] at h
      right; left
      exact ⟨Or.inl rfl, by omega, (Option.some.inj h).symm⟩
  · rw [exchangeCall_two] at h
    by_cases hr : r < W - 1
    · simp only [if_pos hr] at h
      by_cases hm : exchangeCall W (r + 1) (pc (r + 1)) = some (Call.recv r 1)
      · rw [if_pos hm] at h
        right; right; right; right
        refine ⟨rfl, hr, ?_, (Option.some.inj h).symm⟩
        rcases exchangeCall_recv W (r + 1) _ r 1 hm with h1 | h1
        · omega
        · exact h1.1
      · rw [if_neg hm] at h
        cases h
    · simp only [if_neg hr] at h
      right; left
      exact ⟨Or.inr rfl, by omega, (Option.some.inj h).symm⟩
  · rw [exchangeCall_three] at h
    by_cases hr : r > 0
    · simp only [if_pos hr] at h
      cases h
    · simp only [if_neg hr] at h
      right; right; left
      exact ⟨rfl, by omega, (Option.some.inj h).symm⟩

theorem fire_pass_first (W : Int) (pc : Int → Nat) (h : pc 0 = 0 ∨ pc 0 = 3) :
    (fire W pc 0).isSome = true := by
  unfold fire
  rcases h with h | h <;> simp [h, exchangeCall]

theorem fire_pass_last (W : Int) (pc : Int → Nat) (h : pc (W - 1) = 1 ∨ pc (W - 1) = 2) :
    (fire W pc (W - 1)).isSome = true := by
  unfold fire
  rcases h with h | h <;> simp [h, exchangeCall]

theorem fire_send_up (W : Int) (pc : Int → Nat) (r : Int) (h0 : 0 < r) (h1 : r < W)
    (hr : pc r = 0) (hd : pc (r - 1) = 1) : (fire W pc r).isSome = true := by
  unfold fire
  have e : r - 1 < W - 1 := by omega
  simp [hr, hd, exchangeCall, h0, e]

theorem fire_send_down (W : Int) (pc : Int → Nat) (r : Int) (h0 : 0 ≤ r) (h1 : r < W - 1)
    (hr : pc r = 2) (hd : pc (r + 1) = 3) : (fire W pc r).isSome = true := by
  unfold fire
  have e : 0 < r + 1 := by omega
  simp [hr, hd, exchangeCall, h1, e]

theorem advance_apply (pc : Int → Nat) (r k : Int) :
    advance pc r k = if k = r then pc r + 1 else pc k := rfl

theorem exchangeInv_init (W : Int) : ExchangeInv W (fun _ => 0) := by
  refine ⟨fun _ => Nat.zero_le _, fun r _ _ => ?_, fun r _ _ => ?_⟩ <;> simp

theorem exchangeInv_pass (W : Int) (pc : Int → Nat) (r : Int)
    (h0 : 0 ≤ r) (h1 : r < W) (hinv : ExchangeInv W pc)
    (h : ((pc r = 0 ∨ pc r = 3) ∧ r ≤ 0) ∨ ((pc r = 1 ∨ pc r = 2) ∧ W - 1 ≤ r)) :
    ExchangeInv W (advance pc r) := by
  obtain ⟨i1, i2, i3⟩ := hinv
  have e2 : r - 2 + 1 = r - 1 := by omega
  have e3 : r + 2 - 1 = r + 1 := by omega
  refine ⟨fun k => ?_, fun k hk0 hk1 => ?_, fun k hk0 hk1 => ?_⟩
  · have b1 := i1 k
    have b2 := i1 r
    simp only [advance_apply]
    split_ifs <;> omega
  · have a1 := i2 k hk0 hk1
    have hk : k = r ∨ k = r + 1 ∨ (k ≠ r ∧ k ≠ r + 1) := by omega
    rcases hk with rfl | rfl | hne
    · simp only [advance_apply]
      split_ifs <;> omega
    · simp only [advance_apply]
      split_ifs <;> (try simp only [add_sub_cancel_right, sub_add_cancel, e2, e3] at *) <;> omega
    · simp only [advance_apply]
      split_ifs <;> omega
  · have a1 := i3 k hk0 hk1
    have hk : k = r ∨ k = r - 1 ∨ (k ≠ r ∧ k ≠ r - 1) := by omega
    rcases hk with rfl | rfl | hne
    · simp only [advance_apply]
      split_ifs <;> omega
    · simp only [advance_apply]
      split_ifs <;> (try simp only [add_sub_cancel_right, sub_add_cancel, e2, e3] at *) <;> omega
    · simp only [advance_apply]
      split_ifs <;> omega

theorem exchangeInv_up (W : Int) (pc : Int → Nat) (r : Int)
    (h0 : 0 < r) (h1 : r < W) (hinv : ExchangeInv W pc)
    (hr : pc r = 0) (hd : pc (r - 1) = 1) :
    ExchangeInv W (advance (advance pc r) (r - 1)) := by
  obtain ⟨i1, i2, i3⟩ := hinv
  have e2 : r - 2 + 1 = r - 1 := by omega
  have e3 : r + 2 - 1 = r + 1 := by omega
  refine ⟨fun k => ?_, fun k hk0 hk1 => ?_, fun k hk0 hk1 => ?_⟩
  · have b1 := i1 k
    simp only [advance_apply]
    split_ifs <;> omega
  · have a1 := i2 k hk0 hk1
    have a5 := i2 (r + 1)
    have a7 := i2 (r - 1)
    have hk : k = r ∨ k = r + 1 ∨ k = r - 1 ∨ (k ≠ r ∧ k ≠ r + 1 ∧ k ≠ r - 1) := by omega
    clear i1 i2 i3
    rcases hk with rfl | rfl | rfl | hne
    · simp only [advance_apply]
      split_ifs <;> omega
    · simp only [advance_apply]
      split_ifs <;> (try simp only [add_sub_cancel_right, sub_add_cancel, e2, e3] at *) <;> omega
    · simp only [advance_apply]
      split_ifs <;> (try simp only [add_sub_cancel_right, sub_add_cancel, e2, e3] at *) <;> omega
    · simp only [advance_apply]
      split_ifs <;> omega
  · have a1 := i3 k hk0 hk1
    have a6 := i3 (r - 1)
    have hk : k = r ∨ k = r - 1 ∨ k = r - 2 ∨ (k ≠ r ∧ k ≠ r - 1 ∧ k ≠ r - 2) := by omega
    clear i1 i2 i3
    rcases hk with rfl | rfl | rfl | hne
    · simp only [advance_apply]
      split_ifs <;> (try simp only [add_sub_cancel_right, sub_add_cancel, e2, e3] at *) <;> omega
    · simp only [advance_apply]
      split_ifs <;> (try simp only [add_sub_cancel_right, sub_add_cancel, e2, e3] at *) <;> omega
    · simp only [advance_apply]
      split_ifs <;> (try simp only [add_sub_cancel_right, sub_add_cancel, e2, e3] at *) <;> omega
    · simp only [advance_apply]
      split_ifs <;> omega

theorem exchangeInv_down (W : Int) (pc : Int → Nat) (r : Int) (hW : 2 ≤ W)
    (h0 : 0 ≤ r) (h1 : r < W - 1) (hinv : ExchangeInv W pc)
    (hr : pc r = 2) (hd : pc (r + 1) = 3) :
    ExchangeInv W (advance (advance pc r) (r + 1)) := by
  obtain ⟨i1, i2, i3⟩ := hinv
  have e2 : r - 2 + 1 = r - 1 := by omega
  have e3 : r + 2 - 1 = r + 1 := by omega
  refine ⟨fun k => ?_, fun k hk0 hk1 => ?_, fun k hk0 hk1 => ?_⟩
  · have b1 := i1 k
    simp only [advance_apply]
    split_ifs <;> omega
  · have a1 := i2 k hk0 hk1
    have a5 := i2 (r + 1)
    have hk : k = r ∨ k = r + 1 ∨ k = r + 2 ∨ (k ≠ r ∧ k ≠ r + 1 ∧ k ≠ r + 2) := by omega
    clear i1 i2 i3
    rcases hk with rfl | rfl | rfl | hne
    · simp only [advance_apply]
      split_ifs <;> (try simp only [add_sub_cancel_right, sub_add_cancel, e2, e3] at *) <;> omega
    · simp only [advance_apply]
      split_ifs <;> (try simp only [add_sub_cancel_right, sub_add_cancel, e2, e3] at *) <;> omega
    · simp only [advance_apply]
      split_ifs <;> (try simp only [add_sub_cancel_right, sub_add_cancel, e2, e3] at *) <;> omega
    · simp only [advance_apply]
      split_ifs <;> omega
  · have a1 := i3 k hk0 hk1
    have a6 := i3 (r - 1)
    have a8 := i3 (r + 1)
    have hk : k = r ∨ k = r - 1 ∨ k = r + 1 ∨ (k ≠ r ∧ k ≠ r - 1 ∧ k ≠ r + 1) := by omega
    clear i1 i2 i3
    rcases hk with rfl | rfl | rfl | hne
    · simp only [advance_apply]
      split_ifs <;> omega
    · simp only [advance_apply]
      split_ifs <;> (try simp only [add_sub_cancel_right, sub_add_cancel, e2, e3] at *) <;> omega
    · simp only [advance_apply]
      split_ifs <;> (try simp only [add_sub_cancel_right, sub_add_cancel, e2, e3] at *) <;> omega
    · simp only [advance_apply]
      split_ifs <;> omega

theorem exchangeInv_fire (W : Int) (pc pc2 : Int → Nat) (r : Int) (hW : 2 ≤ W)
    (h0 : 0 ≤ r) (h1 : r < W) (hinv : ExchangeInv W pc) (h : fire W pc r = some pc2) :
    ExchangeInv W pc2 := by
  rcases fire_cases W pc pc2 r h with
    ⟨hr, hle, rfl⟩ | ⟨hr, hle, rfl⟩ | ⟨hr, hle, rfl⟩ | ⟨hr, hlt, hd, rfl⟩ | ⟨hr, hlt, hd, rfl⟩
  · exact exchangeInv_pass W pc r h0 h1 hinv (Or.inl ⟨Or.inl hr, hle⟩)
  · exact exchangeInv_pass W pc r h0 h1 hinv (Or.inr ⟨hr, hle⟩)
  · exact exchangeInv_pass W pc r h0 h1 hinv (Or.inl ⟨Or.inr hr, hle⟩)
  · exact exchangeInv_up W pc r hlt h1 hinv hr hd
  · exact exchangeInv_down W pc r hW h0 hlt hinv hr hd

theorem exchangeInv_steps (W : Int) (hW : 2 ≤ W) (pc pc2 : Int → Nat) (hinv : ExchangeInv W pc)
    (h : Steps W pc pc2) : ExchangeInv W pc2 := by
  induction h with
  | refl => exact hinv
  | step pc1 pc3 r _ h0 h1 hf ih => exact exchangeInv_fire W pc1 pc3 r hW h0 h1 ih hf

theorem steps_trans (W : Int) (a b c : Int → Nat) (h1 : Steps W a b) (h2 : Steps W b c) :
    Steps W a c := by
  induction h2 with
  | refl => exact h1
  | step pc1 pc3 r _ h0 hr hf ih => exact Steps.step _ pc1 pc3 r ih h0 hr hf

/-- Case A of the progress argument: some rank below the last has not yet
completed its receive from below. -/
theorem progress_low (W : Int) (hW : 2 ≤ W) (pc : Int → Nat) (hinv : ExchangeInv W pc) :
    ∀ (n : Nat) (r : Int), r = (n : Int) → r ≤ W - 2 → pc r < 2 →
      ∃ k, 0 ≤ k ∧ k < W ∧ (fire W pc k).isSome = true := by
  obtain ⟨i1, i2, i3⟩ := hinv
  intro n
  induction n with
  | zero =>
    intro r hr hle hlt
    obtain rfl : r = 0 := by simpa using hr
    have hcase : pc 0 = 0 ∨ pc 0 = 1 := by omega
    rcases hcase with h | h
    · exact ⟨0, le_refl 0, by omega, fire_pass_first W pc (Or.inl h)⟩
    · have a := i2 1 (le_refl 1) (by omega)
      simp only [sub_self] at a
      have h10 : pc 1 = 0 := by omega
      refine ⟨1, by omega, by omega, fire_send_up W pc 1 (by omega) (by omega) h10 ?_⟩
      simpa using h
  | succ n ih =>
    intro r hr hle hlt
    by_cases hprev : pc (r - 1) < 2
    · exact ih (r - 1) (by push_cast at hr; omega) (by omega) hprev
    · have hr1 : 1 ≤ r := by push_cast at hr; omega
      have a := i2 r hr1 (by omega)
      have hpr : pc r = 1 := by omega
      have a2 := i2 (r + 1) (by omega) (by omega)
      rw [add_sub_cancel_right] at a2
      have hnext : pc (r + 1) = 0 := by omega
      refine ⟨r + 1, by omega, by omega,
        fire_send_up W pc (r + 1) (by omega) (by omega) hnext ?_⟩
      rw [add_sub_cancel_right]
      exact hpr

/-- Case B of the progress argument: every rank below the last has completed
its receive from below, and some rank is not finished. -/
theorem progress_high (W : Int) (hW : 2 ≤ W) (pc : Int → Nat) (hinv : ExchangeInv W pc)
    (hall : ∀ r, 0 ≤ r → r ≤ W - 2 → 2 ≤ pc r) (hlast : pc (W - 1) = 4) :
    ∀ (n : Nat) (r : Int), W - 2 - r = (n : Int) → 0 ≤ r → pc r < 4 →
      ∃ k, 0 ≤ k ∧ k < W ∧ (fire W pc k).isSome = true := by
  obtain ⟨i1, i2, i3⟩ := hinv
  have hfin : ∀ r, 0 ≤ r → r ≤ W - 2 → pc r < 4 → pc (r + 1) = 4 →
      ∃ k, 0 ≤ k ∧ k < W ∧ (fire W pc k).isSome = true := by
    intro r hr0 hr1 hlt hnext
    have a := i3 r hr0 (by omega)
    have hpr : pc r = 3 := by omega
    by_cases hz : r = 0
    · subst hz
      exact ⟨0, le_refl 0, by omega, fire_pass_first W pc (Or.inr hpr)⟩
    · have a2 := i3 (r - 1) (by omega) (by omega)
      rw [sub_add_cancel] at a2
      have b := hall (r - 1) (by omega) (by omega)
      have hprev : pc (r - 1) = 2 := by omega
      refine ⟨r - 1, by omega, by omega,
        fire_send_down W pc (r - 1) (by omega) (by omega) hprev ?_⟩
      rw [sub_add_cancel]
      exact hpr
  intro n
  induction n with
  | zero =>
    intro r hr h0 hlt
    have hrW : r = W - 2 := by simp only [Nat.cast_zero] at hr; omega
    apply hfin r h0 (by omega) hlt
    have e : r + 1 = W - 1 := by omega
    rw [e]
    exact hlast
  | succ n ih =>
    intro r hr h0 hlt
    push_cast at hr
    by_cases hnext : pc (r + 1) < 4
    · exact ih (r + 1) (by omega) (by omega) hnext
    · have b := i1 (r + 1)
      exact hfin r h0 (by omega) hlt (by omega)

theorem exchange_progress (W : Int) (hW : 2 ≤ W) (pc : Int → Nat) (hinv : ExchangeInv W pc)
    (hunf : ∃ r, 0 ≤ r ∧ r < W ∧ pc r < 4) :
    ∃ k, 0 ≤ k ∧ k < W ∧ (fire W pc k).isSome = true := by
  by_cases hlow : ∃ r, 0 ≤ r ∧ r ≤ W - 2 ∧ pc r < 2
  · obtain ⟨r, h0, h1, h2⟩ := hlow
    exact progress_low W hW pc hinv r.toNat r (by omega) h1 h2
  · have hall : ∀ r, 0 ≤ r → r ≤ W - 2 → 2 ≤ pc r := by
      intro r h0 h1
      by_contra hc
      exact hlow ⟨r, h0, h1, by omega⟩
    obtain ⟨i1, i2, i3⟩ := hinv
    have a := i2 (W - 1) (by omega) (by omega)
    have b := hall (W - 1 - 1) (by omega) (by omega)
    have c := i1 (W - 1)
    have hcase : pc (W - 1) = 1 ∨ pc (W - 1) = 2 ∨ pc (W - 1) = 3 ∨ pc (W - 1) = 4 := by omega
    rcases hcase with h | h | h | h
    · exact ⟨W - 1, by omega, by omega, fire_pass_last W pc (Or.inl h)⟩
    · exact ⟨W - 1, by omega, by omega, fire_pass_last W pc (Or.inr h)⟩
    · have a3 := i3 (W - 2) (by omega) (by omega)
      have e : W - 2 + 1 = W - 1 := by omega
      rw [e] at a3
      have b2 := hall (W - 2) (by omega) (le_refl _)
      have h2 : pc (W - 2) = 2 := by omega
      refine ⟨W - 2, by omega, by omega,
        fire_send_down W pc (W - 2) (by omega) (by omega) h2 ?_⟩
      rw [e]
      exact h
    · obtain ⟨r, h0, h1, h2⟩ := hunf
      have hr : r ≤ W - 2 := by
        by_contra hc
        have : r = W - 1 := by omega
        subst this
        omega
      exact progress_high W hW pc ⟨i1, i2, i3⟩ hall h (W - 2 - r).toNat r (by omega) h0 h2

theorem map_sum_le (l : List Int) (f g : Int → Nat) (h : ∀ k, g k ≤ f k) :
    (List.map g l).sum ≤ (List.map f l).sum := by
  induction l with
  | nil => simp
  | cons a t ih =>
    simp only [List.map_cons, List.sum_cons]
    have := h a
    omega

theorem map_sum_lt (l : List Int) (f g : Int → Nat) (h : ∀ k, g k ≤ f k) (r : Int)
    (hr : r ∈ l) (hlt : g r < f r) : (List.map g l).sum < (List.map f l).sum := by
  induction l with
  | nil => cases hr
  | cons a t ih =>
    simp only [List.map_cons, List.sum_cons]
    rcases List.mem_cons.1 hr with rfl | hm
    · have := map_sum_le t f g h
      omega
    · have := ih hm
      have := h a
      omega

theorem le_advance (pc : Int → Nat) (r k : Int) : pc k ≤ advance pc r k := by
  rw [advance_apply]
  split_ifs with h
  · subst h
    omega
  · exact le_refl _

theorem advance_self (pc : Int → Nat) (r : Int) : advance pc r r = pc r + 1 := by
  rw [advance_apply, if_pos rfl]

theorem advance_ne (pc : Int → Nat) (r k : Int) (h : k ≠ r) : advance pc r k = pc k := by
  rw [advance_apply, if_neg h]

theorem remaining_fire (W : Int) (pc pc2 : Int → Nat) (r : Int) (h0 : 0 ≤ r) (h1 : r < W)
    (h : fire W pc r = some pc2) : remaining W pc2 < remaining W pc := by
  have hfacts : (∀ k, pc k ≤ pc2 k) ∧ pc2 r = pc r + 1 ∧ pc r < 4 := by
    rcases fire_cases W pc pc2 r h with
      ⟨hr, _, rfl⟩ | ⟨hr, _, rfl⟩ | ⟨hr, _, rfl⟩ | ⟨hr, _, _, rfl⟩ | ⟨hr, _, _, rfl⟩
    · exact ⟨le_advance pc r, advance_self pc r, by omega⟩
    · exact ⟨le_advance pc r, advance_self pc r, by omega⟩
    · exact ⟨le_advance pc r, advance_self pc r, by omega⟩
    · refine ⟨fun k => le_trans (le_advance pc r k) (le_advance _ _ k), ?_, by omega⟩
      rw [advance_ne _ _ _ (by omega), advance_self]
    · refine ⟨fun k => le_trans (le_advance pc r k) (le_advance _ _ k), ?_, by omega⟩
      rw [advance_ne _ _ _ (by omega), advance_self]
  obtain ⟨hle, hr, hlt⟩ := hfacts
  unfold remaining
  apply map_sum_lt (loopRange 0 W) (fun k => 4 - pc k) (fun k => 4 - pc2 k) _ r
    (mem_loopRange.2 ⟨h0, h1⟩)
  · show 4 - pc2 r < 4 - pc r
    omega
  · intro k
    have := hle k
    show 4 - pc2 k ≤ 4 - pc k
    omega

theorem exchange_completes (W : Int) (hW : 2 ≤ W) :
    ∀ (n : Nat) (pc : Int → Nat), remaining W pc ≤ n → ExchangeInv W pc →
      ∃ pc2, Steps W pc pc2 ∧ ∀ r, 0 ≤ r → r < W → pc2 r = 4 := by
  intro n
  induction n with
  | zero =>
    intro pc hn hinv
    refine ⟨pc, Steps.refl pc, ?_⟩
    intro r h0 h1
    by_contra hne
    have hlt : pc r < 4 := by have := hinv.1 r; omega
    obtain ⟨k, hk0, hk1, hk⟩ := exchange_progress W hW pc hinv ⟨r, h0, h1, hlt⟩
    obtain ⟨pc2, hf⟩ := Option.isSome_iff_exists.1 hk
    have := remaining_fire W pc pc2 k hk0 hk1 hf
    omega
  | succ n ih =>
    intro pc hn hinv
    by_cases hunf : ∃ r, 0 ≤ r ∧ r < W ∧ pc r < 4
    · obtain ⟨k, hk0, hk1, hk⟩ := exchange_progress W hW pc hinv hunf
      obtain ⟨pc2, hf⟩ := Option.isSome_iff_exists.1 hk
      have hdec := remaining_fire W pc pc2 k hk0 hk1 hf
      obtain ⟨pc3, hsteps, hdone⟩ := ih pc2 (by omega)
        (exchangeInv_fire W pc pc2 k hW hk0 hk1 hinv hf)
      exact ⟨pc3, steps_trans W pc pc2 pc3 (Steps.step pc pc pc2 k (Steps.refl pc) hk0 hk1 hf)
        hsteps, hdone⟩
    · refine ⟨pc, Steps.refl pc, ?_⟩
      intro r h0 h1
      by_contra hne
      have := hinv.1 r
      exact hunf ⟨r, h0, h1, by omega⟩

/-- C14: for every worker count `W ≥ 2`, with blocking calls in which a send
completes only together with the matching receive, in every state reachable
from the start of an iteration (all ranks at step 0 of the exchange) in which
some rank has not finished the four steps, some rank can move (no reachable
state has all unfinished ranks blocked); every move lowers the number of steps
still to be taken, so every run is finite; and the state in which every rank
has finished is reachable from there: the exchange completes on every rank. -/
theorem ghost_exchange_deadlock_free (W : Int) (hW : 2 ≤ W) (pc : Int → Nat)
    (hreach : Reachable W pc) :
    ((∃ r, 0 ≤ r ∧ r < W ∧ pc r < 4) → ∃ k, 0 ≤ k ∧ k < W ∧ (fire W pc k).isSome = true) ∧
      (∀ k pc2, 0 ≤ k → k < W → fire W pc k = some pc2 → remaining W pc2 < remaining W pc) ∧
      (∃ pc2, Steps W pc pc2 ∧ ∀ r, 0 ≤ r → r < W → pc2 r = 4) := by
  have hinv : ExchangeInv W pc := exchangeInv_steps W hW _ pc (exchangeInv_init W) hreach
  exact ⟨exchange_progress W hW pc hinv, fun k pc2 h0 h1 hf => remaining_fire W pc pc2 k h0 h1 hf,
    exchange_completes W hW (remaining W pc) pc (le_refl _) hinv⟩

/-- Instance of C14 for two ranks at the start of an iteration. -/
theorem ghost_exchange_deadlock_free_witness :
    (2 : Int) ≤ 2 ∧ Reachable 2 (fun _ => 0) ∧
      (((∃ r, 0 ≤ r ∧ r < (2 : Int) ∧ (fun _ : Int => 0) r < 4) →
          ∃ k, 0 ≤ k ∧ k < (2 : Int) ∧ (fire 2 (fun _ => 0) k).isSome = true) ∧
        (∀ k pc2, 0 ≤ k → k < (2 : Int) → fire 2 (fun _ => 0) k = some pc2 →
          remaining 2 pc2 < remaining 2 (fun _ => 0)) ∧
        (∃ pc2, Steps 2 (fun _ => 0) pc2 ∧ ∀ r, 0 ≤ r → r < (2 : Int) → pc2 r = 4)) :=
  ⟨le_refl 2, Steps.refl _,
    ghost_exchange_deadlock_free 2 (le_refl 2) (fun _ => 0) (Steps.refl _)⟩


end ExchangeFacts

/-! ## Binary64 rounding -/

section RoundingFacts

open Binary64

theorem pow2_eq_zpow (e : Int) : pow2 e = (2 : ℚ) ^ e := by
  unfold pow2
  split_ifs with h
  · obtain ⟨n, rfl⟩ := Int.eq_ofNat_of_zero_le h
    simp
  · push_neg at h
    obtain ⟨n, hn⟩ := Int.eq_ofNat_of_zero_le (by omega : 0 ≤ -e)
    have he : e = -(n : Int) := by omega
    subst he
    simp

theorem pow2_pos (e : Int) : 0 < pow2 e := by
  rw [pow2_eq_zpow]; positivity

theorem pow2_le_iff (a b : Int) : pow2 a ≤ pow2 b ↔ a ≤ b := by
  rw [pow2_eq_zpow, pow2_eq_zpow]
  exact zpow_le_zpow_iff_right₀ (by norm_num)

theorem pow2_lt_iff (a b : Int) : pow2 a < pow2 b ↔ a < b := by
  rw [pow2_eq_zpow, pow2_eq_zpow]
  exact zpow_lt_zpow_iff_right₀ (by norm_num)

theorem pow2_add (a b : Int) : pow2 (a + b) = pow2 a * pow2 b := by
  rw [pow2_eq_zpow, pow2_eq_zpow, pow2_eq_zpow, zpow_add₀ (by norm_num)]

theorem log2Fuel_spec : ∀ (fuel n : Nat), 0 < n → n ≤ fuel →
    2 ^ log2Fuel fuel n ≤ n ∧ n < 2 ^ (log2Fuel fuel n + 1) := by
  intro fuel
  induction fuel with
  | zero => intro n h1 h2; omega
  | succ fuel ih =>
    intro n h1 h2
    unfold log2Fuel
    split_ifs with h32 h8 h
    · obtain ⟨i1, i2⟩ := ih (n / 4294967296) (Nat.div_pos h32 (by norm_num)) (by omega)
      have e1 : 2 ^ (log2Fuel fuel (n / 4294967296) + 32)
          = 2 ^ log2Fuel fuel (n / 4294967296) * 4294967296 := by rw [pow_add]; norm_num
      have e2 : 2 ^ (log2Fuel fuel (n / 4294967296) + 32 + 1)
          = 2 ^ (log2Fuel fuel (n / 4294967296) + 1) * 4294967296 := by
        rw [add_right_comm, pow_add]; norm_num
      rw [e1, e2]
      omega
    · obtain ⟨i1, i2⟩ := ih (n / 256) (Nat.div_pos h8 (by norm_num)) (by omega)
      have e1 : 2 ^ (log2Fuel fuel (n / 256) + 8) = 2 ^ log2Fuel fuel (n / 256) * 256 := by
        rw [pow_add]; norm_num
      have e2 : 2 ^ (log2Fuel fuel (n / 256) + 8 + 1)
          = 2 ^ (log2Fuel fuel (n / 256) + 1) * 256 := by
        rw [add_right_comm, pow_add]; norm_num
      rw [e1, e2]
      omega
    · have hd : 0 < n / 2 := Nat.div_pos h (by norm_num)
      have hle : n / 2 ≤ fuel := by omega
      obtain ⟨i1, i2⟩ := ih (n / 2) hd hle
      constructor
      · rw [pow_succ]
        omega
      · rw [pow_succ]
        omega
    · simp
      omega


theorem abs_eq_natAbs_div (q : ℚ) : |q| = (q.num.natAbs : ℚ) / (q.den : ℚ) := by
  conv_lhs => rw [← Rat.num_div_den q]
  rw [abs_div, Nat.abs_cast, Nat.cast_natAbs, Int.cast_abs]

theorem floorLog2_spec (q : ℚ) (hq : q ≠ 0) :
    pow2 (floorLog2 q) ≤ |q| ∧ |q| < pow2 (floorLog2 q + 1) := by
  have hn : 0 < q.num.natAbs := Int.natAbs_pos.2 (Rat.num_ne_zero.2 hq)
  have hd : 0 < q.den := q.den_pos
  have hdq : (0 : ℚ) < (q.den : ℚ) := by exact_mod_cast hd
  rw [abs_eq_natAbs_div]
  unfold floorLog2
  split_ifs with h
  · obtain ⟨a1, a2⟩ := log2Fuel_spec q.num.natAbs (q.num.natAbs / q.den)
      (Nat.div_pos h hd) (Nat.div_le_self _ _)
    set k := log2Fuel q.num.natAbs (q.num.natAbs / q.den) with hk
    have b1 : 2 ^ k * q.den ≤ q.num.natAbs := (Nat.le_div_iff_mul_le hd).1 a1
    have b2 : q.num.natAbs < 2 ^ (k + 1) * q.den := (Nat.div_lt_iff_lt_mul hd).1 a2
    have b1q : (2 : ℚ) ^ k * (q.den : ℚ) ≤ (q.num.natAbs : ℚ) := by exact_mod_cast b1
    have b2q : (q.num.natAbs : ℚ) < (2 : ℚ) ^ (k + 1) * (q.den : ℚ) := by exact_mod_cast b2
    constructor
    · rw [pow2_eq_zpow, zpow_natCast, le_div_iff₀ hdq]
      exact b1q
    · rw [pow2_eq_zpow, div_lt_iff₀ hdq]
      have e : ((k : Int) + 1) = ((k + 1 : Nat) : Int) := by push_cast; rfl
      rw [e, zpow_natCast]
      exact b2q
  · push_neg at h
    have hm : 0 < (q.den - 1) / q.num.natAbs := Nat.div_pos (by omega) hn
    obtain ⟨a1, a2⟩ := log2Fuel_spec q.den ((q.den - 1) / q.num.natAbs) hm
      (le_trans (Nat.div_le_self _ _) (by omega))
    set k := log2Fuel q.den ((q.den - 1) / q.num.natAbs) with hk
    have b1 : 2 ^ k * q.num.natAbs ≤ q.den - 1 := (Nat.le_div_iff_mul_le hn).1 a1
    have b2 : q.den - 1 < 2 ^ (k + 1) * q.num.natAbs := (Nat.div_lt_iff_lt_mul hn).1 a2
    have c1 : 2 ^ k * q.num.natAbs < q.den := by omega
    have c2 : q.den ≤ 2 ^ (k + 1) * q.num.natAbs := by omega
    have c1q : (2 : ℚ) ^ k * (q.num.natAbs : ℚ) < (q.den : ℚ) := by exact_mod_cast c1
    have c2q : (q.den : ℚ) ≤ (2 : ℚ) ^ (k + 1) * (q.num.natAbs : ℚ) := by exact_mod_cast c2
    have hpk : (0 : ℚ) < (2 : ℚ) ^ k := by positivity
    have hpk1 : (0 : ℚ) < (2 : ℚ) ^ (k + 1) := by positivity
    constructor
    · have e : (-((k : Int) + 1)) = -((k + 1 : Nat) : Int) := by push_cast; rfl
      rw [pow2_eq_zpow, e, zpow_neg, zpow_natCast, le_div_iff₀ hdq, inv_mul_le_iff₀ hpk1]
      exact c2q
    · have e : (-((k : Int) + 1) + 1) = -((k : Nat) : Int) := by ring
      rw [pow2_eq_zpow, e, zpow_neg, zpow_natCast, div_lt_iff₀ hdq, lt_inv_mul_iff₀ hpk]
      exact c1q

theorem floorLog2_lt (q : ℚ) (hq : q ≠ 0) (k : Int) (h : |q| < pow2 k) : floorLog2 q < k := by
  have := (floorLog2_spec q hq).1
  exact (pow2_lt_iff _ _).1 (lt_of_le_of_lt this h)

theorem le_floorLog2 (q : ℚ) (hq : q ≠ 0) (k : Int) (h : pow2 k ≤ |q|) : k ≤ floorLog2 q := by
  have := (floorLog2_spec q hq).2
  have h2 := (pow2_lt_iff _ _).1 (lt_of_le_of_lt h this)
  omega

theorem floorLog2_mono (a b : ℚ) (ha : a ≠ 0) (hb : b ≠ 0) (hab : |a| ≤ |b|) :
    floorLog2 a ≤ floorLog2 b :=
  le_floorLog2 b hb _ (le_trans (floorLog2_spec a ha).1 hab)


theorem roundHalfEven_cases (q : ℚ) : roundHalfEven q = ⌊q⌋ ∨ roundHalfEven q = ⌊q⌋ + 1 := by
  unfold roundHalfEven
  simp only
  split_ifs <;> simp

theorem roundHalfEven_intCast (n : Int) : roundHalfEven (n : ℚ) = n := by
  unfold roundHalfEven
  simp

theorem roundHalfEven_mono {a b : ℚ} (h : a ≤ b) : roundHalfEven a ≤ roundHalfEven b := by
  have hf : ⌊a⌋ ≤ ⌊b⌋ := Int.floor_mono h
  rcases lt_or_eq_of_le hf with hlt | heq
  · have h1 : roundHalfEven a ≤ ⌊a⌋ + 1 := by
      rcases roundHalfEven_cases a with e | e <;> omega
    have h2 : ⌊b⌋ ≤ roundHalfEven b := by
      rcases roundHalfEven_cases b with e | e <;> omega
    omega
  · have hfrac : a - ⌊a⌋ ≤ b - ⌊b⌋ := by rw [heq]; linarith
    unfold roundHalfEven
    simp only
    rw [← heq] at hfrac ⊢
    have hrw : (⌊a⌋ : ℚ) = ((⌊a⌋ : Int) : ℚ) := rfl
    split_ifs <;> first | omega | (exfalso; linarith)

theorem roundHalfEven_error (q : ℚ) : |(roundHalfEven q : ℚ) - q| ≤ 1 / 2 := by
  have h1 := Int.floor_le q
  have h2 := Int.lt_floor_add_one q
  unfold roundHalfEven
  simp only
  rw [abs_le]
  split_ifs with c1 c2 c3
  · constructor <;> linarith
  · push_cast; constructor <;> linarith
  · push_neg at c1 c2; constructor <;> linarith
  · push_neg at c1 c2; push_cast; constructor <;> linarith

theorem pow2_multiple (e t : Int) (h : e ≤ t) : ∃ n : Int, pow2 t = (n : ℚ) * pow2 e := by
  refine ⟨2 ^ (t - e).toNat, ?_⟩
  have e1 : t = (t - e) + e := by ring
  conv_lhs => rw [e1, pow2_add]
  congr 1
  rw [pow2_eq_zpow]
  obtain ⟨n, hn⟩ := Int.eq_ofNat_of_zero_le (by omega : 0 ≤ t - e)
  rw [hn]
  simp

theorem scaled_round_le (x T : ℚ) (e : Int) (hT : ∃ n : Int, T = (n : ℚ) * pow2 e) (h : x ≤ T) :
    (roundHalfEven (x / pow2 e) : ℚ) * pow2 e ≤ T := by
  obtain ⟨n, rfl⟩ := hT
  have hp := pow2_pos e
  have h1 : x / pow2 e ≤ (n : ℚ) := by rw [div_le_iff₀ hp]; exact h
  have h2 := roundHalfEven_mono h1
  rw [roundHalfEven_intCast] at h2
  have h3 : (roundHalfEven (x / pow2 e) : ℚ) ≤ (n : ℚ) := by exact_mod_cast h2
  exact mul_le_mul_of_nonneg_right h3 hp.le

theorem le_scaled_round (x T : ℚ) (e : Int) (hT : ∃ n : Int, T = (n : ℚ) * pow2 e) (h : T ≤ x) :
    T ≤ (roundHalfEven (x / pow2 e) : ℚ) * pow2 e := by
  obtain ⟨n, rfl⟩ := hT
  have hp := pow2_pos e
  have h1 : (n : ℚ) ≤ x / pow2 e := by rw [le_div_iff₀ hp]; exact h
  have h2 := roundHalfEven_mono h1
  rw [roundHalfEven_intCast] at h2
  have h3 : (n : ℚ) ≤ (roundHalfEven (x / pow2 e) : ℚ) := by exact_mod_cast h2
  exact mul_le_mul_of_nonneg_right h3 hp.le

theorem roundDouble_zero : roundDouble 0 = 0 := by
  unfold roundDouble
  rw [zero_div]
  have := roundHalfEven_intCast 0
  simp only [Int.cast_zero] at this
  rw [this]
  simp

theorem roundDouble_nonneg (q : ℚ) (h : 0 ≤ q) : 0 ≤ roundDouble q :=
  le_scaled_round q 0 _ ⟨0, by simp⟩ h

theorem ulpExponent_ge (q : ℚ) : -1074 ≤ ulpExponent q := le_max_right _ _

theorem ulpExponent_mono (a b : ℚ) (ha : a ≠ 0) (hb : b ≠ 0) (hab : |a| ≤ |b|) :
    ulpExponent a ≤ ulpExponent b := by
  have := floorLog2_mono a b ha hb hab
  unfold ulpExponent
  omega

theorem roundDouble_mono (a b : ℚ) (ha : 0 ≤ a) (hab : a ≤ b) : roundDouble a ≤ roundDouble b := by
  rcases eq_or_lt_of_le ha with h0 | hpos
  · rw [← h0, roundDouble_zero]
    exact roundDouble_nonneg b (le_trans ha hab)
  · have hbpos : 0 < b := lt_of_lt_of_le hpos hab
    have hle : ulpExponent a ≤ ulpExponent b :=
      ulpExponent_mono a b hpos.ne' hbpos.ne' (by rw [abs_of_pos hpos, abs_of_pos hbpos]; exact hab)
    rcases eq_or_lt_of_le hle with heq | hlt
    · unfold roundDouble
      rw [heq]
      have hp := pow2_pos (ulpExponent b)
      have h1 : a / pow2 (ulpExponent b) ≤ b / pow2 (ulpExponent b) :=
        div_le_div_of_nonneg_right hab hp.le
      have h2 := roundHalfEven_mono h1
      have h3 : (roundHalfEven (a / pow2 (ulpExponent b)) : ℚ)
          ≤ (roundHalfEven (b / pow2 (ulpExponent b)) : ℚ) := by exact_mod_cast h2
      exact mul_le_mul_of_nonneg_right h3 hp.le
    · have hga := ulpExponent_ge a
      have heb : ulpExponent b = floorLog2 b - 52 := by
        unfold ulpExponent at hlt hga ⊢
        omega
      have hfa : floorLog2 a - 52 ≤ ulpExponent a := le_max_left _ _
      have hT1 : pow2 (floorLog2 b) ≤ b := by
        have := (floorLog2_spec b hbpos.ne').1
        rwa [abs_of_pos hbpos] at this
      have hT2 : a ≤ pow2 (floorLog2 b) := by
        have h1 := (floorLog2_spec a hpos.ne').2
        rw [abs_of_pos hpos] at h1
        have h2 : pow2 (floorLog2 a + 1) ≤ pow2 (floorLog2 b) := (pow2_le_iff _ _).2 (by omega)
        linarith
      calc roundDouble a ≤ pow2 (floorLog2 b) :=
            scaled_round_le a _ _ (pow2_multiple _ _ (by omega)) hT2
        _ ≤ roundDouble b := le_scaled_round b _ _ (pow2_multiple _ _ (by omega)) hT1

theorem roundDouble_error (q : ℚ) : |roundDouble q - q| ≤ pow2 (ulpExponent q) / 2 := by
  have hp := pow2_pos (ulpExponent q)
  have h := roundHalfEven_error (q / pow2 (ulpExponent q))
  unfold roundDouble
  have e : (roundHalfEven (q / pow2 (ulpExponent q)) : ℚ) * pow2 (ulpExponent q) - q
      = ((roundHalfEven (q / pow2 (ulpExponent q)) : ℚ) - q / pow2 (ulpExponent q))
          * pow2 (ulpExponent q) := by
    field_simp
  rw [e, abs_mul, abs_of_pos hp]
  calc |(roundHalfEven (q / pow2 (ulpExponent q)) : ℚ) - q / pow2 (ulpExponent q)|
        * pow2 (ulpExponent q) ≤ 1 / 2 * pow2 (ulpExponent q) :=
        mul_le_mul_of_nonneg_right h hp.le
    _ = pow2 (ulpExponent q) / 2 := by ring

theorem roundDouble_of_multiple (q : ℚ) (h : ∃ n : Int, q = (n : ℚ) * pow2 (ulpExponent q)) :
    roundDouble q = q := by
  obtain ⟨n, hn⟩ := h
  unfold roundDouble
  have hp := pow2_pos (ulpExponent q)
  have e : q / pow2 (ulpExponent q) = (n : ℚ) := by
    rw [div_eq_iff hp.ne']; exact hn
  rw [e, roundHalfEven_intCast]
  exact hn.symm

theorem roundDouble_dyadic (m e : Int) (hm : |m| < 2 ^ 53) (he : -1074 ≤ e) :
    roundDouble ((m : ℚ) * pow2 e) = (m : ℚ) * pow2 e := by
  by_cases h0 : m = 0
  · subst h0
    simp [roundDouble_zero]
  · have hp := pow2_pos e
    have hq : (m : ℚ) * pow2 e ≠ 0 := mul_ne_zero (by exact_mod_cast h0) hp.ne'
    have habs : |(m : ℚ) * pow2 e| < pow2 (53 + e) := by
      rw [abs_mul, abs_of_pos hp, pow2_add]
      apply mul_lt_mul_of_pos_right _ hp
      have e53 : pow2 53 = ((2 ^ 53 : Int) : ℚ) := by rw [pow2_eq_zpow]; norm_num
      rw [e53, ← Int.cast_abs]
      exact_mod_cast hm
    have hfl := floorLog2_lt _ hq _ habs
    have hulp : ulpExponent ((m : ℚ) * pow2 e) ≤ e := by
      unfold ulpExponent
      omega
    obtain ⟨n, hn⟩ := pow2_multiple _ _ hulp
    apply roundDouble_of_multiple
    refine ⟨m * n, ?_⟩
    conv_lhs => rw [hn]
    push_cast
    ring

theorem roundDouble_intCast (m : Int) (hm : |m| < 2 ^ 53) : roundDouble (m : ℚ) = (m : ℚ) := by
  have := roundDouble_dyadic m 0 hm (by norm_num)
  have e0 : pow2 0 = 1 := by rw [pow2_eq_zpow]; norm_num
  rwa [e0, mul_one] at this

theorem roundDouble_error_of_le (q : ℚ) (k : Int) (hk : -1021 ≤ k) (h : |q| ≤ pow2 k) :
    |roundDouble q - q| ≤ pow2 (k - 54) := by
  have hpk := pow2_pos (k - 54)
  by_cases h0 : q = 0
  · subst h0
    rw [roundDouble_zero, sub_self, abs_zero]
    exact hpk.le
  rcases eq_or_lt_of_le h with heq | hlt
  · have hex : roundDouble q = q := by
      rcases abs_cases q with ⟨h1, _⟩ | ⟨h1, _⟩
      · have hq : q = ((1 : Int) : ℚ) * pow2 k := by rw [← heq, h1]; simp
        rw [hq]
        exact roundDouble_dyadic 1 k (by norm_num) (by omega)
      · have hq : q = ((-1 : Int) : ℚ) * pow2 k := by rw [← heq, h1]; simp
        rw [hq]
        exact roundDouble_dyadic (-1) k (by norm_num) (by omega)
    rw [hex, sub_self, abs_zero]
    exact hpk.le
  · have hfl := floorLog2_lt q h0 k hlt
    have hulp : ulpExponent q ≤ k - 53 := by
      unfold ulpExponent
      omega
    have h1 := roundDouble_error q
    have h2 : pow2 (ulpExponent q) ≤ pow2 (k - 53) := (pow2_le_iff _ _).2 hulp
    have h3 : pow2 (k - 53) = 2 * pow2 (k - 54) := by
      have : k - 53 = 1 + (k - 54) := by ring
      rw [this, pow2_add]
      congr 1
    linarith

theorem fsub_nonneg (a b : ℚ) (h : b ≤ a) : 0 ≤ fsub a b :=
  roundDouble_nonneg _ (sub_nonneg.2 h)

theorem fadd_mono (a b c d : ℚ) (ha : 0 ≤ a) (hb : 0 ≤ b) (hac : a ≤ c) (hbd : b ≤ d) :
    fadd a b ≤ fadd c d :=
  roundDouble_mono _ _ (add_nonneg ha hb) (add_le_add hac hbd)

theorem fadd_nonneg (a b : ℚ) (ha : 0 ≤ a) (hb : 0 ≤ b) : 0 ≤ fadd a b :=
  roundDouble_nonneg _ (add_nonneg ha hb)

theorem fdiv_four_mono (a c : ℚ) (ha : 0 ≤ a) (hac : a ≤ c) : fdiv a 4 ≤ fdiv c 4 :=
  roundDouble_mono _ _ (div_nonneg ha (by norm_num)) (div_le_div_of_nonneg_right hac (by norm_num))

theorem fdiv_four_nonneg (a : ℚ) (ha : 0 ≤ a) : 0 ≤ fdiv a 4 :=
  roundDouble_nonneg _ (div_nonneg ha (by norm_num))

end RoundingFacts

section StencilFacts

open Binary64

theorem sumDiv4_mono (a b c d a2 b2 c2 d2 : ℚ) (ha : 0 ≤ a) (hb : 0 ≤ b) (hc : 0 ≤ c)
    (hd : 0 ≤ d) (h1 : a ≤ a2) (h2 : b ≤ b2) (h3 : c ≤ c2) (h4 : d ≤ d2) :
    sumDiv4 a b c d ≤ sumDiv4 a2 b2 c2 d2 := by
  unfold sumDiv4
  have s1 := fadd_mono a b a2 b2 ha hb h1 h2
  have n1 := fadd_nonneg a b ha hb
  have s2 := fadd_mono _ c _ c2 n1 hc s1 h3
  have n2 := fadd_nonneg _ c n1 hc
  have s3 := fadd_mono _ d _ d2 n2 hd s2 h4
  have n3 := fadd_nonneg _ d n2 hd
  exact fdiv_four_mono _ _ n3 s3

theorem sumDiv4_nonneg (a b c d : ℚ) (ha : 0 ≤ a) (hb : 0 ≤ b) (hc : 0 ≤ c) (hd : 0 ≤ d) :
    0 ≤ sumDiv4 a b c d := by
  unfold sumDiv4
  exact fdiv_four_nonneg _ (fadd_nonneg _ _ (fadd_nonneg _ _ (fadd_nonneg _ _ ha hb) hc) hd)

theorem sumDiv4_ones : sumDiv4 1 1 1 1 = 1 := by
  have r2 : roundDouble 2 = 2 := by
    have := roundDouble_intCast 2 (by norm_num); simpa using this
  have r3 : roundDouble 3 = 3 := by
    have := roundDouble_intCast 3 (by norm_num); simpa using this
  have r4 : roundDouble 4 = 4 := by
    have := roundDouble_intCast 4 (by norm_num); simpa using this
  have r1 : roundDouble 1 = 1 := by
    have := roundDouble_intCast 1 (by norm_num); simpa using this
  unfold sumDiv4 fdiv fadd
  norm_num [r1, r2, r3, r4]

theorem sumDiv4_le_one (a b c d : ℚ) (ha : 0 ≤ a) (hb : 0 ≤ b) (hc : 0 ≤ c) (hd : 0 ≤ d)
    (h1 : a ≤ 1) (h2 : b ≤ 1) (h3 : c ≤ 1) (h4 : d ≤ 1) : sumDiv4 a b c d ≤ 1 := by
  rw [← sumDiv4_ones]
  exact sumDiv4_mono a b c d 1 1 1 1 ha hb hc hd h1 h2 h3 h4

end StencilFacts

section B64ErrorFacts

open Binary64

theorem pow2_succ (k : Int) : pow2 (k + 1) = 2 * pow2 k := by
  rw [add_comm, pow2_add]
  congr 1

theorem pow2_neg55_multiples :
    pow2 (-54) = 2 * pow2 (-55) ∧ pow2 (-53) = 4 * pow2 (-55) ∧ pow2 (-52) = 8 * pow2 (-55) ∧
      pow2 (-51) = 16 * pow2 (-55) ∧ pow2 (-50) = 32 * pow2 (-55) := by
  have e1 := pow2_succ (-55)
  have e2 := pow2_succ (-54)
  have e3 := pow2_succ (-53)
  have e4 := pow2_succ (-52)
  have e5 := pow2_succ (-51)
  norm_num at e1 e2 e3 e4 e5
  refine ⟨e1, ?_, ?_, ?_, ?_⟩ <;> linarith

theorem pow2_small_values : pow2 0 = 1 ∧ pow2 1 = 2 ∧ pow2 2 = 4 := by
  refine ⟨?_, ?_, ?_⟩ <;> rw [pow2_eq_zpow] <;> norm_num

theorem roundDouble_small_ints :
    roundDouble 1 = 1 ∧ roundDouble 2 = 2 ∧ roundDouble 3 = 3 ∧ roundDouble 4 = 4 := by
  have r1 := roundDouble_intCast 1 (by norm_num)
  have r2 := roundDouble_intCast 2 (by norm_num)
  have r3 := roundDouble_intCast 3 (by norm_num)
  have r4 := roundDouble_intCast 4 (by norm_num)
  norm_num at r1 r2 r3 r4
  exact ⟨r1, r2, r3, r4⟩

theorem sumDiv4_error (a b c d : ℚ) (ha : 0 ≤ a ∧ a ≤ 1) (hb : 0 ≤ b ∧ b ≤ 1)
    (hc : 0 ≤ c ∧ c ≤ 1) (hd : 0 ≤ d ∧ d ≤ 1) :
    |sumDiv4 a b c d - (a + b + c + d) / 4| ≤ 7 * pow2 (-55) := by
  obtain ⟨p0, p1, p2⟩ := pow2_small_values
  obtain ⟨_, r2, r3, r4⟩ := roundDouble_small_ints
  obtain ⟨m54, m53, m52, _, _⟩ := pow2_neg55_multiples
  have hu := pow2_pos (-55)
  -- first sum
  have s1n : 0 ≤ fadd a b := fadd_nonneg a b ha.1 hb.1
  have s1u : fadd a b ≤ 2 := by
    have := roundDouble_mono (a + b) 2 (by linarith) (by linarith)
    rwa [r2] at this
  have e1 : |fadd a b - (a + b)| ≤ pow2 (-53) := by
    have := roundDouble_error_of_le (a + b) 1 (by norm_num)
      (by rw [p1, abs_of_nonneg (by linarith)]; linarith)
    simpa using this
  -- second sum
  have s2n : 0 ≤ fadd (fadd a b) c := fadd_nonneg _ c s1n hc.1
  have s2u : fadd (fadd a b) c ≤ 3 := by
    have := roundDouble_mono (fadd a b + c) 3 (by linarith) (by linarith)
    rwa [r3] at this
  have e2 : |fadd (fadd a b) c - (fadd a b + c)| ≤ pow2 (-52) := by
    have := roundDouble_error_of_le (fadd a b + c) 2 (by norm_num)
      (by rw [p2, abs_of_nonneg (by linarith)]; linarith)
    simpa using this
  -- third sum
  have s3n : 0 ≤ fadd (fadd (fadd a b) c) d := fadd_nonneg _ d s2n hd.1
  have s3u : fadd (fadd (fadd a b) c) d ≤ 4 := by
    have := roundDouble_mono (fadd (fadd a b) c + d) 4 (by linarith) (by linarith)
    rwa [r4] at this
  have e3 : |fadd (fadd (fadd a b) c) d - (fadd (fadd a b) c + d)| ≤ pow2 (-52) := by
    have := roundDouble_error_of_le (fadd (fadd a b) c + d) 2 (by norm_num)
      (by rw [p2, abs_of_nonneg (by linarith)]; linarith)
    simpa using this
  -- division
  have e4 : |sumDiv4 a b c d - fadd (fadd (fadd a b) c) d / 4| ≤ pow2 (-54) := by
    have := roundDouble_error_of_le (fadd (fadd (fadd a b) c) d / 4) 0 (by norm_num)
      (by rw [p0, abs_of_nonneg (by linarith)]; linarith)
    simpa using this
  rw [abs_le] at e1 e2 e3 e4 ⊢
  constructor <;> linarith [e1.1, e1.2, e2.1, e2.2, e3.1, e3.2, e4.1, e4.2]

theorem sumDiv4_unit (a b c d : ℚ) (ha : 0 ≤ a ∧ a ≤ 1) (hb : 0 ≤ b ∧ b ≤ 1)
    (hc : 0 ≤ c ∧ c ≤ 1) (hd : 0 ≤ d ∧ d ≤ 1) :
    0 ≤ sumDiv4 a b c d ∧ sumDiv4 a b c d ≤ 1 :=
  ⟨sumDiv4_nonneg a b c d ha.1 hb.1 hc.1 hd.1,
    sumDiv4_le_one a b c d ha.1 hb.1 hc.1 hd.1 ha.2 hb.2 hc.2 hd.2⟩

theorem fsub_error_unit (a b : ℚ) (ha : 0 ≤ a ∧ a ≤ 1) (hb : 0 ≤ b ∧ b ≤ 1) :
    |fsub a b - (a - b)| ≤ pow2 (-54) := by
  have p0 := pow2_small_values.1
  have := roundDouble_error_of_le (a - b) 0 (by norm_num)
    (by rw [p0, abs_le]; constructor <;> linarith [ha.1, ha.2, hb.1, hb.2])
  simpa using this

end B64ErrorFacts

/-! ## Sequential engine in binary64 arithmetic -/

section B64SequentialFacts

open Binary64 Binary64.Sequential

theorem b64_relaxRow_copy (p : ℚ) (x : Int) (ys : List Int) (s : Sequential.State) :
    (relaxRow p ys x s).doubleMatrixCopy = s.doubleMatrixCopy := by
  unfold relaxRow
  induction ys generalizing s with
  | nil => rfl
  | cons y t ih => rw [List.foldl_cons, ih]; rfl

theorem b64_relaxRow_matrix (p : ℚ) (x : Int) (ys : List Int) (s : Sequential.State) (i j : Int) :
    (relaxRow p ys x s).doubleMatrix i j
      = if i = x ∧ j ∈ ys then averageNeighbours s.doubleMatrixCopy x j
        else s.doubleMatrix i j := by
  unfold relaxRow
  induction ys generalizing s with
  | nil => simp
  | cons y t ih =>
    rw [List.foldl_cons, ih]
    simp only [relaxCell, setCell, List.mem_cons]
    split_ifs <;> simp_all

theorem b64_relaxRow_balanced (p : ℚ) (x : Int) (ys : List Int) (hys : ys.Nodup) (s :
    Sequential.State) :
    (relaxRow p ys x s).balanced = true ↔
      s.balanced = true ∧
        ∀ y ∈ ys, ¬ |fsub (averageNeighbours s.doubleMatrixCopy x y) (s.doubleMatrix x y)| > p := by
  unfold relaxRow
  induction ys generalizing s with
  | nil => simp
  | cons y t ih =>
    rw [List.foldl_cons, ih (List.nodup_cons.1 hys).2]
    have hyt : y ∉ t := (List.nodup_cons.1 hys).1
    have hsame : ∀ y2 ∈ t, (relaxCell p x y s).doubleMatrix x y2 = s.doubleMatrix x y2 := by
      intro y2 hy2
      have : y2 ≠ y := fun h => hyt (h ▸ hy2)
      simp [relaxCell, setCell, this]
    have hcopy : (relaxCell p x y s).doubleMatrixCopy = s.doubleMatrixCopy := rfl
    have hflag : (relaxCell p x y s).balanced = true ↔
        s.balanced = true ∧
          ¬ |fsub (averageNeighbours s.doubleMatrixCopy x y) (s.doubleMatrix x y)| > p := by
      cases hb : s.balanced <;> by_cases hc :
        |fsub (averageNeighbours s.doubleMatrixCopy x y) (s.doubleMatrix x y)| > p <;>
        simp [relaxCell, hb, hc]
    rw [hflag, hcopy]
    constructor
    · rintro ⟨⟨h1, h2⟩, h3⟩
      refine ⟨h1, ?_⟩
      intro y2 hy2
      rcases List.mem_cons.1 hy2 with h | h
      · subst h; exact h2
      · rw [← hsame y2 h]; exact h3 y2 h
    · rintro ⟨h1, h2⟩
      refine ⟨⟨h1, h2 y (List.mem_cons_self _ _)⟩, ?_⟩
      intro y2 hy2
      rw [hsame y2 hy2]
      exact h2 y2 (List.mem_cons_of_mem _ hy2)

theorem b64_relaxRows_copy (p : ℚ) (xs ys : List Int) (s : Sequential.State) :
    (relaxRows p xs ys s).doubleMatrixCopy = s.doubleMatrixCopy := by
  unfold relaxRows
  induction xs generalizing s with
  | nil => rfl
  | cons x t ih => rw [List.foldl_cons, ih, b64_relaxRow_copy]

theorem b64_relaxRows_matrix (p : ℚ) (xs ys : List Int) (s : Sequential.State) (i j : Int) :
    (relaxRows p xs ys s).doubleMatrix i j
      = if i ∈ xs ∧ j ∈ ys then averageNeighbours s.doubleMatrixCopy i j
        else s.doubleMatrix i j := by
  unfold relaxRows
  induction xs generalizing s with
  | nil => simp
  | cons x t ih =>
    rw [List.foldl_cons, ih, b64_relaxRow_copy, b64_relaxRow_matrix]
    simp only [List.mem_cons]
    split_ifs <;> simp_all

theorem b64_relaxRows_balanced (p : ℚ) (xs ys : List Int) (hxs : xs.Nodup) (hys : ys.Nodup)
    (s : Sequential.State) :
    (relaxRows p xs ys s).balanced = true ↔
      s.balanced = true ∧
        ∀ x ∈ xs, ∀ y ∈ ys,
          ¬ |fsub (averageNeighbours s.doubleMatrixCopy x y) (s.doubleMatrix x y)| > p := by
  unfold relaxRows
  induction xs generalizing s with
  | nil => simp
  | cons x t ih =>
    rw [List.foldl_cons, ih (List.nodup_cons.1 hxs).2, b64_relaxRow_copy,
      b64_relaxRow_balanced p x ys hys]
    have hxt : x ∉ t := (List.nodup_cons.1 hxs).1
    have hsame : ∀ x2 ∈ t, ∀ y, (relaxRow p ys x s).doubleMatrix x2 y = s.doubleMatrix x2 y := by
      intro x2 hx2 y
      have : x2 ≠ x := fun h => hxt (h ▸ hx2)
      rw [b64_relaxRow_matrix]
      simp [this]
    constructor
    · rintro ⟨⟨h1, h2⟩, h3⟩
      refine ⟨h1, ?_⟩
      intro x2 hx2 y hy
      rcases List.mem_cons.1 hx2 with h | h
      · subst h; exact h2 y hy
      · rw [← hsame x2 h y]; exact h3 x2 h y hy
    · rintro ⟨h1, h2⟩
      refine ⟨⟨h1, h2 x (List.mem_cons_self _ _)⟩, ?_⟩
      intro x2 hx2 y hy
      rw [hsame x2 hx2 y]
      exact h2 x2 (List.mem_cons_of_mem _ hx2) y hy

/-! ## The sequential pass is a Jacobi pass -/

theorem b64_relaxationPass_matrix (D : Int) (p : ℚ) (s : Sequential.State) (x y : Int) :
    (relaxationPass D p s).doubleMatrix x y
      = if (1 ≤ x ∧ x ≤ D - 2) ∧ (1 ≤ y ∧ y ≤ D - 2) then averageNeighbours s.doubleMatrix x y
        else s.doubleMatrix x y := by
  unfold relaxationPass
  rw [b64_relaxRows_matrix]
  simp only [mem_loopRange]
  by_cases h : (1 ≤ x ∧ x ≤ D - 2) ∧ (1 ≤ y ∧ y ≤ D - 2)
  · obtain ⟨⟨h1, h2⟩, h3, h4⟩ := h
    rw [if_pos ⟨⟨h1, by omega⟩, h3, by omega⟩, if_pos ⟨⟨h1, h2⟩, h3, h4⟩]
    unfold averageNeighbours
    rw [memcpyRows_apply, memcpyRows_apply, memcpyRows_apply, memcpyRows_apply,
      if_pos (by omega), if_pos (by omega), if_pos (by omega), if_pos (by omega)]
  · rw [if_neg h, if_neg]
    rintro ⟨⟨h1, h2⟩, h3, h4⟩
    exact h ⟨⟨h1, by omega⟩, h3, by omega⟩

theorem b64_relaxationPass_balanced (D : Int) (p : ℚ) (s : Sequential.State) :
    (relaxationPass D p s).balanced = true ↔
      s.balanced = true ∧
        ∀ x y, 1 ≤ x → x ≤ D - 2 → 1 ≤ y → y ≤ D - 2 →
          ¬ |fsub (averageNeighbours s.doubleMatrix x y) (s.doubleMatrix x y)| > p := by
  unfold relaxationPass
  rw [b64_relaxRows_balanced p _ _ (nodup_loopRange _ _) (nodup_loopRange _ _)]
  simp only [mem_loopRange]
  have havg : ∀ x y, 1 ≤ x → x ≤ D - 2 → 1 ≤ y → y ≤ D - 2 →
      averageNeighbours (Sequential.memcpyRows D s.doubleMatrix s.doubleMatrixCopy) x y
        = averageNeighbours s.doubleMatrix x y := by
    intro x y h1 h2 h3 h4
    unfold averageNeighbours
    rw [memcpyRows_apply, memcpyRows_apply, memcpyRows_apply, memcpyRows_apply,
      if_pos (by omega), if_pos (by omega), if_pos (by omega), if_pos (by omega)]
  constructor
  · rintro ⟨hb, h⟩
    refine ⟨hb, ?_⟩
    intro x y h1 h2 h3 h4
    rw [← havg x y h1 h2 h3 h4]
    exact h x ⟨h1, by omega⟩ y ⟨h3, by omega⟩
  · rintro ⟨hb, h⟩
    refine ⟨hb, ?_⟩
    intro x hx y hy
    rw [havg x y hx.1 (by omega) hy.1 (by omega)]
    exact h x y hx.1 (by omega) hy.1 (by omega)

end B64SequentialFacts

/-! ## Termination of the sequential engine in binary64 arithmetic -/

section B64Termination

open Binary64 Binary64.Sequential

theorem b64_average_eq (m : Grid) (x y : Int) :
    averageNeighbours m x y = sumDiv4 (m (x - 1) y) (m (x + 1) y) (m x (y - 1)) (m x (y + 1)) :=
  rfl

end B64Termination

section B64Termination2

open Binary64 Binary64.Sequential

end B64Termination2

section B64Claims

open Binary64 Binary64.Sequential

end B64Claims

section B64Idempotence

open Binary64 Binary64.Sequential

theorem b64_pass_unit (D : Int) (p : ℚ) (s : Sequential.State)
    (hrange : ∀ i j, 0 ≤ i → i < D → 0 ≤ j → j < D →
      0 ≤ s.doubleMatrix i j ∧ s.doubleMatrix i j ≤ 1)
    (i j : Int) (hi0 : 0 ≤ i) (hi1 : i < D) (hj0 : 0 ≤ j) (hj1 : j < D) :
    0 ≤ (relaxationPass D p s).doubleMatrix i j ∧ (relaxationPass D p s).doubleMatrix i j ≤ 1 := by
  rw [b64_relaxationPass_matrix]
  split_ifs with h
  · rw [b64_average_eq]
    exact sumDiv4_unit _ _ _ _ (hrange (i - 1) j (by omega) (by omega) hj0 hj1)
      (hrange (i + 1) j (by omega) (by omega) hj0 hj1)
      (hrange i (j - 1) hi0 hi1 (by omega) (by omega))
      (hrange i (j + 1) hi0 hi1 (by omega) (by omega))
  · exact hrange i j hi0 hi1 hj0 hj1

/-- C8 (amended): in binary64 arithmetic, on a matrix with cells in `[0, 1]`
(as every matrix the engine holds), if one sequential pass changes every
interior cell by at most `p` as the engine measures it (so that the engine
declares convergence), then one more pass on the result changes every interior
cell by at most `p + 2^-51`, and the engine measures a change of at most
`p + 2^-50`. -/
theorem binary64_pass_idempotent (D : Int) (p : ℚ) (s : Sequential.State) (hp : 0 ≤ p)
    (hrange : ∀ i j, 0 ≤ i → i < D → 0 ≤ j → j < D →
      0 ≤ s.doubleMatrix i j ∧ s.doubleMatrix i j ≤ 1)
    (hconv : ∀ x y, 1 ≤ x → x ≤ D - 2 → 1 ≤ y → y ≤ D - 2 →
      |fsub ((relaxationPass D p s).doubleMatrix x y) (s.doubleMatrix x y)| ≤ p) :
    ∀ x y, 1 ≤ x → x ≤ D - 2 → 1 ≤ y → y ≤ D - 2 →
      |(relaxationPass D p (relaxationPass D p s)).doubleMatrix x y
          - (relaxationPass D p s).doubleMatrix x y| ≤ p + pow2 (-51) ∧
        |fsub ((relaxationPass D p (relaxationPass D p s)).doubleMatrix x y)
          ((relaxationPass D p s).doubleMatrix x y)| ≤ p + pow2 (-50) := by
  obtain ⟨m54, m53, m52, m51, m50⟩ := pow2_neg55_multiples
  have hu := pow2_pos (-55)
  have hr1 := b64_pass_unit D p s hrange
  have hr2 := b64_pass_unit D p (relaxationPass D p s) hr1
  have hall : ∀ i j, 0 ≤ i → i < D → 0 ≤ j → j < D →
      |(relaxationPass D p s).doubleMatrix i j - s.doubleMatrix i j| ≤ p + 2 * pow2 (-55) := by
    intro i j hi0 hi1 hj0 hj1
    by_cases h : (1 ≤ i ∧ i ≤ D - 2) ∧ (1 ≤ j ∧ j ≤ D - 2)
    · have h1 := hconv i j h.1.1 h.1.2 h.2.1 h.2.2
      have h2 := fsub_error_unit _ _ (hr1 i j hi0 hi1 hj0 hj1) (hrange i j hi0 hi1 hj0 hj1)
      rw [abs_le] at h1 h2 ⊢
      constructor <;> linarith [h1.1, h1.2, h2.1, h2.2]
    · rw [b64_relaxationPass_matrix, if_neg h, sub_self, abs_zero]
      linarith
  intro x y h1 h2 h3 h4
  have hint : (1 ≤ x ∧ x ≤ D - 2) ∧ (1 ≤ y ∧ y ≤ D - 2) := ⟨⟨h1, h2⟩, h3, h4⟩
  have hexact : |(relaxationPass D p (relaxationPass D p s)).doubleMatrix x y
      - (relaxationPass D p s).doubleMatrix x y| ≤ p + 16 * pow2 (-55) := by
    rw [b64_relaxationPass_matrix D p (relaxationPass D p s), if_pos hint,
      b64_relaxationPass_matrix D p s x y, if_pos hint, b64_average_eq, b64_average_eq]
    have a1 := abs_le.1 (hall (x - 1) y (by omega) (by omega) (by omega) (by omega))
    have a2 := abs_le.1 (hall (x + 1) y (by omega) (by omega) (by omega) (by omega))
    have a3 := abs_le.1 (hall x (y - 1) (by omega) (by omega) (by omega) (by omega))
    have a4 := abs_le.1 (hall x (y + 1) (by omega) (by omega) (by omega) (by omega))
    have e1 := abs_le.1 (sumDiv4_error _ _ _ _
      (hrange (x - 1) y (by omega) (by omega) (by omega) (by omega))
      (hrange (x + 1) y (by omega) (by omega) (by omega) (by omega))
      (hrange x (y - 1) (by omega) (by omega) (by omega) (by omega))
      (hrange x (y + 1) (by omega) (by omega) (by omega) (by omega)))
    have e2 := abs_le.1 (sumDiv4_error _ _ _ _
      (hr1 (x - 1) y (by omega) (by omega) (by omega) (by omega))
      (hr1 (x + 1) y (by omega) (by omega) (by omega) (by omega))
      (hr1 x (y - 1) (by omega) (by omega) (by omega) (by omega))
      (hr1 x (y + 1) (by omega) (by omega) (by omega) (by omega)))
    rw [abs_le]
    constructor <;> linarith [a1.1, a1.2, a2.1, a2.2, a3.1, a3.2, a4.1, a4.2, e1.1, e1.2, e2.1,
        e2.2]
  refine ⟨by rw [m51]; exact hexact, ?_⟩
  have hs := fsub_error_unit _ _ (hr2 x y (by omega) (by omega) (by omega) (by omega))
    (hr1 x y (by omega) (by omega) (by omega) (by omega))
  rw [m50]
  rw [abs_le] at hexact hs ⊢
  constructor <;> linarith [hexact.1, hexact.2, hs.1, hs.2]

end B64Idempotence

/-! ## Shared-memory worker in binary64 arithmetic -/

section B64SharedFacts

open Binary64 Binary64.SharedMemory

theorem b64_shared_average_eq (m : Grid) (x y : Int) :
    averageNeighbours m x y = sumDiv4 (m (x - 1) y) (m (x + 1) y) (m x (y - 1)) (m x (y + 1)) :=
  rfl

theorem b64_shared_cell_matrix (p : ℚ) (x y : Int) (s : Relaxation.SharedMemory.State) :
    (relaxCell p x y s).doubleMatrix
      = setCell s.doubleMatrix x y (averageNeighbours s.doubleMatrix x y) := rfl

theorem b64_shared_cell_balanced (p : ℚ) (x y : Int) (s : Relaxation.SharedMemory.State) :
    (relaxCell p x y s).balanced = true ↔
      s.balanced = true ∧
        ¬ fsub (averageNeighbours s.doubleMatrix x y) (s.doubleMatrix x y) > p := by
  cases hb : s.balanced <;>
    by_cases hc : fsub (averageNeighbours s.doubleMatrix x y) (s.doubleMatrix x y) > p <;>
    simp [relaxCell, hb, hc]

theorem b64_shared_row_frame (p : ℚ) (x : Int) (ys : List Int)
    (s : Relaxation.SharedMemory.State) (i j : Int) (h : ¬ (i = x ∧ j ∈ ys)) :
    (ys.foldl (fun u y => relaxCell p x y u) s).doubleMatrix i j = s.doubleMatrix i j := by
  induction ys generalizing s with
  | nil => rfl
  | cons y t ih =>
    rw [List.foldl_cons, ih _ (fun h2 => h ⟨h2.1, List.mem_cons_of_mem _ h2.2⟩),
      b64_shared_cell_matrix]
    unfold setCell
    rw [if_neg (fun h2 => h ⟨h2.1, by rw [h2.2]; exact List.mem_cons_self _ _⟩)]

theorem b64_shared_row_balanced (p : ℚ) (x : Int) (ys : List Int) (hys : ys.Nodup)
    (s : Relaxation.SharedMemory.State) :
    (ys.foldl (fun u y => relaxCell p x y u) s).balanced = true ↔
      s.balanced = true ∧
        ∀ y ∈ ys, ¬ fsub ((ys.foldl (fun u y => relaxCell p x y u) s).doubleMatrix x y)
          (s.doubleMatrix x y) > p := by
  induction ys generalizing s with
  | nil => simp
  | cons y t ih =>
    have hyt : y ∉ t := (List.nodup_cons.1 hys).1
    rw [List.foldl_cons, ih (List.nodup_cons.1 hys).2, b64_shared_cell_balanced]
    have hhead : (t.foldl (fun u y => relaxCell p x y u) (relaxCell p x y s)).doubleMatrix x y
        = averageNeighbours s.doubleMatrix x y := by
      rw [b64_shared_row_frame p x t _ x y (fun h => hyt h.2), b64_shared_cell_matrix]
      simp [setCell]
    have hold : ∀ y2 ∈ t, (relaxCell p x y s).doubleMatrix x y2 = s.doubleMatrix x y2 := by
      intro y2 hy2
      have : y2 ≠ y := fun h => hyt (h ▸ hy2)
      simp [b64_shared_cell_matrix, setCell, this]
    constructor
    · rintro ⟨⟨h1, h2⟩, h3⟩
      refine ⟨h1, ?_⟩
      intro y2 hy2
      rcases List.mem_cons.1 hy2 with h | h
      · subst h; rw [hhead]; exact h2
      · rw [← hold y2 h]; exact h3 y2 h
    · rintro ⟨h1, h2⟩
      refine ⟨⟨h1, ?_⟩, ?_⟩
      · have := h2 y (List.mem_cons_self _ _)
        rwa [hhead] at this
      · intro y2 hy2
        rw [hold y2 hy2]
        exact h2 y2 (List.mem_cons_of_mem _ hy2)

theorem b64_shared_rows_frame (p : ℚ) (xs ys : List Int) (s : Relaxation.SharedMemory.State)
    (i j : Int) (h : ¬ (i ∈ xs ∧ j ∈ ys)) :
    (xs.foldl (fun t x => ys.foldl (fun u y => relaxCell p x y u) t) s).doubleMatrix i j
      = s.doubleMatrix i j := by
  induction xs generalizing s with
  | nil => rfl
  | cons x t ih =>
    rw [List.foldl_cons, ih _ (fun h2 => h ⟨List.mem_cons_of_mem _ h2.1, h2.2⟩),
      b64_shared_row_frame p x ys s i j
        (fun h2 => h ⟨by rw [h2.1]; exact List.mem_cons_self _ _, h2.2⟩)]

theorem b64_shared_rows_balanced (p : ℚ) (xs ys : List Int) (hxs : xs.Nodup) (hys : ys.Nodup)
    (s : Relaxation.SharedMemory.State) :
    (xs.foldl (fun t x => ys.foldl (fun u y => relaxCell p x y u) t) s).balanced = true ↔
      s.balanced = true ∧
        ∀ x ∈ xs, ∀ y ∈ ys,
          ¬ fsub ((xs.foldl (fun t x => ys.foldl (fun u y => relaxCell p x y u) t) s).doubleMatrix
              x y) (s.doubleMatrix x y) > p := by
  induction xs generalizing s with
  | nil => simp
  | cons x t ih =>
    have hxt : x ∉ t := (List.nodup_cons.1 hxs).1
    rw [List.foldl_cons, ih (List.nodup_cons.1 hxs).2, b64_shared_row_balanced p x ys hys]
    have hhead : ∀ y, (t.foldl (fun t x => ys.foldl (fun u y => relaxCell p x y u) t)
          (ys.foldl (fun u y => relaxCell p x y u) s)).doubleMatrix x y
        = (ys.foldl (fun u y => relaxCell p x y u) s).doubleMatrix x y :=
      fun y => b64_shared_rows_frame p t ys _ x y (fun h => hxt h.1)
    have hold : ∀ x2 ∈ t, ∀ y, (ys.foldl (fun u y => relaxCell p x y u) s).doubleMatrix x2 y
        = s.doubleMatrix x2 y := by
      intro x2 hx2 y
      exact b64_shared_row_frame p x ys s x2 y (fun h => hxt (h.1 ▸ hx2))
    constructor
    · rintro ⟨⟨h1, h2⟩, h3⟩
      refine ⟨h1, ?_⟩
      intro x2 hx2 y hy
      rcases List.mem_cons.1 hx2 with h | h
      · subst h; rw [hhead]; exact h2 y hy
      · rw [← hold x2 h y]; exact h3 x2 h y hy
    · rintro ⟨h1, h2⟩
      refine ⟨⟨h1, ?_⟩, ?_⟩
      · intro y hy
        have := h2 x (List.mem_cons_self _ _) y hy
        rwa [hhead] at this
      · intro x2 hx2 y hy
        rw [hold x2 hx2 y]
        exact h2 x2 (List.mem_cons_of_mem _ hx2) y hy

theorem b64_workerPass_balanced (D : Int) (p : ℚ) (tid : Int) (s : Relaxation.SharedMemory.State) :
    (workerPass D p tid s).balanced = true ↔
      s.balanced = true ∧
        ∀ x y, 1 ≤ x → x ≤ D - 2 → 1 ≤ y → y ≤ D - 2 →
          ¬ fsub ((workerPass D p tid s).doubleMatrix x y) (s.doubleMatrix x y) > p := by
  unfold workerPass Relaxation.SharedMemory.workerRows
  rw [b64_shared_rows_balanced p _ _ (nodup_loopRange _ _) (nodup_loopRange _ _)]
  simp only [mem_loopRange]
  constructor
  · rintro ⟨hb, h⟩
    exact ⟨hb, fun x y h1 h2 h3 h4 => h x ⟨h1, by omega⟩ y ⟨h3, by omega⟩⟩
  · rintro ⟨hb, h⟩
    exact ⟨hb, fun x hx y hy => h x y hx.1 (by omega) hy.1 (by omega)⟩

end B64SharedFacts

section B64SharedMonotone

open Binary64 Binary64.SharedMemory

theorem b64_shared_average_mono (D : Int) (m m2 : Grid) (x y : Int)
    (hx : 1 ≤ x ∧ x ≤ D - 2) (hy : 1 ≤ y ∧ y ≤ D - 2)
    (h0 : ∀ i j, 0 ≤ i → i < D → 0 ≤ j → j < D → 0 ≤ m i j)
    (hle : ∀ i j, m i j ≤ m2 i j) :
    averageNeighbours m x y ≤ averageNeighbours m2 x y := by
  rw [b64_shared_average_eq, b64_shared_average_eq]
  exact sumDiv4_mono _ _ _ _ _ _ _ _
    (h0 (x - 1) y (by omega) (by omega) (by omega) (by omega))
    (h0 (x + 1) y (by omega) (by omega) (by omega) (by omega))
    (h0 x (y - 1) (by omega) (by omega) (by omega) (by omega))
    (h0 x (y + 1) (by omega) (by omega) (by omega) (by omega))
    (hle _ _) (hle _ _) (hle _ _) (hle _ _)

theorem subHarmonic_cell (D : Int) (m : Grid) (x y : Int)
    (hx : 1 ≤ x ∧ x ≤ D - 2) (hy : 1 ≤ y ∧ y ≤ D - 2) (h : SubHarmonic D m) :
    SubHarmonic D (setCell m x y (averageNeighbours m x y)) ∧
      ∀ i j, m i j ≤ setCell m x y (averageNeighbours m x y) i j := by
  have hv : m x y ≤ averageNeighbours m x y := h.2 x y hx.1 hx.2 hy.1 hy.2
  have hmono : ∀ i j, m i j ≤ setCell m x y (averageNeighbours m x y) i j := by
    intro i j
    unfold setCell
    split_ifs with hc
    · rw [hc.1, hc.2]; exact hv
    · exact le_refl _
  refine ⟨⟨?_, ?_⟩, hmono⟩
  · intro i j hi0 hi1 hj0 hj1
    exact le_trans (h.1 i j hi0 hi1 hj0 hj1) (hmono i j)
  · intro a b ha0 ha1 hb0 hb1
    have hup := b64_shared_average_mono D m (setCell m x y (averageNeighbours m x y)) a b
      ⟨ha0, ha1⟩ ⟨hb0, hb1⟩ h.1 hmono
    by_cases hc : a = x ∧ b = y
    · obtain ⟨rfl, rfl⟩ := hc
      have e : setCell m a b (averageNeighbours m a b) a b = averageNeighbours m a b := by
        simp [setCell]
      rw [e]
      exact hup
    · have e : setCell m x y (averageNeighbours m x y) a b = m a b := by
        unfold setCell
        rw [if_neg hc]
      rw [e]
      exact le_trans (h.2 a b ha0 ha1 hb0 hb1) hup

theorem subHarmonic_row (D : Int) (p : ℚ) (x : Int) (hx : 1 ≤ x ∧ x ≤ D - 2) (ys : List Int)
    (hys : ∀ y ∈ ys, 1 ≤ y ∧ y ≤ D - 2) (s : Relaxation.SharedMemory.State)
    (h : SubHarmonic D s.doubleMatrix) :
    SubHarmonic D (ys.foldl (fun u y => relaxCell p x y u) s).doubleMatrix ∧
      ∀ i j, s.doubleMatrix i j
        ≤ (ys.foldl (fun u y => relaxCell p x y u) s).doubleMatrix i j := by
  induction ys generalizing s with
  | nil => exact ⟨h, fun _ _ => le_refl _⟩
  | cons y t ih =>
    rw [List.foldl_cons]
    obtain ⟨h1, m1⟩ := subHarmonic_cell D s.doubleMatrix x y hx (hys y (List.mem_cons_self _ _)) h
    obtain ⟨h2, m2⟩ := ih (fun z hz => hys z (List.mem_cons_of_mem _ hz)) (relaxCell p x y s) h1
    exact ⟨h2, fun i j => le_trans (m1 i j) (m2 i j)⟩

theorem subHarmonic_rows (D : Int) (p : ℚ) (xs ys : List Int)
    (hxs : ∀ x ∈ xs, 1 ≤ x ∧ x ≤ D - 2) (hys : ∀ y ∈ ys, 1 ≤ y ∧ y ≤ D - 2)
    (s : Relaxation.SharedMemory.State) (h : SubHarmonic D s.doubleMatrix) :
    SubHarmonic D
        (xs.foldl (fun t x => ys.foldl (fun u y => relaxCell p x y u) t) s).doubleMatrix ∧
      ∀ i j, s.doubleMatrix i j
        ≤ (xs.foldl (fun t x => ys.foldl (fun u y => relaxCell p x y u) t) s).doubleMatrix i j := by
  induction xs generalizing s with
  | nil => exact ⟨h, fun _ _ => le_refl _⟩
  | cons x t ih =>
    rw [List.foldl_cons]
    obtain ⟨h1, m1⟩ := subHarmonic_row D p x (hxs x (List.mem_cons_self _ _)) ys hys s h
    obtain ⟨h2, m2⟩ := ih (fun z hz => hxs z (List.mem_cons_of_mem _ hz)) _ h1
    exact ⟨h2, fun i j => le_trans (m1 i j) (m2 i j)⟩

theorem subHarmonic_workerPass (D : Int) (p : ℚ) (tid : Int) (s : Relaxation.SharedMemory.State)
    (h : SubHarmonic D s.doubleMatrix) :
    SubHarmonic D (workerPass D p tid s).doubleMatrix ∧
      ∀ i j, s.doubleMatrix i j ≤ (workerPass D p tid s).doubleMatrix i j := by
  unfold workerPass Relaxation.SharedMemory.workerRows
  exact subHarmonic_rows D p _ _ (fun x hx => by rw [mem_loopRange] at hx; omega)
    (fun y hy => by rw [mem_loopRange] at hy; omega) s h

theorem subHarmonic_start (D : Int) (hD : 2 ≤ D) :
    SubHarmonic D (Relaxation.SharedMemory.createDoubleMatrix D) := by
  rw [shared_createDoubleMatrix_eq]
  have hval : ∀ i j, 0 ≤ i → i < D → 0 ≤ j → j < D →
      0 ≤ Relaxation.Sequential.createDoubleMatrix D i j := by
    intro i j hi0 hi1 hj0 hj1
    rw [seq_createDoubleMatrix_apply D hD i j ⟨hi0, hi1⟩ ⟨hj0, hj1⟩]
    split_ifs <;> norm_num
  refine ⟨hval, ?_⟩
  intro x y hx0 hx1 hy0 hy1
  rw [seq_createDoubleMatrix_apply D hD x y ⟨by omega, by omega⟩ ⟨by omega, by omega⟩,
    if_neg (by omega), b64_shared_average_eq]
  exact sumDiv4_nonneg _ _ _ _
    (hval (x - 1) y (by omega) (by omega) (by omega) (by omega))
    (hval (x + 1) y (by omega) (by omega) (by omega) (by omega))
    (hval x (y - 1) (by omega) (by omega) (by omega) (by omega))
    (hval x (y + 1) (by omega) (by omega) (by omega) (by omega))

theorem subHarmonic_of_reachable (D : Int) (hD : 2 ≤ D) (m : Grid) (h : WorkerReachable D m) :
    SubHarmonic D m := by
  induction h with
  | start => exact subHarmonic_start D hD
  | pass m p tid b _ ih => exact (subHarmonic_workerPass D p tid ⟨m, b⟩ ih).1

/-- C6 (amended): in binary64 arithmetic, for every `D ≥ 3`, every precision `p`
and every matrix the worker can find in the global `doubleMatrix` (the matrix
made by `createDoubleMatrix(D)`, or the outcome of earlier worker passes), when
a single worker runs one full pass of its loop body with no other worker
active, its `balanced` flag is false at the end of the pass if and only if the
pass updated some interior cell by more than `p`, the update of a cell being
measured as in the sibling engines, `fabs(new - old)`.  On these matrices no
update is negative, so the missing `fabs` makes no difference. -/
theorem binary64_worker_flag (D : Int) (p : ℚ) (tid : Int) (m : Grid) (hD : 3 ≤ D)
    (hreach : WorkerReachable D m) :
    ((workerPass D p tid ⟨m, true⟩).balanced = false ↔
        ∃ x y, 1 ≤ x ∧ x ≤ D - 2 ∧ 1 ≤ y ∧ y ≤ D - 2 ∧
          |fsub ((workerPass D p tid ⟨m, true⟩).doubleMatrix x y) (m x y)| > p) ∧
      ∀ x y, 1 ≤ x → x ≤ D - 2 → 1 ≤ y → y ≤ D - 2 →
        0 ≤ fsub ((workerPass D p tid ⟨m, true⟩).doubleMatrix x y) (m x y) := by
  have hsub := subHarmonic_of_reachable D (by omega) m hreach
  have hmono := (subHarmonic_workerPass D p tid ⟨m, true⟩ hsub).2
  have hnn : ∀ x y, 0 ≤ fsub ((workerPass D p tid ⟨m, true⟩).doubleMatrix x y) (m x y) :=
    fun x y => fsub_nonneg _ _ (hmono x y)
  refine ⟨?_, fun x y _ _ _ _ => hnn x y⟩
  rw [← Bool.not_eq_true, b64_workerPass_balanced]
  simp only [true_and]
  constructor
  · intro h
    push_neg at h
    obtain ⟨x, y, h1, h2, h3, h4, h5⟩ := h
    exact ⟨x, y, h1, h2, h3, h4, by rw [abs_of_nonneg (hnn x y)]; exact h5⟩
  · rintro ⟨x, y, h1, h2, h3, h4, h5⟩ hall
    rw [abs_of_nonneg (hnn x y)] at h5
    exact hall x y h1 h2 h3 h4 h5

end B64SharedMonotone

/-! ## Distributed engine in binary64 arithmetic -/

section B64DistributedFacts

open Distributed

theorem b64_dist_relaxCells_buffer (D : Int) (p : ℚ) (copy : Buf) (i : Int) (l : List Int)
    (s : LocalState) :
    (l.foldl (fun t ii => Binary64.Distributed.relaxCell D p copy i ii t) s).doubleMatrixBuffer
      = l.foldl (fun m ii => setElem m (i * D + ii) (Binary64.Distributed.averageNeighbours D copy
          ii i))
          s.doubleMatrixBuffer := by
  induction l generalizing s with
  | nil => rfl
  | cons y t ih => rw [List.foldl_cons, List.foldl_cons, ih]; rfl

theorem b64_dist_relaxCells_balanced (D : Int) (p : ℚ) (copy : Buf) (i : Int) (l : List Int)
    (s : LocalState) :
    (l.foldl (fun t ii => Binary64.Distributed.relaxCell D p copy i ii t) s).balanced = true ↔
      s.balanced = true ∧
        ∀ ii ∈ l, ¬ |Binary64.fsub (Binary64.Distributed.averageNeighbours D copy ii i)
            (getElemFromDoubleMatrix copy D ii i)| > p := by
  induction l generalizing s with
  | nil => simp
  | cons y t ih =>
    rw [List.foldl_cons, ih]
    have hflag : (Binary64.Distributed.relaxCell D p copy i y s).balanced = true ↔
        s.balanced = true ∧
          ¬ |Binary64.fsub (Binary64.Distributed.averageNeighbours D copy y i)
            (getElemFromDoubleMatrix copy D y i)| > p := by
      cases hb : s.balanced <;> by_cases hc :
        |Binary64.fsub (Binary64.Distributed.averageNeighbours D copy y i)
            (getElemFromDoubleMatrix copy D y i)| > p <;>
        simp [Binary64.Distributed.relaxCell, hb, hc]
    rw [hflag]
    simp only [List.mem_cons, forall_eq_or_imp]
    tauto

theorem b64_dist_relaxRows_buffer (D W : Int) (p : ℚ) (r : Int) (copy : Buf) (rows : List Int)
    (s : LocalState) :
    (rows.foldl (Binary64.Distributed.relaxRow D W p r copy) s).doubleMatrixBuffer
      = (rows.filter (fun i => decide (¬ (r = W - 1 ∧ i = numRowsPerProc D W r)))).foldl
          (fun m1 i => (loopRange 1 (D - 1)).foldl
            (fun m2 ii => setElem m2 (i * D + ii) (Binary64.Distributed.averageNeighbours D copy
                ii i)) m1)
          s.doubleMatrixBuffer := by
  induction rows generalizing s with
  | nil => rfl
  | cons i t ih =>
    rw [List.foldl_cons, ih]
    by_cases hskip : r = W - 1 ∧ i = numRowsPerProc D W r
    · rw [List.filter_cons_of_neg (by rw [decide_eq_true_eq]; exact not_not.2 hskip)]
      simp only [Binary64.Distributed.relaxRow, if_pos hskip]
    · rw [List.filter_cons_of_pos (by rw [decide_eq_true_eq]; exact hskip), List.foldl_cons]
      simp only [Binary64.Distributed.relaxRow, if_neg hskip, b64_dist_relaxCells_buffer]

theorem b64_dist_relaxRows_balanced (D W : Int) (p : ℚ) (r : Int) (copy : Buf) (rows : List Int)
    (s : LocalState) :
    (rows.foldl (Binary64.Distributed.relaxRow D W p r copy) s).balanced = true ↔
      s.balanced = true ∧
        ∀ i ∈ rows, ¬ (r = W - 1 ∧ i = numRowsPerProc D W r) → ∀ ii ∈ loopRange 1 (D - 1),
          ¬ |Binary64.fsub (Binary64.Distributed.averageNeighbours D copy ii i)
            (getElemFromDoubleMatrix copy D ii i)| > p := by
  induction rows generalizing s with
  | nil => simp
  | cons i t ih =>
    rw [List.foldl_cons, ih]
    have hrow : (Binary64.Distributed.relaxRow D W p r copy s i).balanced = true ↔
        s.balanced = true ∧ (¬ (r = W - 1 ∧ i = numRowsPerProc D W r) →
          ∀ ii ∈ loopRange 1 (D - 1),
            ¬ |Binary64.fsub (Binary64.Distributed.averageNeighbours D copy ii i)
            (getElemFromDoubleMatrix copy D ii i)| > p) := by
      by_cases hskip : r = W - 1 ∧ i = numRowsPerProc D W r
      · unfold Binary64.Distributed.relaxRow
        rw [if_pos hskip]
        exact ⟨fun h => ⟨h, fun h2 => absurd hskip h2⟩, fun h => h.1⟩
      · unfold Binary64.Distributed.relaxRow
        rw [if_neg hskip, b64_dist_relaxCells_balanced]
        exact ⟨fun h => ⟨h.1, fun _ => h.2⟩, fun h => ⟨h.1, h.2 hskip⟩⟩
    rw [hrow]
    simp only [List.mem_cons, forall_eq_or_imp]
    tauto

theorem b64_localRelaxation_buffer (D W : Int) (p : ℚ) (r : Int) (rk : Rank) (b j : Int)
    (hj : 0 ≤ j ∧ j < D) :
    (Binary64.Distributed.localRelaxation D W p r rk).1.doubleMatrixBuffer (b * D + j)
      = if b ∈ relaxedBufferRows D W r ∧ j ∈ loopRange 1 (D - 1) then
          Binary64.Distributed.averageNeighbours D (Binary64.Distributed.localRelaxation D W p r
              rk).1.doubleMatrixBufferCopy j b
        else rk.doubleMatrixBuffer (b * D + j) := by
  unfold Binary64.Distributed.localRelaxation
  simp only
  rw [b64_dist_relaxRows_buffer]
  exact foldl_setElem_grid D _ _ _ (fun y hy => by rw [mem_loopRange] at hy; omega) _ b j hj

theorem b64_localRelaxation_balanced (D W : Int) (p : ℚ) (r : Int) (rk : Rank) :
    (Binary64.Distributed.localRelaxation D W p r rk).2 = true ↔
      ∀ i ∈ relaxedBufferRows D W r, ∀ ii ∈ loopRange 1 (D - 1),
        ¬ |Binary64.fsub (Binary64.Distributed.averageNeighbours D
            (Binary64.Distributed.localRelaxation D W p r rk).1.doubleMatrixBufferCopy ii i)
            (getElemFromDoubleMatrix (Binary64.Distributed.localRelaxation D W p r
                rk).1.doubleMatrixBufferCopy D ii i)|
          > p := by
  unfold Binary64.Distributed.localRelaxation
  simp only
  rw [b64_dist_relaxRows_balanced]
  simp only [true_and]
  constructor
  · intro h i hi
    unfold relaxedBufferRows at hi
    rw [List.mem_filter, decide_eq_true_eq] at hi
    exact h i hi.1 hi.2
  · intro h i hi hskip
    apply h
    unfold relaxedBufferRows
    rw [List.mem_filter, decide_eq_true_eq]
    exact ⟨hi, hskip⟩

theorem b64_localRelaxation_copy (D W : Int) (p : ℚ) (r : Int) (rk : Rank) :
    (Binary64.Distributed.localRelaxation D W p r rk).1.doubleMatrixBufferCopy
      = transfer ((computeCounts D W).sendCounts r) rk.doubleMatrixBuffer 0
          rk.doubleMatrixBufferCopy 0 := rfl

theorem b64_copy_holds (D W : Int) (p : ℚ) (g : Grid) (ranks : Int → Rank)
    (hW : 2 ≤ W) (hWD : W ≤ D)
    (hown : ∀ r, 0 ≤ r → r < W → ∀ b, (if r = 0 then 0 else 1) ≤ b →
      b ≤ numRowsPerProc D W r → ∀ j, 0 ≤ j ∧ j < D →
        (ranks r).doubleMatrixBuffer (b * D + j) = g (b + firstHeldRow D W r) j)
    (r : Int) (h0 : 0 ≤ r) (h1 : r < W) (b : Int) (hb0 : 0 ≤ b)
    (hb1 : b ≤ numRowsPerProc D W r + (if r = W - 1 then 0 else 1))
    (j : Int) (hj : 0 ≤ j ∧ j < D) :
    ((Binary64.Distributed.iteration D W p ranks).ranks r).doubleMatrixBufferCopy (b * D + j)
      = g (b + firstHeldRow D W r) j := by
  unfold Binary64.Distributed.iteration
  simp only
  rw [b64_localRelaxation_copy]
  simp only
  unfold transfer
  have hlt : b < numRowsPerProc D W r + (if r = W - 1 then 1 else 2) := by
    split_ifs at hb1 ⊢ <;> omega
  have hin := flat_bounds hj hb0 hlt
  rw [if_pos (by rw [sendCounts_eq D W r h0 h1]; omega)]
  have e : (0 : Int) + (b * D + j - 0) = b * D + j := by omega
  rw [e]
  exact exchanged_holds D W g (fun r => (ranks r).doubleMatrixBuffer) hW hWD hown r h0 h1 b hb0
    hb1 j hj

theorem b64_iteration_buffer (D W : Int) (p : ℚ) (ranks : Int → Rank) (r b j : Int)
    (hj : 0 ≤ j ∧ j < D) :
    ((Binary64.Distributed.iteration D W p ranks).ranks r).doubleMatrixBuffer (b * D + j)
      = if b ∈ relaxedBufferRows D W r ∧ j ∈ loopRange 1 (D - 1) then
          Binary64.Distributed.averageNeighbours D ((Binary64.Distributed.iteration D W p
              ranks).ranks r).doubleMatrixBufferCopy j b
        else exchangeDown D W (exchangeUp D W (fun r => (ranks r).doubleMatrixBuffer)) r
          (b * D + j) := by
  unfold Binary64.Distributed.iteration
  simp only
  rw [b64_localRelaxation_buffer D W p r _ b j hj]

theorem b64_iteration_balanced (D W : Int) (p : ℚ) (ranks : Int → Rank) (r : Int) :
    (Binary64.Distributed.iteration D W p ranks).balanced r = true ↔
      ∀ i ∈ relaxedBufferRows D W r, ∀ ii ∈ loopRange 1 (D - 1),
        ¬ |Binary64.fsub (Binary64.Distributed.averageNeighbours D
            ((Binary64.Distributed.iteration D W p ranks).ranks r).doubleMatrixBufferCopy ii i)
            (getElemFromDoubleMatrix ((Binary64.Distributed.iteration D W p ranks).ranks
                r).doubleMatrixBufferCopy D ii i)| > p := by
  unfold Binary64.Distributed.iteration
  simp only
  rw [b64_localRelaxation_balanced]

theorem b64_iteration_done (D W : Int) (p : ℚ) (ranks : Int → Rank) (r : Int) :
    (Binary64.Distributed.iteration D W p ranks).done r
      = checkBalanced (Binary64.Distributed.iteration D W p ranks).balanced (loopRange 0 W) := rfl

end B64DistributedFacts

section B64DistributedClaim

open Distributed

theorem b64_rank_stencil (D W : Int) (p : ℚ) (g : Grid) (ranks : Int → Rank)
    (hW : 2 ≤ W) (hWD : W ≤ D)
    (hown : ∀ r, 0 ≤ r → r < W → ∀ b, (if r = 0 then 0 else 1) ≤ b →
      b ≤ numRowsPerProc D W r → ∀ j, 0 ≤ j ∧ j < D →
        (ranks r).doubleMatrixBuffer (b * D + j) = g (b + firstHeldRow D W r) j)
    (r : Int) (h0 : 0 ≤ r) (h1 : r < W) (b : Int) (hb : b ∈ relaxedBufferRows D W r)
    (j : Int) (hj : j ∈ loopRange 1 (D - 1)) :
    Binary64.Distributed.averageNeighbours D
          ((Binary64.Distributed.iteration D W p ranks).ranks r).doubleMatrixBufferCopy j b
        = Binary64.sumDiv4 (g (b + firstHeldRow D W r) (j - 1)) (g (b + firstHeldRow D W r) (j + 1))
            (g (b + firstHeldRow D W r + 1) j) (g (b + firstHeldRow D W r - 1) j) ∧
      getElemFromDoubleMatrix
          ((Binary64.Distributed.iteration D W p ranks).ranks r).doubleMatrixBufferCopy D j b
        = g (b + firstHeldRow D W r) j := by
  rw [relaxedBufferRows_iff] at hb
  rw [mem_loopRange] at hj
  obtain ⟨hb0, hb1, hb2⟩ := hb
  have hup : b + 1 ≤ numRowsPerProc D W r + (if r = W - 1 then 0 else 1) := by
    split_ifs with hr
    · have : b ≠ numRowsPerProc D W r := fun h => hb2 ⟨hr, h⟩
      omega
    · omega
  have hmid : b ≤ numRowsPerProc D W r + (if r = W - 1 then 0 else 1) := by omega
  have c1 := b64_copy_holds D W p g ranks hW hWD hown r h0 h1 b (by omega) hmid (j - 1)
    (by omega)
  have c2 := b64_copy_holds D W p g ranks hW hWD hown r h0 h1 b (by omega) hmid (j + 1)
    (by omega)
  have c3 := b64_copy_holds D W p g ranks hW hWD hown r h0 h1 (b + 1) (by omega) hup j
    (by omega)
  have c4 := b64_copy_holds D W p g ranks hW hWD hown r h0 h1 (b - 1) (by omega) (by omega) j
    (by omega)
  have c5 := b64_copy_holds D W p g ranks hW hWD hown r h0 h1 b (by omega) hmid j (by omega)
  unfold Binary64.Distributed.averageNeighbours getElemFromDoubleMatrix Binary64.sumDiv4
  rw [c1, c2, c3, c4, c5]
  have e1 : b + 1 + firstHeldRow D W r = b + firstHeldRow D W r + 1 := by omega
  have e2 : b - 1 + firstHeldRow D W r = b + firstHeldRow D W r - 1 := by omega
  rw [e1, e2]
  exact ⟨rfl, rfl⟩

theorem held_index (D W : Int) (hW : 2 ≤ W) (r : Int) (h0 : 0 ≤ r) (h1 : r < W) (b j : Int) :
    (b + firstHeldRow D W r) * D + j - (computeCounts D W).sendDisplacements r = b * D + j := by
  rw [sendDisplacements_eq D W r hW h0 h1]
  ring

theorem held_buffers (D W : Int) (s : Sequential.State)
    (ranks : Int → Rank) (hW : 2 ≤ W) (hWD : W ≤ D)
    (hheld : ∀ r, 0 ≤ r → r < W → ∀ x ∈ Spec.ownedRows D W r, ∀ j, 0 ≤ j → j < D →
      (ranks r).doubleMatrixBuffer (x * D + j - (computeCounts D W).sendDisplacements r)
        = s.doubleMatrix x j) :
    ∀ r, 0 ≤ r → r < W → ∀ b, (if r = 0 then 0 else 1) ≤ b →
      b ≤ numRowsPerProc D W r → ∀ j, 0 ≤ j ∧ j < D →
        (ranks r).doubleMatrixBuffer (b * D + j) = s.doubleMatrix (b + firstHeldRow D W r) j := by
  intro r h0 h1 b hb0 hb1 j hj
  have hmem : b + firstHeldRow D W r ∈ Spec.ownedRows D W r := by
    rw [ownedRows_iff D W r _ hW hWD h0 h1]
    constructor <;> omega
  rw [← hheld r h0 h1 _ hmem j hj.1 hj.2, held_index D W hW r h0 h1]

theorem b64_iteration_cells (D W : Int) (p : ℚ) (s : Sequential.State)
    (ranks : Int → Rank) (hW : 2 ≤ W) (hWD : W ≤ D)
    (hheld : ∀ r, 0 ≤ r → r < W → ∀ x ∈ Spec.ownedRows D W r, ∀ j, 0 ≤ j → j < D →
      (ranks r).doubleMatrixBuffer (x * D + j - (computeCounts D W).sendDisplacements r)
        = s.doubleMatrix x j) :
    ∀ r, 0 ≤ r → r < W → ∀ x ∈ Spec.ownedRows D W r, ∀ j, 0 ≤ j → j < D →
      ((Binary64.Distributed.iteration D W p ranks).ranks r).doubleMatrixBuffer
          (x * D + j - (computeCounts D W).sendDisplacements r)
        = if (1 ≤ x ∧ x ≤ D - 2) ∧ (1 ≤ j ∧ j ≤ D - 2) then
            Binary64.sumDiv4 (s.doubleMatrix x (j - 1)) (s.doubleMatrix x (j + 1))
              (s.doubleMatrix (x + 1) j) (s.doubleMatrix (x - 1) j)
          else s.doubleMatrix x j := by
  have hown := held_buffers D W s ranks hW hWD hheld
  intro r h0 h1 x hx j hj0 hj1
  rw [ownedRows_iff D W r x hW hWD h0 h1] at hx
  obtain ⟨b, rfl⟩ : ∃ b, x = b + firstHeldRow D W r := ⟨x - firstHeldRow D W r, by omega⟩
  have hb0 : (if r = 0 then 0 else 1) ≤ b := by have := hx.1; omega
  have hb1 : b ≤ numRowsPerProc D W r := by have := hx.2; omega
  have hb00 : 0 ≤ b := by split_ifs at hb0 <;> omega
  rw [held_index D W hW r h0 h1, b64_iteration_buffer D W p ranks r b j ⟨hj0, hj1⟩]
  have hint := interior_iff_relaxed D W r b hW hWD h0 h1 hb0 hb1
  by_cases hrel : b ∈ relaxedBufferRows D W r ∧ j ∈ loopRange 1 (D - 1)
  · have hj' := mem_loopRange.1 hrel.2
    rw [if_pos hrel, if_pos ⟨hint.2 hrel.1, hj'.1, by omega⟩]
    exact (b64_rank_stencil D W p s.doubleMatrix ranks hW hWD hown r h0 h1 b hrel.1 j hrel.2).1
  · rw [if_neg hrel, if_neg]
    · exact exchanged_holds D W s.doubleMatrix _ hW hWD hown r h0 h1 b hb00
        (by split_ifs <;> omega) j ⟨hj0, hj1⟩
    · rintro ⟨h2, h3, h4⟩
      exact hrel ⟨hint.1 h2, mem_loopRange.2 ⟨h3, by omega⟩⟩

theorem b64_iteration_done_iff (D W : Int) (p : ℚ) (s : Sequential.State)
    (ranks : Int → Rank) (hW : 2 ≤ W) (hWD : W ≤ D)
    (hheld : ∀ r, 0 ≤ r → r < W → ∀ x ∈ Spec.ownedRows D W r, ∀ j, 0 ≤ j → j < D →
      (ranks r).doubleMatrixBuffer (x * D + j - (computeCounts D W).sendDisplacements r)
        = s.doubleMatrix x j) :
    ∀ r, 0 ≤ r → r < W →
      ((Binary64.Distributed.iteration D W p ranks).done r = true ↔
        ∀ x y, 1 ≤ x → x ≤ D - 2 → 1 ≤ y → y ≤ D - 2 →
          ¬ |Binary64.fsub
              (Binary64.sumDiv4 (s.doubleMatrix x (y - 1)) (s.doubleMatrix x (y + 1))
                (s.doubleMatrix (x + 1) y) (s.doubleMatrix (x - 1) y))
              (s.doubleMatrix x y)| > p) := by
  have hown := held_buffers D W s ranks hW hWD hheld
  intro r _ _
  rw [b64_iteration_done, checkBalanced_iff]
  constructor
  · intro h x y hx0 hx1 hy0 hy1
    obtain ⟨k, hk0, hk1, hk⟩ := interior_row_owned D W x hW hWD hx0 hx1
    rw [ownedRows_iff D W k x hW hWD hk0 hk1] at hk
    obtain ⟨b, rfl⟩ : ∃ b, x = b + firstHeldRow D W k := ⟨x - firstHeldRow D W k, by omega⟩
    have hb0 : (if k = 0 then 0 else 1) ≤ b := by have := hk.1; omega
    have hb1 : b ≤ numRowsPerProc D W k := by have := hk.2; omega
    have hrel := (interior_iff_relaxed D W k b hW hWD hk0 hk1 hb0 hb1).1 ⟨hx0, hx1⟩
    have hcol : y ∈ loopRange 1 (D - 1) := mem_loopRange.2 ⟨hy0, by omega⟩
    have hbal := (b64_iteration_balanced D W p ranks k).1 (h k (mem_loopRange.2 ⟨hk0, hk1⟩))
      b hrel y hcol
    obtain ⟨e1, e2⟩ := b64_rank_stencil D W p s.doubleMatrix ranks hW hWD hown k hk0 hk1 b
      hrel y hcol
    rwa [e1, e2] at hbal
  · intro h k hk
    rw [mem_loopRange] at hk
    rw [b64_iteration_balanced]
    intro b hb y hy
    obtain ⟨e1, e2⟩ := b64_rank_stencil D W p s.doubleMatrix ranks hW hWD hown k hk.1 hk.2 b
      hb y hy
    rw [e1, e2]
    have hb' := (relaxedBufferRows_iff D W k b).1 hb
    have hint := (interior_iff_relaxed D W k b hW hWD hk.1 hk.2
      (by split_ifs <;> omega) hb'.2.1).2 hb
    have hy' := mem_loopRange.1 hy
    exact h _ y hint.1 hint.2 hy'.1 (by omega)

/-- C2 (amended): in binary64 arithmetic, for `2 ≤ W ≤ D`, if the working buffer
of every rank holds that rank's owned rows of the matrix `g` of a sequential
state (ghost rows arbitrary), then after one iteration of the main loop (ghost
exchange, snapshot, local relaxation, gather, broadcast):
every interior cell `(x, j)` of an owned row holds the stencil of the
distributed engine on `g`, that is `g[x][j-1] + g[x][j+1] + g[x+1][j] + g[x-1][j]`
added in this order and divided by 4, and every other cell of an owned row is
unchanged; the value `done` seen by every rank is the conjunction of all
ranks' `balanced` flags, and it is true exactly when no interior cell has
`fabs(new - old) > p`; and whenever the stencil of the distributed engine and
the stencil of the sequential engine (which adds up, down, left, right) give
the same double at every interior cell of `g`, the owned rows are the rows of
one sequential pass on `g` and `done` is the stop decision of the sequential
engine for that pass. -/
theorem binary64_iteration_jacobi (D W : Int) (p : ℚ) (s : Sequential.State)
    (ranks : Int → Rank) (hW : 2 ≤ W) (hWD : W ≤ D) (hs : s.balanced = true)
    (hheld : ∀ r, 0 ≤ r → r < W → ∀ x ∈ Spec.ownedRows D W r, ∀ j, 0 ≤ j → j < D →
      (ranks r).doubleMatrixBuffer (x * D + j - (computeCounts D W).sendDisplacements r)
        = s.doubleMatrix x j) :
    (∀ r, 0 ≤ r → r < W → ∀ x ∈ Spec.ownedRows D W r, ∀ j, 0 ≤ j → j < D →
      ((Binary64.Distributed.iteration D W p ranks).ranks r).doubleMatrixBuffer
          (x * D + j - (computeCounts D W).sendDisplacements r)
        = if (1 ≤ x ∧ x ≤ D - 2) ∧ (1 ≤ j ∧ j ≤ D - 2) then
            Binary64.sumDiv4 (s.doubleMatrix x (j - 1)) (s.doubleMatrix x (j + 1))
              (s.doubleMatrix (x + 1) j) (s.doubleMatrix (x - 1) j)
          else s.doubleMatrix x j) ∧
    (∀ r, 0 ≤ r → r < W →
      (Binary64.Distributed.iteration D W p ranks).done r
        = (loopRange 0 W).all (fun i => (Binary64.Distributed.iteration D W p ranks).balanced i)) ∧
    (∀ r, 0 ≤ r → r < W →
      ((Binary64.Distributed.iteration D W p ranks).done r = true ↔
        ∀ x y, 1 ≤ x → x ≤ D - 2 → 1 ≤ y → y ≤ D - 2 →
          ¬ |Binary64.fsub
              (Binary64.sumDiv4 (s.doubleMatrix x (y - 1)) (s.doubleMatrix x (y + 1))
                (s.doubleMatrix (x + 1) y) (s.doubleMatrix (x - 1) y))
              (s.doubleMatrix x y)| > p)) ∧
    ((∀ x y, 1 ≤ x → x ≤ D - 2 → 1 ≤ y → y ≤ D - 2 →
        Binary64.sumDiv4 (s.doubleMatrix x (y - 1)) (s.doubleMatrix x (y + 1))
            (s.doubleMatrix (x + 1) y) (s.doubleMatrix (x - 1) y)
          = Binary64.Sequential.averageNeighbours s.doubleMatrix x y) →
      (∀ r, 0 ≤ r → r < W → ∀ x ∈ Spec.ownedRows D W r, ∀ j, 0 ≤ j → j < D →
        ((Binary64.Distributed.iteration D W p ranks).ranks r).doubleMatrixBuffer
            (x * D + j - (computeCounts D W).sendDisplacements r)
          = (Binary64.Sequential.relaxationPass D p s).doubleMatrix x j) ∧
      (∀ r, 0 ≤ r → r < W →
        (Binary64.Distributed.iteration D W p ranks).done r
          = (Binary64.Sequential.relaxationPass D p s).balanced)) := by
  have hcells := b64_iteration_cells D W p s ranks hW hWD hheld
  have hdone := b64_iteration_done_iff D W p s ranks hW hWD hheld
  refine ⟨hcells, ?_, hdone, ?_⟩
  · intro r _ _
    rw [b64_iteration_done, checkBalanced_eq_all]
  · intro hagree
    constructor
    · intro r h0 h1 x hx j hj0 hj1
      rw [hcells r h0 h1 x hx j hj0 hj1, b64_relaxationPass_matrix]
      split_ifs with hint
      · exact hagree x j hint.1.1 hint.1.2 hint.2.1 hint.2.2
      · rfl
    · intro r h0 h1
      rw [Bool.eq_iff_iff, hdone r h0 h1, b64_relaxationPass_balanced]
      constructor
      · intro h
        refine ⟨hs, ?_⟩
        intro x y hx0 hx1 hy0 hy1
        rw [← hagree x y hx0 hx1 hy0 hy1]
        exact h x y hx0 hx1 hy0 hy1
      · rintro ⟨_, h⟩ x y hx0 hx1 hy0 hy1
        rw [hagree x y hx0 hx1 hy0 hy1]
        exact h x y hx0 hx1 hy0 hy1

end B64DistributedClaim

/-! ## Stencil operator in binary64 arithmetic -/

section B64Stencil

open Binary64

theorem sumDiv4_exact (a b c d : ℚ) (h1 : Representable (a + b)) (h2 : Representable (a + b + c))
    (h3 : Representable (a + b + c + d)) (h4 : Representable ((a + b + c + d) / 4)) :
    sumDiv4 a b c d = (a + b + c + d) / 4 := by
  unfold Representable at h1 h2 h3 h4
  unfold sumDiv4 fdiv fadd
  rw [h1, h2, h3, h4]

/-- C11 (amended): in binary64 arithmetic, `averageNeighbours` of the sequential
and of the shared-memory engine returns `up + down + left + right`, added in
this order with every addition rounded, divided by 4; for every `D`, every grid
`g` with row-major flattening `f` and every interior row `i` and column `j`,
`averageNeighbours(f, j, i)` of the distributed engine reads the same four
cells and returns `left + right + down + up`, added in this order, divided by
4.  When the partial sums of both orders and the mean are binary64 numbers, all
versions return the exact mean and agree; when the four neighbours lie in
`[0, 1]`, every version is within `7 * 2^-55` of the exact mean, so two
versions differ by at most `14 * 2^-55`. -/
theorem binary64_stencil_orders (D : Int) (g : Grid) (f : Buf) (i j : Int)
    (hflat : ∀ r c, 0 ≤ r → r < D → 0 ≤ c → c < D → f (r * D + c) = g r c)
    (hi : 1 ≤ i ∧ i ≤ D - 2) (hj : 1 ≤ j ∧ j ≤ D - 2) :
    Binary64.Sequential.averageNeighbours g i j
        = fdiv (fadd (fadd (fadd (g (i - 1) j) (g (i + 1) j)) (g i (j - 1))) (g i (j + 1))) 4 ∧
      Binary64.SharedMemory.averageNeighbours g i j
        = fdiv (fadd (fadd (fadd (g (i - 1) j) (g (i + 1) j)) (g i (j - 1))) (g i (j + 1))) 4 ∧
      Binary64.Distributed.averageNeighbours D f j i
        = fdiv (fadd (fadd (fadd (g i (j - 1)) (g i (j + 1))) (g (i + 1) j)) (g (i - 1) j)) 4 ∧
      (Representable (g (i - 1) j + g (i + 1) j) →
        Representable (g (i - 1) j + g (i + 1) j + g i (j - 1)) →
        Representable (g i (j - 1) + g i (j + 1)) →
        Representable (g i (j - 1) + g i (j + 1) + g (i + 1) j) →
        Representable (g (i - 1) j + g (i + 1) j + g i (j - 1) + g i (j + 1)) →
        Representable ((g (i - 1) j + g (i + 1) j + g i (j - 1) + g i (j + 1)) / 4) →
          Binary64.Sequential.averageNeighbours g i j
              = (g (i - 1) j + g (i + 1) j + g i (j - 1) + g i (j + 1)) / 4 ∧
            Binary64.Distributed.averageNeighbours D f j i
              = Binary64.Sequential.averageNeighbours g i j ∧
            Binary64.Distributed.averageNeighbours D f j i
              = Binary64.SharedMemory.averageNeighbours g i j) ∧
      ((0 ≤ g (i - 1) j ∧ g (i - 1) j ≤ 1) → (0 ≤ g (i + 1) j ∧ g (i + 1) j ≤ 1) →
        (0 ≤ g i (j - 1) ∧ g i (j - 1) ≤ 1) → (0 ≤ g i (j + 1) ∧ g i (j + 1) ≤ 1) →
          |Binary64.Sequential.averageNeighbours g i j
              - (g (i - 1) j + g (i + 1) j + g i (j - 1) + g i (j + 1)) / 4| ≤ 7 * pow2 (-55) ∧
            |Binary64.Distributed.averageNeighbours D f j i
              - (g (i - 1) j + g (i + 1) j + g i (j - 1) + g i (j + 1)) / 4| ≤ 7 * pow2 (-55) ∧
            |Binary64.Distributed.averageNeighbours D f j i
              - Binary64.Sequential.averageNeighbours g i j| ≤ 14 * pow2 (-55)) := by
  have hdist : Binary64.Distributed.averageNeighbours D f j i
      = sumDiv4 (g i (j - 1)) (g i (j + 1)) (g (i + 1) j) (g (i - 1) j) := by
    unfold Binary64.Distributed.averageNeighbours Distributed.getElemFromDoubleMatrix
    rw [hflat i (j - 1) (by omega) (by omega) (by omega) (by omega),
      hflat i (j + 1) (by omega) (by omega) (by omega) (by omega),
      hflat (i + 1) j (by omega) (by omega) (by omega) (by omega),
      hflat (i - 1) j (by omega) (by omega) (by omega) (by omega)]
    rfl
  have hseq : Binary64.Sequential.averageNeighbours g i j
      = sumDiv4 (g (i - 1) j) (g (i + 1) j) (g i (j - 1)) (g i (j + 1)) := rfl
  have hshared : Binary64.SharedMemory.averageNeighbours g i j
      = Binary64.Sequential.averageNeighbours g i j := rfl
  refine ⟨rfl, rfl, hdist, ?_, ?_⟩
  · intro r1 r2 r3 r4 r5 r6
    have e1 := sumDiv4_exact _ _ _ _ r1 r2 r5 r6
    have hsum : g i (j - 1) + g i (j + 1) + g (i + 1) j + g (i - 1) j
        = g (i - 1) j + g (i + 1) j + g i (j - 1) + g i (j + 1) := by ring
    have e2 := sumDiv4_exact (g i (j - 1)) (g i (j + 1)) (g (i + 1) j) (g (i - 1) j) r3 r4
      (by rw [hsum]; exact r5) (by rw [hsum]; exact r6)
    rw [hsum] at e2
    rw [hshared, hdist, hseq, e1, e2]
    exact ⟨rfl, rfl, rfl⟩
  · intro u1 u2 u3 u4
    have e1 := sumDiv4_error _ _ _ _ u1 u2 u3 u4
    have e2 := sumDiv4_error _ _ _ _ u3 u4 u2 u1
    have hsum : (g i (j - 1) + g i (j + 1) + g (i + 1) j + g (i - 1) j) / 4
        = (g (i - 1) j + g (i + 1) j + g i (j - 1) + g i (j + 1)) / 4 := by ring
    rw [hsum] at e2
    rw [hdist, hseq]
    refine ⟨e1, e2, ?_⟩
    rw [abs_le] at e1 e2 ⊢
    constructor <;> linarith [e1.1, e1.2, e2.1, e2.2]

end B64Stencil

/-! ## Evaluation of the sequential engine on listed matrices -/

section B64Tables

open Binary64 Binary64.Sequential

theorem getD_map_loopRange {α : Type} (f : Int → α) (D i : Int) (d : α) (h0 : 0 ≤ i)
    (h1 : i < D) : (List.map f (loopRange 0 D)).getD i.toNat d = f i := by
  unfold loopRange
  rw [List.getD_eq_getElem?_getD, List.map_map, List.getElem?_map,
    List.getElem?_range (by omega)]
  simp only [Option.map_some', Option.getD_some, Function.comp_apply]
  congr 1
  omega

theorem tableGrid_gridTable (D : Int) (m : Grid) (i j : Int) (hi0 : 0 ≤ i) (hi1 : i < D)
    (hj0 : 0 ≤ j) (hj1 : j < D) : tableGrid (gridTable D m) i j = m i j := by
  unfold tableGrid gridTable
  rw [if_pos ⟨hi0, hj0⟩, getD_map_loopRange _ D i [] hi0 hi1, getD_map_loopRange _ D j 0 hj0 hj1]

theorem b64_average_congr (D : Int) (m m2 : Grid)
    (h : ∀ i j, 0 ≤ i → i < D → 0 ≤ j → j < D → m i j = m2 i j) (x y : Int)
    (hx : 1 ≤ x ∧ x ≤ D - 2) (hy : 1 ≤ y ∧ y ≤ D - 2) :
    averageNeighbours m x y = averageNeighbours m2 x y := by
  unfold averageNeighbours
  rw [h (x - 1) y (by omega) (by omega) (by omega) (by omega),
    h (x + 1) y (by omega) (by omega) (by omega) (by omega),
    h x (y - 1) (by omega) (by omega) (by omega) (by omega),
    h x (y + 1) (by omega) (by omega) (by omega) (by omega)]

theorem tablePass_agrees (D : Int) (p : ℚ) (s : Sequential.State) (t : List (List ℚ))
    (h : ∀ i j, 0 ≤ i → i < D → 0 ≤ j → j < D → s.doubleMatrix i j = tableGrid t i j) :
    ∀ i j, 0 ≤ i → i < D → 0 ≤ j → j < D →
      (relaxationPass D p s).doubleMatrix i j = tableGrid (tablePass D t) i j := by
  intro i j hi0 hi1 hj0 hj1
  unfold tablePass
  rw [tableGrid_gridTable D _ i j hi0 hi1 hj0 hj1, b64_relaxationPass_matrix]
  split_ifs with hc
  · exact b64_average_congr D _ _ h i j hc.1 hc.2
  · exact h i j hi0 hi1 hj0 hj1

theorem tableBalanced_agrees (D : Int) (p : ℚ) (s : Sequential.State) (t : List (List ℚ))
    (hs : s.balanced = true)
    (h : ∀ i j, 0 ≤ i → i < D → 0 ≤ j → j < D → s.doubleMatrix i j = tableGrid t i j) :
    (relaxationPass D p s).balanced = tableBalanced D p t := by
  rw [Bool.eq_iff_iff, b64_relaxationPass_balanced]
  unfold tableBalanced
  simp only [List.all_eq_true, mem_loopRange, decide_eq_true_eq]
  constructor
  · rintro ⟨_, hall⟩ x hx y hy
    rw [← b64_average_congr D _ _ h x y ⟨hx.1, by omega⟩ ⟨hy.1, by omega⟩,
      ← h x y (by omega) (by omega) (by omega) (by omega)]
    exact hall x y hx.1 (by omega) hy.1 (by omega)
  · intro hall
    refine ⟨hs, ?_⟩
    intro x y h1 h2 h3 h4
    rw [b64_average_congr D _ _ h x y ⟨h1, h2⟩ ⟨h3, h4⟩,
      h x y (by omega) (by omega) (by omega) (by omega)]
    exact hall x ⟨h1, by omega⟩ y ⟨h3, by omega⟩

theorem tableRun_agrees (D : Int) (p : ℚ) :
    ∀ (n : Nat) (s : Sequential.State) (t t2 : List (List ℚ)), s.balanced = true →
      (∀ i j, 0 ≤ i → i < D → 0 ≤ j → j < D → s.doubleMatrix i j = tableGrid t i j) →
      tableRun D p n t = some t2 →
      (∀ fuel, relaxationLoop D p (n + fuel) s = relaxationLoop D p fuel ((nextState D p)^[n] s)) ∧
        ((nextState D p)^[n] s).balanced = true ∧
        ∀ i j, 0 ≤ i → i < D → 0 ≤ j → j < D →
          ((nextState D p)^[n] s).doubleMatrix i j = tableGrid t2 i j := by
  intro n
  induction n with
  | zero =>
    intro s t t2 hs h hrun
    simp only [tableRun, Option.some.injEq] at hrun
    subst hrun
    exact ⟨fun fuel => by simp, hs, h⟩
  | succ n ih =>
    intro s t t2 hs h hrun
    unfold tableRun at hrun
    split_ifs at hrun with hb
    have hflag : (relaxationPass D p s).balanced = false := by
      rw [tableBalanced_agrees D p s t hs h]
      simpa using hb
    have hnext : ∀ i j, 0 ≤ i → i < D → 0 ≤ j → j < D →
        (nextState D p s).doubleMatrix i j = tableGrid (tablePass D t) i j :=
      tablePass_agrees D p s t h
    obtain ⟨i1, i2, i3⟩ := ih (nextState D p s) (tablePass D t) t2 rfl hnext hrun
    refine ⟨?_, ?_, ?_⟩
    · intro fuel
      rw [Function.iterate_succ_apply, ← i1 fuel]
      have e : n + 1 + fuel = (n + fuel) + 1 := by omega
      rw [e]
      conv_lhs => unfold relaxationLoop
      simp [hflag]
    · rw [Function.iterate_succ_apply]; exact i2
    · rw [Function.iterate_succ_apply]; exact i3

theorem b64_loop_one (D : Int) (p : ℚ) (s : Sequential.State)
    (h : (relaxationPass D p s).balanced = true) :
    relaxationLoop D p 1 s = some (relaxationPass D p s) := by
  unfold relaxationLoop
  simp [h]

theorem initialState_agrees (D : Int) (hD : 2 ≤ D) :
    ∀ i j, 0 ≤ i → i < D → 0 ≤ j → j < D →
      (Sequential.initialState D).doubleMatrix i j
        = tableGrid (gridTable D (fun i j => if i = 0 ∨ j = 0 then 1 else 0)) i j := by
  intro i j hi0 hi1 hj0 hj1
  rw [tableGrid_gridTable D _ i j hi0 hi1 hj0 hj1]
  exact seq_createDoubleMatrix_apply D hD i j ⟨hi0, hi1⟩ ⟨hj0, hj1⟩

end B64Tables

/-! ## Evaluation on concrete inputs -/

section B64Counterexamples

open Binary64

theorem heldRanks_holds (D W : Int) (g : Grid) (hD : 0 < D) :
    ∀ r, 0 ≤ r → r < W → ∀ x ∈ Spec.ownedRows D W r, ∀ j, 0 ≤ j → j < D →
      (heldRanks D W g r).doubleMatrixBuffer
          (x * D + j - (Distributed.computeCounts D W).sendDisplacements r)
        = g x j := by
  intro r _ _ x _ j hj0 hj1
  unfold heldRanks
  simp only
  have e : (Distributed.computeCounts D W).sendDisplacements r
      + (x * D + j - (Distributed.computeCounts D W).sendDisplacements r) = j + D * x := by ring
  rw [e, Int.add_mul_ediv_left _ _ (by omega), Int.add_mul_emod_self_left,
    Int.ediv_eq_zero_of_lt hj0 hj1, Int.emod_eq_of_lt hj0 hj1, zero_add]

theorem flatten_apply (D : Int) (g : Grid) (r c : Int) (h0 : 0 ≤ c) (h1 : c < D) :
    flatten D g (r * D + c) = g r c := by
  unfold flatten
  have e : r * D + c = c + D * r := by ring
  rw [e, Int.add_mul_ediv_left _ _ (by omega), Int.add_mul_emod_self_left,
    Int.ediv_eq_zero_of_lt h0 h1, Int.emod_eq_of_lt h0 h1, zero_add]

theorem interior_all (D : Int) (P : Int → Int → Prop) [∀ x y, Decidable (P x y)] :
    ((loopRange 1 (D - 1)).all (fun x => (loopRange 1 (D - 1)).all (fun y => decide (P x y)))
        = true) ↔
      ∀ x y, 1 ≤ x → x ≤ D - 2 → 1 ≤ y → y ≤ D - 2 → P x y := by
  simp only [List.all_eq_true, mem_loopRange, decide_eq_true_eq]
  constructor
  · intro h x y h1 h2 h3 h4
    exact h x ⟨h1, by omega⟩ y ⟨h3, by omega⟩
  · intro h x hx y hy
    exact h x y hx.1 (by omega) hy.1 (by omega)

theorem tableRun_append (D : Int) (p : ℚ) :
    ∀ (n m : Nat) (t t2 t3 : List (List ℚ)), tableRun D p n t = some t2 →
      tableRun D p m t2 = some t3 → tableRun D p (n + m) t = some t3 := by
  intro n
  induction n with
  | zero =>
    intro m t t2 t3 h1 h2
    simp only [tableRun, Option.some.injEq] at h1
    subst h1
    rw [Nat.zero_add]
    exact h2
  | succ n ih =>
    intro m t t2 t3 h1 h2
    have e : n + 1 + m = (n + m) + 1 := by omega
    rw [e]
    unfold tableRun at h1 ⊢
    split_ifs at h1 ⊢ with hb
    exact ih m _ t2 t3 h1 h2

theorem tableRun_anti (D : Int) (p p2 : ℚ) (h : p ≤ p2) :
    ∀ (n : Nat) (t t2 : List (List ℚ)), tableRun D p2 n t = some t2 →
      tableRun D p n t = some t2 := by
  have hflag : ∀ t, tableBalanced D p t = true → tableBalanced D p2 t = true := by
    intro t
    unfold tableBalanced
    simp only [List.all_eq_true, decide_eq_true_eq, not_lt]
    intro hall x hx y hy
    exact le_trans (hall x hx y hy) h
  intro n
  induction n with
  | zero => intro t t2 h1; exact h1
  | succ n ih =>
    intro t t2 h1
    unfold tableRun at h1 ⊢
    split_ifs at h1 with hb
    rw [if_neg (fun hb2 => hb (hflag t hb2))]
    exact ih _ t2 h1

/-- C6 (as stated, refuted): on the spike matrix with `D = 3` and `p = 1/2` the
worker's pass lowers cell `(1, 1)` from 1 to 0, an update of magnitude
1 > 1/2, yet its `balanced` flag is still true at the end of the pass. -/
theorem worker_flag_misses_decrease :
    (Binary64.SharedMemory.workerPass 3 (1 / 2) 0 ⟨spikeGrid, true⟩).doubleMatrix 1 1 = 0 ∧
      spikeGrid 1 1 = 1 ∧
      |fsub ((Binary64.SharedMemory.workerPass 3 (1 / 2) 0 ⟨spikeGrid, true⟩).doubleMatrix 1 1)
          (spikeGrid 1 1)| > 1 / 2 ∧
      (Binary64.SharedMemory.workerPass 3 (1 / 2) 0 ⟨spikeGrid, true⟩).balanced = true := by
  refine ⟨by decide!, by decide!, by decide!, by decide!⟩

/-- Instance of the amended C6 at `D = 3`, `p = 1/1000`, on the start matrix. -/
theorem binary64_worker_flag_witness :
    (3 : Int) ≤ 3 ∧ WorkerReachable 3 (Relaxation.SharedMemory.createDoubleMatrix 3) ∧
      ((Binary64.SharedMemory.workerPass 3 (1 / 1000) 0
            ⟨Relaxation.SharedMemory.createDoubleMatrix 3, true⟩).balanced = false ↔
        ∃ x y, 1 ≤ x ∧ x ≤ (3 : Int) - 2 ∧ 1 ≤ y ∧ y ≤ (3 : Int) - 2 ∧
          |fsub ((Binary64.SharedMemory.workerPass 3 (1 / 1000) 0
                ⟨Relaxation.SharedMemory.createDoubleMatrix 3, true⟩).doubleMatrix x y)
              (Relaxation.SharedMemory.createDoubleMatrix 3 x y)| > 1 / 1000) :=
  ⟨by decide, WorkerReachable.start,
    (binary64_worker_flag 3 (1 / 1000) 0 _ (by decide) WorkerReachable.start).1⟩

end B64Counterexamples

section B64Chunks

open Binary64 Binary64.Sequential

set_option maxRecDepth 1000000 in
theorem five_run_a :
    tableRun 5 (1 / 4503599627370496) 25
      (gridTable 5 (fun i j => if i = 0 ∨ j = 0 then 1 else 0)) = some five25 := by
  decide!

set_option maxRecDepth 1000000 in
theorem five_run_b : tableRun 5 (1 / 4503599627370496) 25 five25 = some five50 := by
  decide!

set_option maxRecDepth 1000000 in
theorem five_run_c : tableRun 5 (1 / 4503599627370496) 25 five50 = some five75 := by
  decide!

set_option maxRecDepth 1000000 in
theorem five_run_d : tableRun 5 (1 / 4503599627370496) 25 five75 = some five100 := by
  decide!

set_option maxRecDepth 1000000 in
theorem four_run_a :
    tableRun 4 (1 / 9007199254740992) 25
      (gridTable 4 (fun i j => if i = 0 ∨ j = 0 then 1 else 0)) = some four25 := by
  decide!

set_option maxRecDepth 1000000 in
theorem four_run_b : tableRun 4 (1 / 9007199254740992) 26 four25 = some four51 := by
  decide!

set_option maxRecDepth 1000000 in
theorem four_run_c : tableRun 4 0 3 four51 = some four54 := by
  decide!

end B64Chunks

section B64Eval

open Binary64 Binary64.Sequential

theorem five_run_hundred :
    tableRun 5 (1 / 4503599627370496) 100
      (gridTable 5 (fun i j => if i = 0 ∨ j = 0 then 1 else 0)) = some five100 :=
  tableRun_append 5 _ 75 25 _ _ _
    (tableRun_append 5 _ 50 25 _ _ _ (tableRun_append 5 _ 25 25 _ _ _ five_run_a five_run_b)
      five_run_c) five_run_d

/-- C8 (as stated, refuted): the sequential engine started on
`createDoubleMatrix(5)` with `p = 2^-52` declares convergence in its pass 101,
in which every interior cell changes by at most `p`; one more pass on the
result changes the cell `(1, 2)` by `3 * 2^-53`, more than `p`. -/
theorem idempotence_fails_at_five :
    relaxation 5 (1 / 4503599627370496) 101
        = some (relaxationPass 5 (1 / 4503599627370496)
            ((nextState 5 (1 / 4503599627370496))^[100] (Sequential.initialState 5))) ∧
      (∀ x y : Int, 1 ≤ x → x ≤ 5 - 2 → 1 ≤ y → y ≤ 5 - 2 →
        |(relaxationPass 5 (1 / 4503599627370496)
              ((nextState 5 (1 / 4503599627370496))^[100]
                (Sequential.initialState 5))).doubleMatrix x y
          - ((nextState 5 (1 / 4503599627370496))^[100]
              (Sequential.initialState 5)).doubleMatrix x y| ≤ 1 / 4503599627370496) ∧
      (relaxationPass 5 (1 / 4503599627370496)
          (relaxationPass 5 (1 / 4503599627370496)
            ((nextState 5 (1 / 4503599627370496))^[100]
              (Sequential.initialState 5)))).doubleMatrix 1 2
        - (relaxationPass 5 (1 / 4503599627370496)
            ((nextState 5 (1 / 4503599627370496))^[100]
              (Sequential.initialState 5))).doubleMatrix 1 2 = 3 / 9007199254740992 ∧
      (1 : ℚ) / 4503599627370496 < 3 / 9007199254740992 := by
  obtain ⟨hloop, hbal, hagree⟩ := tableRun_agrees 5 (1 / 4503599627370496) 100
    (Sequential.initialState 5) _ five100 rfl (initialState_agrees 5 (by decide)) five_run_hundred
  have h101 := tablePass_agrees 5 (1 / 4503599627370496) _ five100 hagree
  have h102 := tablePass_agrees 5 (1 / 4503599627370496) _ (tablePass 5 five100) h101
  have hflag : (relaxationPass 5 (1 / 4503599627370496)
      ((nextState 5 (1 / 4503599627370496))^[100] (Sequential.initialState 5))).balanced
        = true := by
    rw [tableBalanced_agrees 5 (1 / 4503599627370496) _ five100 hbal hagree]
    decide!
  refine ⟨?_, ?_, ?_, by norm_num⟩
  · unfold relaxation
    rw [hloop 1]
    exact b64_loop_one 5 _ _ hflag
  · intro x y h1 h2 h3 h4
    rw [h101 x y (by omega) (by omega) (by omega) (by omega),
      hagree x y (by omega) (by omega) (by omega) (by omega)]
    exact (interior_all 5 (fun x y =>
      |tableGrid (tablePass 5 five100) x y - tableGrid five100 x y|
        ≤ 1 / 4503599627370496)).1 (by decide!) x y h1 h2 h3 h4
  · rw [h102 1 2 (by decide) (by decide) (by decide) (by decide),
      h101 1 2 (by decide) (by decide) (by decide) (by decide)]
    decide!

end B64Eval

section B64Eval2

open Binary64 Binary64.Sequential

theorem four_run_fifty_one :
    tableRun 4 (1 / 9007199254740992) 51
      (gridTable 4 (fun i j => if i = 0 ∨ j = 0 then 1 else 0)) = some four51 :=
  tableRun_append 4 _ 25 26 _ _ _ four_run_a four_run_b

/-- The sequential engine in binary64 arithmetic, started on
`createDoubleMatrix(4)` with `p = 0`, returns in its pass 55 and not before,
with the interior cells 3/4, 1/2, 1/2, 1/4. -/
theorem binary64_four_zero_returns :
    relaxation 4 0 54 = none ∧
      relaxation 4 0 55
        = some (relaxationPass 4 0 ((nextState 4 0)^[54] (Sequential.initialState 4))) ∧
      (relaxationPass 4 0 ((nextState 4 0)^[54] (Sequential.initialState 4))).doubleMatrix 1 1
        = 3 / 4 ∧
      (relaxationPass 4 0 ((nextState 4 0)^[54] (Sequential.initialState 4))).doubleMatrix 1 2
        = 1 / 2 ∧
      (relaxationPass 4 0 ((nextState 4 0)^[54] (Sequential.initialState 4))).doubleMatrix 2 1
        = 1 / 2 ∧
      (relaxationPass 4 0 ((nextState 4 0)^[54] (Sequential.initialState 4))).doubleMatrix 2 2
        = 1 / 4 := by
  obtain ⟨hloop, hbal, hagree⟩ := tableRun_agrees 4 0 54 (Sequential.initialState 4) _ four54 rfl
    (initialState_agrees 4 (by decide)) (tableRun_append 4 0 51 3 _ _ _
      (tableRun_anti 4 0 _ (by norm_num) 51 _ _ four_run_fifty_one) four_run_c)
  have h55 := tablePass_agrees 4 0 _ four54 hagree
  have hflag : (relaxationPass 4 0
      ((nextState 4 0)^[54] (Sequential.initialState 4))).balanced = true := by
    rw [tableBalanced_agrees 4 0 _ four54 hbal hagree]
    decide!
  refine ⟨?_, ?_, ?_, ?_, ?_, ?_⟩
  · unfold relaxation
    rw [hloop 0]
    rfl
  · unfold relaxation
    rw [hloop 1]
    exact b64_loop_one 4 _ _ hflag
  · rw [h55 1 1 (by decide) (by decide) (by decide) (by decide)]
    decide!
  · rw [h55 1 2 (by decide) (by decide) (by decide) (by decide)]
    decide!
  · rw [h55 2 1 (by decide) (by decide) (by decide) (by decide)]
    decide!
  · rw [h55 2 2 (by decide) (by decide) (by decide) (by decide)]
    decide!

/-- C2 (as stated, refuted): for `D = 4`, `p = 2^-53` and two ranks holding the
matrix `g` that the sequential engine holds after 51 passes from
`createDoubleMatrix(4)`, one iteration of the main loop leaves
`6755399441055743 / 2^53` (that is `3/4 - 2^-53`) in the cell `(1, 1)` of rank 0
and broadcasts `done = true`, while one sequential pass on `g` leaves `3/4` in
that cell and does not stop. -/
theorem iteration_differs_at_four :
    (∀ r, 0 ≤ r → r < (2 : Int) → ∀ x ∈ Spec.ownedRows 4 2 r, ∀ j, 0 ≤ j → j < (4 : Int) →
      (heldRanks 4 2 ((nextState 4 (1 / 9007199254740992))^[51]
          (Sequential.initialState 4)).doubleMatrix r).doubleMatrixBuffer
            (x * 4 + j - (Distributed.computeCounts 4 2).sendDisplacements r)
        = ((nextState 4 (1 / 9007199254740992))^[51]
            (Sequential.initialState 4)).doubleMatrix x j) ∧
      (1 : Int) ∈ Spec.ownedRows 4 2 0 ∧
      ((Binary64.Distributed.iteration 4 2 (1 / 9007199254740992)
          (heldRanks 4 2 ((nextState 4 (1 / 9007199254740992))^[51]
            (Sequential.initialState 4)).doubleMatrix)).ranks 0).doubleMatrixBuffer
              (1 * 4 + 1 - (Distributed.computeCounts 4 2).sendDisplacements 0)
        = 6755399441055743 / 9007199254740992 ∧
      (relaxationPass 4 (1 / 9007199254740992)
          ((nextState 4 (1 / 9007199254740992))^[51]
            (Sequential.initialState 4))).doubleMatrix 1 1 = 3 / 4 ∧
      (Binary64.Distributed.iteration 4 2 (1 / 9007199254740992)
          (heldRanks 4 2 ((nextState 4 (1 / 9007199254740992))^[51]
            (Sequential.initialState 4)).doubleMatrix)).done 0 = true ∧
      (relaxationPass 4 (1 / 9007199254740992)
          ((nextState 4 (1 / 9007199254740992))^[51]
            (Sequential.initialState 4))).balanced = false := by
  obtain ⟨_, hbal, hagree⟩ := tableRun_agrees 4 (1 / 9007199254740992) 51
    (Sequential.initialState 4) _ four51 rfl (initialState_agrees 4 (by decide))
    four_run_fifty_one
  have hheld := heldRanks_holds 4 2
    ((nextState 4 (1 / 9007199254740992))^[51] (Sequential.initialState 4)).doubleMatrix
    (by decide)
  have hown : (1 : Int) ∈ Spec.ownedRows 4 2 0 := by decide
  refine ⟨hheld, hown, ?_, ?_, ?_, ?_⟩
  · rw [b64_iteration_cells 4 2 _ _ _ (by decide) (by decide) hheld 0 (by decide) (by decide) 1
      hown 1 (by decide) (by decide), if_pos (by decide),
      hagree 1 (1 - 1) (by decide) (by decide) (by decide) (by decide),
      hagree 1 (1 + 1) (by decide) (by decide) (by decide) (by decide),
      hagree (1 + 1) 1 (by decide) (by decide) (by decide) (by decide),
      hagree (1 - 1) 1 (by decide) (by decide) (by decide) (by decide)]
    decide!
  · rw [b64_relaxationPass_matrix, if_pos (by decide),
      b64_average_congr 4 _ _ hagree 1 1 (by decide) (by decide)]
    decide!
  · rw [b64_iteration_done_iff 4 2 _ _ _ (by decide) (by decide) hheld 0 (by decide) (by decide)]
    intro x y h1 h2 h3 h4
    rw [hagree x (y - 1) (by omega) (by omega) (by omega) (by omega),
      hagree x (y + 1) (by omega) (by omega) (by omega) (by omega),
      hagree (x + 1) y (by omega) (by omega) (by omega) (by omega),
      hagree (x - 1) y (by omega) (by omega) (by omega) (by omega),
      hagree x y (by omega) (by omega) (by omega) (by omega)]
    exact (interior_all 4 (fun x y =>
      ¬ |fsub (sumDiv4 (tableGrid four51 x (y - 1)) (tableGrid four51 x (y + 1))
            (tableGrid four51 (x + 1) y) (tableGrid four51 (x - 1) y))
          (tableGrid four51 x y)| > 1 / 9007199254740992)).1 (by decide!) x y h1 h2 h3 h4
  · rw [tableBalanced_agrees 4 _ _ four51 hbal hagree]
    decide!

/-- C11 (as stated, refuted): on the 3 × 3 matrix with `2^53` above the centre
and `1` to its left and below it, the stencil of the sequential engine returns
`2^51` at the cell `(1, 1)` (`2^53 + 1` rounds to `2^53` twice), while the flat
stencil of the distributed engine on the row-major flattening returns
`2^51 + 1/2` (`1 + 0 + 1 + 2^53` is exact); and on the matrix that the
sequential engine holds after 51 passes from `createDoubleMatrix(4)` the two
stencils return `3/4` and `3/4 - 2^-53` at the cell `(1, 1)`. -/
theorem stencil_order_differs :
    (∀ r c : Int, 0 ≤ r → r < 3 → 0 ≤ c → c < 3 → roundingBuf (r * 3 + c) = roundingGrid r c) ∧
      Binary64.Sequential.averageNeighbours roundingGrid 1 1 = 2251799813685248 ∧
      Binary64.SharedMemory.averageNeighbours roundingGrid 1 1 = 2251799813685248 ∧
      Binary64.Distributed.averageNeighbours 3 roundingBuf 1 1 = 4503599627370497 / 2 ∧
      (∀ r c : Int, 0 ≤ r → r < 4 → 0 ≤ c → c < 4 →
        flatten 4 ((nextState 4 (1 / 9007199254740992))^[51]
            (Sequential.initialState 4)).doubleMatrix (r * 4 + c)
          = ((nextState 4 (1 / 9007199254740992))^[51]
              (Sequential.initialState 4)).doubleMatrix r c) ∧
      Binary64.Sequential.averageNeighbours
          ((nextState 4 (1 / 9007199254740992))^[51]
            (Sequential.initialState 4)).doubleMatrix 1 1 = 3 / 4 ∧
      Binary64.Distributed.averageNeighbours 4
          (flatten 4 ((nextState 4 (1 / 9007199254740992))^[51]
            (Sequential.initialState 4)).doubleMatrix) 1 1
        = 6755399441055743 / 9007199254740992 := by
  obtain ⟨_, _, hagree⟩ := tableRun_agrees 4 (1 / 9007199254740992) 51
    (Sequential.initialState 4) _ four51 rfl (initialState_agrees 4 (by decide))
    four_run_fifty_one
  refine ⟨?_, by decide!, by decide!, by decide!, ?_, ?_, ?_⟩
  · intro r c _ _ h3 h4
    exact flatten_apply 3 roundingGrid r c h3 h4
  · intro r c _ _ h3 h4
    exact flatten_apply 4 _ r c h3 h4
  · rw [b64_average_congr 4 _ _ hagree 1 1 (by decide) (by decide)]
    decide!
  · unfold Binary64.Distributed.averageNeighbours Distributed.getElemFromDoubleMatrix
    rw [flatten_apply 4 _ 1 (1 - 1) (by decide) (by decide),
      flatten_apply 4 _ 1 (1 + 1) (by decide) (by decide),
      flatten_apply 4 _ (1 + 1) 1 (by decide) (by decide),
      flatten_apply 4 _ (1 - 1) 1 (by decide) (by decide),
      hagree 1 (1 - 1) (by decide) (by decide) (by decide) (by decide),
      hagree 1 (1 + 1) (by decide) (by decide) (by decide) (by decide),
      hagree (1 + 1) 1 (by decide) (by decide) (by decide) (by decide),
      hagree (1 - 1) 1 (by decide) (by decide) (by decide) (by decide)]
    decide!

end B64Eval2

section B64Witnesses

open Binary64

/-- Instance of the amended C11 at `D = 3`, cell `(1, 1)`, on the start grids
of the programs: all partial sums are small integers, so the three versions
return the exact mean `1/2`. -/
theorem binary64_stencil_orders_witness :
    (∀ r c : Int, 0 ≤ r → r < 3 → 0 ≤ c → c < 3 →
        Distributed.createDoubleMatrix 3 (r * 3 + c) = Sequential.createDoubleMatrix 3 r c) ∧
      (1 ≤ (1 : Int) ∧ (1 : Int) ≤ 3 - 2) ∧
      Binary64.Distributed.averageNeighbours 3 (Distributed.createDoubleMatrix 3) 1 1
        = Binary64.Sequential.averageNeighbours (Sequential.createDoubleMatrix 3) 1 1 ∧
      Binary64.Sequential.averageNeighbours (Sequential.createDoubleMatrix 3) 1 1 = 1 / 2 := by
  have hflat : ∀ r c : Int, 0 ≤ r → r < 3 → 0 ≤ c → c < 3 →
      Distributed.createDoubleMatrix 3 (r * 3 + c) = Sequential.createDoubleMatrix 3 r c := by
    intro r c h1 h2 h3 h4
    exact (dist_createDoubleMatrix_apply 3 r c ⟨h1, h2⟩ ⟨h3, h4⟩).trans
      (seq_createDoubleMatrix_apply 3 (by decide) r c ⟨h1, h2⟩ ⟨h3, h4⟩).symm
  have h := (binary64_stencil_orders 3 (Sequential.createDoubleMatrix 3)
    (Distributed.createDoubleMatrix 3) 1 1 hflat (by decide) (by decide)).2.2.2.1
    (by unfold Representable; decide!) (by unfold Representable; decide!)
    (by unfold Representable; decide!) (by unfold Representable; decide!)
    (by unfold Representable; decide!) (by unfold Representable; decide!)
  refine ⟨hflat, by decide, h.2.1, ?_⟩
  rw [h.1]
  decide!

/-- Instance of the amended C2 at `D = 3`, two ranks, `p = 1/1000`, every rank
holding the start grid: the two stencils agree on it, so the iteration gives
the rows and the stop decision of the sequential pass. -/
theorem binary64_iteration_jacobi_witness :
    (2 : Int) ≤ 2 ∧ (2 : Int) ≤ 3 ∧ (Sequential.initialState 3).balanced = true ∧
      (∀ r, 0 ≤ r → r < (2 : Int) → ∀ x ∈ Spec.ownedRows 3 2 r, ∀ j, 0 ≤ j → j < (3 : Int) →
        (sampleRanks r).doubleMatrixBuffer
            (x * 3 + j - (Distributed.computeCounts 3 2).sendDisplacements r)
          = (Sequential.initialState 3).doubleMatrix x j) ∧
      (∀ r, 0 ≤ r → r < (2 : Int) → ∀ x ∈ Spec.ownedRows 3 2 r, ∀ j, 0 ≤ j → j < (3 : Int) →
        ((Binary64.Distributed.iteration 3 2 (1 / 1000) sampleRanks).ranks r).doubleMatrixBuffer
            (x * 3 + j - (Distributed.computeCounts 3 2).sendDisplacements r)
          = (Binary64.Sequential.relaxationPass 3 (1 / 1000)
              (Sequential.initialState 3)).doubleMatrix x j) ∧
      (∀ r, 0 ≤ r → r < (2 : Int) →
        (Binary64.Distributed.iteration 3 2 (1 / 1000) sampleRanks).done r
          = (Binary64.Sequential.relaxationPass 3 (1 / 1000)
              (Sequential.initialState 3)).balanced) := by
  have hheld : ∀ r, 0 ≤ r → r < (2 : Int) → ∀ x ∈ Spec.ownedRows 3 2 r, ∀ j, 0 ≤ j →
      j < (3 : Int) →
      (sampleRanks r).doubleMatrixBuffer
          (x * 3 + j - (Distributed.computeCounts 3 2).sendDisplacements r)
        = (Sequential.initialState 3).doubleMatrix x j := by
    intro r h0 h1 x hx j hj0 hj1
    have hr : r = 0 ∨ r = 1 := by omega
    have hx' : 0 ≤ x ∧ x < 3 := by
      rcases hr with rfl | rfl
      · have e : Spec.ownedRows 3 2 0 = [0] := by decide
        rw [e] at hx
        simp at hx
        omega
      · have e : Spec.ownedRows 3 2 1 = [1, 2] := by decide
        rw [e] at hx
        simp at hx
        omega
    have hsd : (Distributed.computeCounts 3 2).sendDisplacements r = 0 := by
      rcases hr with rfl | rfl <;> decide
    rw [hsd, sub_zero]
    exact (dist_createDoubleMatrix_apply 3 x j hx' ⟨hj0, hj1⟩).trans
      (seq_createDoubleMatrix_apply 3 (by decide) x j hx' ⟨hj0, hj1⟩).symm
  have hagree : ∀ x y : Int, 1 ≤ x → x ≤ 3 - 2 → 1 ≤ y → y ≤ 3 - 2 →
      sumDiv4 ((Sequential.initialState 3).doubleMatrix x (y - 1))
          ((Sequential.initialState 3).doubleMatrix x (y + 1))
          ((Sequential.initialState 3).doubleMatrix (x + 1) y)
          ((Sequential.initialState 3).doubleMatrix (x - 1) y)
        = Binary64.Sequential.averageNeighbours (Sequential.initialState 3).doubleMatrix x y := by
    intro x y h1 h2 h3 h4
    obtain rfl : x = 1 := by omega
    obtain rfl : y = 1 := by omega
    decide!
  have h := (binary64_iteration_jacobi 3 2 (1 / 1000) (Sequential.initialState 3) sampleRanks
    (by decide) (by decide) rfl hheld).2.2.2 hagree
  exact ⟨by decide, by decide, rfl, hheld, h.1, h.2⟩

/-- Instance of the amended C8 at `D = 4`, `p = 1/2`, on the start state: the
first pass moves the cell `(1, 1)` from 0 to 1/2, the second one to 5/8. -/
theorem binary64_pass_idempotent_witness :
    (0 : ℚ) ≤ 1 / 2 ∧
      (∀ i j : Int, 0 ≤ i → i < 4 → 0 ≤ j → j < 4 →
        0 ≤ (Sequential.initialState 4).doubleMatrix i j ∧
          (Sequential.initialState 4).doubleMatrix i j ≤ 1) ∧
      (∀ x y : Int, 1 ≤ x → x ≤ 4 - 2 → 1 ≤ y → y ≤ 4 - 2 →
        |fsub ((Binary64.Sequential.relaxationPass 4 (1 / 2)
              (Sequential.initialState 4)).doubleMatrix x y)
            ((Sequential.initialState 4).doubleMatrix x y)| ≤ 1 / 2) ∧
      (∀ x y : Int, 1 ≤ x → x ≤ 4 - 2 → 1 ≤ y → y ≤ 4 - 2 →
        |(Binary64.Sequential.relaxationPass 4 (1 / 2)
              (Binary64.Sequential.relaxationPass 4 (1 / 2)
                (Sequential.initialState 4))).doubleMatrix x y
            - (Binary64.Sequential.relaxationPass 4 (1 / 2)
                (Sequential.initialState 4)).doubleMatrix x y| ≤ 1 / 2 + pow2 (-51) ∧
          |fsub ((Binary64.Sequential.relaxationPass 4 (1 / 2)
                (Binary64.Sequential.relaxationPass 4 (1 / 2)
                  (Sequential.initialState 4))).doubleMatrix x y)
              ((Binary64.Sequential.relaxationPass 4 (1 / 2)
                (Sequential.initialState 4)).doubleMatrix x y)| ≤ 1 / 2 + pow2 (-50)) := by
  have hrange : ∀ i j : Int, 0 ≤ i → i < 4 → 0 ≤ j → j < 4 →
      0 ≤ (Sequential.initialState 4).doubleMatrix i j ∧
        (Sequential.initialState 4).doubleMatrix i j ≤ 1 := by
    intro i j hi0 hi1 hj0 hj1
    have e : (Sequential.initialState 4).doubleMatrix i j = if i = 0 ∨ j = 0 then 1 else 0 :=
      seq_createDoubleMatrix_apply 4 (by decide) i j ⟨hi0, hi1⟩ ⟨hj0, hj1⟩
    rw [e]
    split_ifs <;> norm_num
  have hagree := initialState_agrees 4 (by decide)
  have hpass := tablePass_agrees 4 (1 / 2) _ _ hagree
  have hconv : ∀ x y : Int, 1 ≤ x → x ≤ 4 - 2 → 1 ≤ y → y ≤ 4 - 2 →
      |fsub ((Binary64.Sequential.relaxationPass 4 (1 / 2)
            (Sequential.initialState 4)).doubleMatrix x y)
          ((Sequential.initialState 4).doubleMatrix x y)| ≤ 1 / 2 := by
    intro x y h1 h2 h3 h4
    rw [hpass x y (by omega) (by omega) (by omega) (by omega),
      hagree x y (by omega) (by omega) (by omega) (by omega)]
    exact (interior_all 4 (fun x y =>
      |fsub (tableGrid (tablePass 4 (gridTable 4 (fun i j => if i = 0 ∨ j = 0 then 1 else 0))) x y)
          (tableGrid (gridTable 4 (fun i j => if i = 0 ∨ j = 0 then 1 else 0)) x y)|
        ≤ 1 / 2)).1 (by decide!) x y h1 h2 h3 h4
  exact ⟨by norm_num, hrange, hconv,
    binary64_pass_idempotent 4 (1 / 2) (Sequential.initialState 4) (by norm_num) hrange hconv⟩

end B64Witnesses

end Relaxation
